import Mathlib

/-!
# Verification of the Laplace Cartesian FMM kernel

Shallow embedding of `kernel/LaplaceCartesian.hpp`: the Cartesian Taylor
multipole/local expansion engine of a Laplace fast-multipole method.

Modelling conventions:
* A multi-index `α = (nx, ny, nz)` is an element of `MIdx := ℕ × ℕ × ℕ`.
* Coefficient vectors (`Vec<MTERM,real>`, `Vec<LTERM,real>`) are modelled as
  total functions `MIdx → F`, read through the linear-slot bijection
  `cart_index` (proved to be a bijection from `{α : |α| ≤ D}` onto
  `{0, …, LTERM−1}` below, which justifies indexing by multi-indices).
  Entries beyond the vector's degree bound are kept at `0` so that the
  functions represent the exact content of the fixed-length vectors.
* `real` (IEEE double in the source) is idealised as exact arithmetic in a
  field; the sqrt-free core is polymorphic over a `Field F`, the wrappers
  that take square roots (`operator()`, `M2L`, `M2P`) are over `ℝ`.
* The template recursions (`Terms`, `DerivativeSum`, `M2MSum`, `M2LSum`,
  `LocalSum`, `Upward`, `Downward`) unroll, at compile time, loops whose
  writes happen in increasing slot order and whose reads are always of
  slots of strictly smaller total degree (or earlier slots of the same
  tableau); each is embedded as the corresponding recursion on
  multi-indices, as detailed at each definition.
-/

/-- Multi-index `(nx, ny, nz)` of a Cartesian monomial. -/
abbrev MIdx : Type := ℕ × ℕ × ℕ

/-- Total degree `|α| = nx + ny + nz` of a multi-index. -/
def deg (α : MIdx) : ℕ := α.1 + α.2.1 + α.2.2

/-- Source `cart_index`: linear slot of the multi-index `(nx, ny, nz)`,
`(nx+ny+nz)*(nx+ny+nz+1)*(nx+ny+nz+2)/6 + (ny+nz)*(ny+nz+1)/2 + nz`. -/
def cart_index (nx ny nz : ℕ) : ℕ :=
  (nx+ny+nz)*(nx+ny+nz+1)*(nx+ny+nz+2)/6 + (ny+nz)*(ny+nz+1)/2 + nz

/-- Source `factorial` (defined there by `k <= 1 ? 1 : k * factorial(k-1)`). -/
def factorial (k : ℕ) : ℕ :=
  if k ≤ 1 then 1 else k * factorial (k-1)

/-- Source `cart_value`: the weight `α! = nx! * ny! * nz!`. -/
def cart_value (nx ny nz : ℕ) : ℕ := factorial nx * factorial ny * factorial nz

/-- The linear slot of a multi-index (uncurried `cart_index`). -/
def cartIdx (α : MIdx) : ℕ := cart_index α.1 α.2.1 α.2.2

/-- The weight `α!` of a multi-index (uncurried `cart_value`). -/
def cartVal (α : MIdx) : ℕ := cart_value α.1 α.2.1 α.2.2

/-- Triangular numbers, recursively: `tri m = m*(m+1)/2`. -/
def tri : ℕ → ℕ
  | 0 => 0
  | m+1 => tri m + (m+1)

/-- Tetrahedral numbers, recursively: `tet n = n*(n+1)*(n+2)/6`. -/
def tet : ℕ → ℕ
  | 0 => 0
  | n+1 => tet n + tri (n+1)

theorem tri_succ (m : ℕ) : tri (m+1) = tri m + (m+1) := rfl

theorem tet_succ (n : ℕ) : tet (n+1) = tet n + tri (n+1) := rfl

theorem factorial_eq (k : ℕ) : factorial k = Nat.factorial k := by
  induction k with
  | zero => simp [factorial]
  | succ n ih =>
    rw [factorial]
    rcases Nat.eq_zero_or_pos n with h | h
    · subst h; simp [Nat.factorial]
    · have : ¬ n + 1 ≤ 1 := by omega
      simp only [this, if_false, Nat.succ_sub_one, ih, Nat.factorial_succ]

theorem factorial_pos (k : ℕ) : 0 < factorial k := by
  rw [factorial_eq]; exact Nat.factorial_pos k

theorem two_tri (m : ℕ) : 2 * tri m = m * (m+1) := by
  induction m with
  | zero => simp [tri]
  | succ n ih => rw [tri_succ, Nat.mul_add, ih]; ring

theorem six_tet (n : ℕ) : 6 * tet n = n * (n+1) * (n+2) := by
  induction n with
  | zero => simp [tet]
  | succ n ih =>
    rw [tet_succ, Nat.mul_add, ih]
    have h : 2 * tri (n+1) = (n+1) * (n+1+1) := two_tri (n+1)
    have h6 : 6 * tri (n+1) = 3 * ((n+1) * (n+1+1)) := by omega
    rw [h6]; ring

theorem tri_eq (m : ℕ) : m * (m+1) / 2 = tri m := by
  rw [← two_tri]; exact Nat.mul_div_cancel_left _ (by norm_num)

theorem tet_eq (n : ℕ) : n * (n+1) * (n+2) / 6 = tet n := by
  rw [← six_tet]; exact Nat.mul_div_cancel_left _ (by norm_num)

theorem cartIdx_eq (x y z : ℕ) :
    cartIdx (x, y, z) = tet (x+y+z) + (tri (y+z) + z) := by
  show cart_index x y z = _
  rw [cart_index, tet_eq, tri_eq]
  omega

theorem tri_mono : Monotone tri :=
  monotone_nat_of_le_succ (fun m => by rw [tri_succ]; omega)

theorem tet_mono : Monotone tet :=
  monotone_nat_of_le_succ (fun n => by rw [tet_succ]; omega)

/-- Within one degree the triangular offset stays below the next block. -/
theorem tri_block_lt (m z n : ℕ) (hz : z ≤ m) (hm : m ≤ n) :
    tri m + z < tri (n+1) := by
  have h1 : tri (m+1) = tri m + (m+1) := tri_succ m
  have h2 : tri (m+1) ≤ tri (n+1) := tri_mono (by omega)
  omega

/-- The slot of a degree-`n` multi-index lies in `[tet n, tet (n+1))`. -/
theorem cartIdx_range (x y z : ℕ) :
    tet (x+y+z) ≤ cartIdx (x, y, z) ∧ cartIdx (x, y, z) < tet (x+y+z+1) := by
  have h := cartIdx_eq x y z
  have hb : tri (y+z) + z < tri (x+y+z+1) := tri_block_lt (y+z) z (x+y+z) (by omega) (by omega)
  have ht : tet (x+y+z+1) = tet (x+y+z) + tri (x+y+z+1) := tet_succ (x+y+z)
  omega

/-- Triangular decomposition is unique. -/
theorem tri_add_inj (m z m' z' : ℕ) (hz : z ≤ m) (hz' : z' ≤ m')
    (h : tri m + z = tri m' + z') : m = m' ∧ z = z' := by
  rcases lt_trichotomy m m' with hlt | heq | hgt
  · have h1 : tri (m+1) = tri m + (m+1) := tri_succ m
    have h2 : tri (m+1) ≤ tri m' := tri_mono (by omega)
    omega
  · subst heq; omega
  · have h1 : tri (m'+1) = tri m' + (m'+1) := tri_succ m'
    have h2 : tri (m'+1) ≤ tri m := tri_mono (by omega)
    omega

/-- Tetra decomposition is unique. -/
theorem tet_add_inj (n r n' r' : ℕ) (hr : r < tri (n+1)) (hr' : r' < tri (n'+1))
    (h : tet n + r = tet n' + r') : n = n' := by
  rcases lt_trichotomy n n' with hlt | heq | hgt
  · have h3 : tet (n+1) = tet n + tri (n+1) := tet_succ n
    have h2 : tet (n+1) ≤ tet n' := tet_mono (by omega)
    omega
  · exact heq
  · have h3 : tet (n'+1) = tet n' + tri (n'+1) := tet_succ n'
    have h2 : tet (n'+1) ≤ tet n := tet_mono (by omega)
    omega

/-- `cart_index` is injective on all multi-indices (no two share a slot). -/
theorem cartIdx_inj : Function.Injective cartIdx := by
  rintro ⟨x, y, z⟩ ⟨x', y', z'⟩ h
  rw [cartIdx_eq x y z, cartIdx_eq x' y' z'] at h
  have hb1 : tri (y+z) + z < tri (x+y+z+1) := tri_block_lt (y+z) z (x+y+z) (by omega) (by omega)
  have hb2 : tri (y'+z') + z' < tri (x'+y'+z'+1) :=
    tri_block_lt (y'+z') z' (x'+y'+z') (by omega) (by omega)
  have hn : x + y + z = x' + y' + z' :=
    tet_add_inj (x+y+z) (tri (y+z) + z) (x'+y'+z') (tri (y'+z') + z') hb1 hb2 h
  have htn : tet (x+y+z) = tet (x'+y'+z') := by rw [hn]
  have hmz : y + z = y' + z' ∧ z = z' :=
    tri_add_inj (y+z) z (y'+z') z' (by omega) (by omega) (by omega)
  have hc : x = x' ∧ y = y' ∧ z = z' := by omega
  simp [Prod.ext_iff, hc.1, hc.2.1, hc.2.2]

/-- The multi-indices of total degree at most `n`, as a finite set (the slots
of a coefficient vector of maximal degree `n`). -/
def idxUpto (n : ℕ) : Finset MIdx :=
  (Finset.range (n+1) ×ˢ Finset.range (n+1) ×ˢ Finset.range (n+1)).filter
    (fun α => deg α ≤ n)

/-- The multi-indices `α` with `1 ≤ |α| ≤ n` (the slots scanned by the
source loops `for (i = 1; i < TERMS; ++i)`, via the slot bijection). -/
def idxPos (n : ℕ) : Finset MIdx := (idxUpto n).filter (fun α => 1 ≤ deg α)

/-- The multi-indices of total degree exactly `n`. -/
def sliceF (n : ℕ) : Finset MIdx := (idxUpto n).filter (fun α => deg α = n)

/-- The componentwise box `{β : β ≤ α}`. -/
def boxLe (α : MIdx) : Finset MIdx :=
  Finset.range (α.1+1) ×ˢ Finset.range (α.2.1+1) ×ˢ Finset.range (α.2.2+1)

theorem mem_idxUpto {n : ℕ} {α : MIdx} : α ∈ idxUpto n ↔ deg α ≤ n := by
  obtain ⟨x, y, z⟩ := α
  simp only [idxUpto, Finset.mem_filter, Finset.mem_product, Finset.mem_range, deg]
  omega

theorem mem_idxPos {n : ℕ} {α : MIdx} : α ∈ idxPos n ↔ 1 ≤ deg α ∧ deg α ≤ n := by
  simp only [idxPos, Finset.mem_filter, mem_idxUpto]
  tauto

theorem mem_sliceF {n : ℕ} {α : MIdx} : α ∈ sliceF n ↔ deg α = n := by
  simp only [sliceF, Finset.mem_filter, mem_idxUpto]
  omega

theorem mem_boxLe {α β : MIdx} : β ∈ boxLe α ↔ β.1 ≤ α.1 ∧ β.2.1 ≤ α.2.1 ∧ β.2.2 ≤ α.2.2 := by
  obtain ⟨x, y, z⟩ := α; obtain ⟨a, b, c⟩ := β
  simp only [boxLe, Finset.mem_product, Finset.mem_range]
  omega

/-- Surjectivity of the triangular part: every `s < tri (n+1)` is
`tri m + z` with `z ≤ m ≤ n`. -/
theorem tri_surj (n : ℕ) : ∀ s, s < tri (n+1) → ∃ m z, z ≤ m ∧ m ≤ n ∧ tri m + z = s := by
  induction n with
  | zero => intro s hs; simp [tri_succ, tri] at hs; exact ⟨0, 0, by omega, by omega, by simp [tri]; omega⟩
  | succ n ih =>
    intro s hs
    rcases lt_or_le s (tri (n+1)) with h | h
    · obtain ⟨m, z, h1, h2, h3⟩ := ih s h
      exact ⟨m, z, h1, by omega, h3⟩
    · refine ⟨n+1, s - tri (n+1), ?_, le_refl _, by omega⟩
      have := tri_succ (n+1)
      omega

/-- The slots of the degree-`n` multi-indices are exactly the contiguous
range `[tet n, tet (n+1))`. -/
theorem image_sliceF (n : ℕ) :
    Finset.image cartIdx (sliceF n) = Finset.Ico (tet n) (tet (n+1)) := by
  apply Finset.ext
  intro s
  simp only [Finset.mem_image, Finset.mem_Ico]
  constructor
  · rintro ⟨⟨x, y, z⟩, hmem, rfl⟩
    rw [mem_sliceF] at hmem
    have hd : x + y + z = n := hmem
    have h := cartIdx_range x y z
    rw [hd] at h
    exact h
  · rintro ⟨h1, h2⟩
    have hb : s - tet n < tri (n+1) := by
      have := tet_succ n; omega
    obtain ⟨m, z, hzm, hmn, hmz⟩ := tri_surj n (s - tet n) hb
    refine ⟨(n - m, m - z, z), ?_, ?_⟩
    · rw [mem_sliceF]; show (n-m) + (m-z) + z = n; omega
    · have he := cartIdx_eq (n-m) (m-z) z
      have hyz : (m - z) + z = m := by omega
      have hs : (n-m) + (m-z) + z = n := by omega
      rw [hyz, hs] at he
      omega

/-- The set of degree-`≤ n` multi-indices decomposes into the lower set and
the top slice. -/
theorem idxUpto_succ (n : ℕ) : idxUpto (n+1) = idxUpto n ∪ sliceF (n+1) := by
  apply Finset.ext
  intro α
  simp only [Finset.mem_union, mem_idxUpto, mem_sliceF]
  omega

/-- The slots of all multi-indices of degree `≤ n` are exactly
`{0, …, tet (n+1) − 1}`. -/
theorem image_idxUpto (n : ℕ) :
    Finset.image cartIdx (idxUpto n) = Finset.range (tet (n+1)) := by
  induction n with
  | zero =>
    have h0 : idxUpto 0 = {((0 : ℕ), (0 : ℕ), (0 : ℕ))} := by
      apply Finset.ext
      rintro ⟨x, y, z⟩
      simp only [mem_idxUpto, Finset.mem_singleton, deg, Prod.ext_iff]
      omega
    rw [h0]
    decide
  | succ n ih =>
    rw [idxUpto_succ, Finset.image_union, ih, image_sliceF]
    rw [Finset.range_eq_Ico]
    rw [Finset.Ico_union_Ico_eq_Ico (by omega) (tet_mono (by omega))]

theorem cartVal_pos (α : MIdx) : 0 < cartVal α := by
  obtain ⟨x, y, z⟩ := α
  exact Nat.mul_pos (Nat.mul_pos (factorial_pos x) (factorial_pos y)) (factorial_pos z)

/-- C6: for every order `P`, the slot map `α ↦ I(α)` with
`I(nx,ny,nz) = n(n+1)(n+2)/6 + m(m+1)/2 + nz` (`n = nx+ny+nz`, `m = ny+nz`),
restricted to multi-indices with `|α| ≤ P`, is a bijection onto
`{0, …, LTERM−1}` with `LTERM = (P+1)(P+2)(P+3)/6` (no two multi-indices
share a slot, and the degree-`d` indices fill the contiguous range
`[d(d+1)(d+2)/6, (d+1)(d+2)(d+3)/6)`), and the weight
`α! = nx!·ny!·nz!` is a positive integer for every multi-index. -/
theorem C6_index_bijection (P : ℕ) :
    Set.InjOn cartIdx (idxUpto P) ∧
    Finset.image cartIdx (idxUpto P) = Finset.range ((P+1)*(P+2)*(P+3)/6) ∧
    (∀ d : ℕ, Finset.image cartIdx (sliceF d) =
      Finset.Ico (d*(d+1)*(d+2)/6) ((d+1)*(d+2)*(d+3)/6)) ∧
    (∀ α : MIdx, 0 < cartVal α) := by
  refine ⟨fun a _ b _ h => cartIdx_inj h, ?_, ?_, cartVal_pos⟩
  · have h := tet_eq (P+1)
    have h1 : (P+1)+1 = P+2 := rfl
    have h2 : (P+1)+2 = P+3 := rfl
    rw [h1, h2] at h
    rw [h, image_idxUpto]
  · intro d
    have h := tet_eq (d+1)
    have h1 : (d+1)+1 = d+2 := rfl
    have h2 : (d+1)+2 = d+3 := rfl
    rw [h1, h2] at h
    rw [h, tet_eq, image_sliceF]

variable {F : Type*} [Field F]

/-- Source `Terms<nx,ny,nz>::power` chain: starting from the seed in slot 0
(`1`, or the charge in `P2M`), it fills the tableau by
`C[I(nx,ny,nz)] = C[I(nx,ny,nz-1)] * dist[2] / nz` when `nz ≥ 1`, by
`C[I(nx,ny,0)] = C[I(nx,ny-1,0)] * dist[1] / ny` when `ny ≥ 1`, and by
`C[I(nx,0,0)] = C[I(nx-1,0,0)] * dist[0] / nx` when `ny = nz = 0, nx ≥ 1`
(the three `Terms` specialisations).  The template chain
`Terms<0,0,D>::power` writes the slots in increasing slot order, each from
an already-written slot, so the tableau is this recursion on multi-indices. -/
def powerC (seed : F) (d : F × F × F) : MIdx → F
  | (nx, ny, nz+1) => powerC seed d (nx, ny, nz) * d.2.2 / ((nz+1 : ℕ) : F)
  | (nx, ny+1, 0) => powerC seed d (nx, ny, 0) * d.2.1 / ((ny+1 : ℕ) : F)
  | (nx+1, 0, 0) => powerC seed d (nx, 0, 0) * d.1 / ((nx+1 : ℕ) : F)
  | (0, 0, 0) => seed

/-- Source `Terms<nx,ny,nz>::derivative` together with the unrolled
`DerivativeSum<nx,ny,nz>::loop`.  For `n = |α| ≥ 1` the flag machine
`DerivativeSum` (flags 5/4 for the z axis, 3/2 for y, 1/0 for x) expands to
exactly two kinds of terms per axis `a`:
`DerivativeTerm<n,α-e_a,a>` contributing `(1-2n) * dist[a] * C[I(α-e_a)]`
whenever `α_a ≥ 1`, and `DerivativeTerm<n,α-2e_a,-1>` contributing
`(1-n) * C[I(α-2e_a)]` whenever `α_a ≥ 2` (the in-axis loop leaves flag 5/3/1
after its first step unless more than one decrement remains, so at most these
two terms arise per axis).  The slot is then
`C[I(α)] = DerivativeSum::loop / n * invR2`, with `C[0]` holding the seed.
Writes happen in increasing slot order and only read lower-degree slots, so
the tableau is this recursion on the total degree. -/
def derivSlot (d : F × F × F) (invR2 seed : F) (α : MIdx) : F :=
  if deg α = 0 then seed
  else
    ((if 1 ≤ α.1 then (1 - 2*(deg α : F)) * d.1 * derivSlot d invR2 seed (α.1-1, α.2.1, α.2.2) else 0)
      + (if 2 ≤ α.1 then (1 - (deg α : F)) * derivSlot d invR2 seed (α.1-2, α.2.1, α.2.2) else 0)
      + (if 1 ≤ α.2.1 then (1 - 2*(deg α : F)) * d.2.1 * derivSlot d invR2 seed (α.1, α.2.1-1, α.2.2) else 0)
      + (if 2 ≤ α.2.1 then (1 - (deg α : F)) * derivSlot d invR2 seed (α.1, α.2.1-2, α.2.2) else 0)
      + (if 1 ≤ α.2.2 then (1 - 2*(deg α : F)) * d.2.2 * derivSlot d invR2 seed (α.1, α.2.1, α.2.2-1) else 0)
      + (if 2 ≤ α.2.2 then (1 - (deg α : F)) * derivSlot d invR2 seed (α.1, α.2.1, α.2.2-2) else 0))
      / (deg α : F) * invR2
termination_by deg α
decreasing_by all_goals (simp_all [deg]; omega)

/-- Source `getCoef<P>`: seed `C[0] = invR`, run `Terms<0,0,P>::derivative`
(filling every slot with `1 ≤ |α| ≤ P`), then `Terms<0,0,P>::scale`
(multiplying every such slot by `α!`; slot 0 is untouched by `scale`, and
`0! = 1` makes the uniform form below exact).  Slots beyond degree `P` are
never written and the vector is a fresh LTERM-length `local_type`, hence `0`. -/
def getCoef (P : ℕ) (d : F × F × F) (invR2 invR : F) : MIdx → F := fun α =>
  if deg α ≤ P then (cartVal α : F) * derivSlot d invR2 invR α else 0

/-- Source `M2LSum<nx,ny,nz,kx,ky,kz>::kernel` (and the textually identical
`LocalSum` recursion): summing `A[I(k)] * B[I(α+k)]` over the enumeration
that within a fixed degree `|k|` steps `(kx,ky,kz) → (kx,ky+1,kz-1)` while
`kz ≥ 1`, then `(kx,ky,0) → (kx+1,0,ky-1)`, then `(kx,0,0) → (0,0,kx-1)`
restarting at the next lower degree, stopping at `(0,0,0)` without a term.
For `M2LSum::kernel(C,M)` the pair is `A = M`, `B = C`; for
`LocalSum::kernel(C,L)` it is `A = C`, `B = L`. -/
def M2LSum (A B : MIdx → F) (α : MIdx) : MIdx → F
  | (kx, ky, kz+1) => M2LSum A B α (kx, ky+1, kz) + A (kx, ky, kz+1) * B (α + (kx, ky, kz+1))
  | (kx, ky+1, 0) => M2LSum A B α (kx+1, 0, ky) + A (kx, ky+1, 0) * B (α + (kx, ky+1, 0))
  | (kx+1, 0, 0) => M2LSum A B α (0, 0, kx) + A (kx+1, 0, 0) * B (α + (kx+1, 0, 0))
  | (0, 0, 0) => 0
termination_by k => (deg k, deg k - k.1, k.2.2)
decreasing_by all_goals (simp_all [deg, Prod.lex_def] <;> omega)

/-- Source `M2MSum<nx,ny,nz,kx,ky,kz>::kernel`: summing
`C[I(α-k)] * M[I(k)]` over the box walk that decrements `kz` to `0`, then
decrements `ky` resetting `kz` to `α_z`, then decrements `kx` resetting
`(ky,kz)` to `(α_y,α_z)`, stopping at `(0,0,0)` without a term; starting at
`k = α` it covers every `0 < k ≤ α` componentwise. -/
def M2MSum (C M : MIdx → F) (α : MIdx) : MIdx → F
  | (kx, ky, kz+1) => M2MSum C M α (kx, ky, kz) + C (α - (kx, ky, kz+1)) * M (kx, ky, kz+1)
  | (kx, ky+1, 0) => M2MSum C M α (kx, ky, α.2.2) + C (α - (kx, ky+1, 0)) * M (kx, ky+1, 0)
  | (kx+1, 0, 0) => M2MSum C M α (kx, α.2.1, α.2.2) + C (α - (kx+1, 0, 0)) * M (kx+1, 0, 0)
  | (0, 0, 0) => 0
termination_by k => (k.1, k.2.1, k.2.2)
decreasing_by all_goals simp_all [Prod.lex_def]

/-- Modelled from the spec: `Vec.hpp` is not under `src/`.  Per spec §4.2/§6
the point type is a 3-vector of reals with componentwise arithmetic, and
`normSq d = d·d` is the squared Euclidean norm (`R² = d·d`). -/
def normSq (p : ℝ × ℝ × ℝ) : ℝ := p.1^2 + p.2.1^2 + p.2.2^2

/-- The power tableau as the content of a fixed-length coefficient vector of
maximal degree `D`: slots beyond the vector's extent stay `0` (vectors are
zero-constructed per spec §4.2 and the builder writes degrees `1..D` only,
slot `0` holding the seed). -/
def powVec (D : ℕ) (seed : F) (d : F × F × F) : MIdx → F := fun α =>
  if deg α ≤ D then powerC seed d α else 0

/-- Source `LaplaceCartesian::P2M` (lines 796-803): `dist = center - source`;
fresh `multipole_type C` with `C[0] = charge`; `Terms<0,0,P-1>::power(C, dist)`;
`M += C`.  `C` has MTERM slots (degrees `≤ P-1`), all of which the power chain
fills from the seed. -/
def P2M (P : ℕ) (source : F × F × F) (charge : F) (center : F × F × F)
    (M : MIdx → F) : MIdx → F := fun α =>
  M α + powVec (P-1) charge (center - source) α

/-- Source `LaplaceCartesian::M2M` (lines 813-822): fresh `C` with `C[0] = 1`,
`Terms<0,0,P-1>::power(C, translation)`; then
`Mtarget[i] += C[i] * Msource[0]` for every `i < MTERM`, and
`Upward<0,0,P-1>::M2M` adds `M2MSum<α,α>::kernel(C, Msource)` to every slot
with `1 ≤ |α| ≤ P-1`. -/
def M2M (P : ℕ) (Msource Mtarget : MIdx → F) (translation : F × F × F) :
    MIdx → F := fun α =>
  if deg α ≤ P-1 then
    Mtarget α + powVec (P-1) 1 translation α * Msource (0, 0, 0)
      + (if 1 ≤ deg α then M2MSum (powVec (P-1) 1 translation) Msource α α else 0)
  else Mtarget α

/-- Source `sumM2L<P>` (lines 564-570): `L += C`;
`L[0] += M[i] * C[i]` for `1 ≤ i < MTERM` (the slots `1 ≤ |β| ≤ P-1` under
the slot bijection); `Downward<P,0,0,P-1>::M2L` adds
`M2LSum<α,0,0,P-|α|>::kernel(C, M)` to every slot with `1 ≤ |α| ≤ P-1`.
`L` and `C` are `local_type` (LTERM slots, degrees `≤ P`). -/
def sumM2L (P : ℕ) (L C M : MIdx → F) : MIdx → F := fun α =>
  if deg α ≤ P then
    L α + C α +
      (if α = (0, 0, 0) then ∑ β ∈ idxPos (P-1), M β * C β
       else if deg α ≤ P-1 then M2LSum M C α (0, 0, P - deg α) else 0)
  else L α

/-- Source `LaplaceCartesian::M2L` (lines 833-841):
`invR2 = 1/normSq(translation)`; `invR = M[0] * sqrt(invR2)`;
`getCoef<P>(C, translation, invR2, invR)`; `sumM2L<P>(L, C, M)`. -/
noncomputable def M2L (P : ℕ) (M L : MIdx → ℝ) (translation : ℝ × ℝ × ℝ) :
    MIdx → ℝ :=
  sumM2L P L
    (getCoef P translation (normSq translation)⁻¹
      (M (0, 0, 0) * Real.sqrt (normSq translation)⁻¹)) M

/-- Source `sumM2P<P>` (lines 729-738): `B[j] += C[j]` for `j = 0..3` (the
linear slots of the degree-`≤ 1` multi-indices); `B[0] += M[i] * C[i]` for
`1 ≤ i < MTERM`; `Downward<P,0,0,1>::M2P` adds
`M2LSum<α,0,0,P-1>::kernel(C, M)` to `B[I(α)]` for each `|α| = 1`
(`I(1,0,0) = 1`, `I(0,1,0) = 2`, `I(0,0,1) = 3`). -/
def sumM2P (P : ℕ) (B : ℕ → F) (C M : MIdx → F) : ℕ → F := fun i =>
  if i = 0 then B 0 + C (0, 0, 0) + ∑ β ∈ idxPos (P-1), M β * C β
  else if i = 1 then B 1 + C (1, 0, 0) + M2LSum M C (1, 0, 0) (0, 0, P-1)
  else if i = 2 then B 2 + C (0, 1, 0) + M2LSum M C (0, 1, 0) (0, 0, P-1)
  else if i = 3 then B 3 + C (0, 0, 1) + M2LSum M C (0, 0, 1) (0, 0, P-1)
  else B i

/-- Source `LaplaceCartesian::M2P` (lines 852-860): `dist = target - center`;
`invR2 = 1/normSq(dist)`; `invR = M[0] * sqrt(invR2)`;
`getCoef<P>(C, dist, invR2, invR)`; `sumM2P<P>(result, C, M)`. -/
noncomputable def M2P (P : ℕ) (M : MIdx → ℝ) (center target : ℝ × ℝ × ℝ)
    (result : ℕ → ℝ) : ℕ → ℝ :=
  sumM2P P result
    (getCoef P (target - center) (normSq (target - center))⁻¹
      (M (0, 0, 0) * Real.sqrt (normSq (target - center))⁻¹)) M

/-- Source `LaplaceCartesian::L2L` (lines 870-880): fresh `C` with `C[0] = 1`,
`Terms<0,0,P>::power(C, translation)`; `Ltarget += Lsource`;
`Ltarget[0] += C[i] * Lsource[i]` for `1 ≤ i < LTERM`;
`Downward<P,0,0,P-1>::L2L` adds `LocalSum<α,0,0,P-|α|>::kernel(C, Lsource)`
to every slot with `1 ≤ |α| ≤ P-1`. -/
def L2L (P : ℕ) (Lsource Ltarget : MIdx → F) (translation : F × F × F) :
    MIdx → F := fun α =>
  if deg α ≤ P then
    Ltarget α + Lsource α +
      (if α = (0, 0, 0) then ∑ β ∈ idxPos P, powVec P 1 translation β * Lsource β
       else if deg α ≤ P-1 then
         M2LSum (powVec P 1 translation) Lsource α (0, 0, P - deg α)
       else 0)
  else Ltarget α

/-- Source `LaplaceCartesian::L2P` (lines 891-904): `dist = target - center`;
fresh `C` with `C[0] = 1`, `Terms<0,0,P>::power(C, dist)`;
`result[j] += L[j]` for `j = 0..3`; `result[0] += C[i] * L[i]` for
`1 ≤ i < LTERM`; `Downward<P,0,0,1>::L2P` adds
`LocalSum<α,0,0,P-1>::kernel(C, L)` to `result[I(α)]` for each `|α| = 1`. -/
def L2P (P : ℕ) (L : MIdx → F) (center target : F × F × F) (result : ℕ → F) :
    ℕ → F := fun i =>
  if i = 0 then result 0 + L (0, 0, 0) + ∑ β ∈ idxPos P, powVec P 1 (target - center) β * L β
  else if i = 1 then result 1 + L (1, 0, 0) + M2LSum (powVec P 1 (target - center)) L (1, 0, 0) (0, 0, P-1)
  else if i = 2 then result 2 + L (0, 1, 0) + M2LSum (powVec P 1 (target - center)) L (0, 1, 0) (0, 0, P-1)
  else if i = 3 then result 3 + L (0, 0, 1) + M2LSum (powVec P 1 (target - center)) L (0, 0, 1) (0, 0, P-1)
  else result i

/-- Source `LaplaceCartesian::operator()` (lines 777-786): `dist = s - t`;
`R2 = normSq(dist)`; `invR2 = 1.0 / R2`, overwritten with `0` when
`R2 < 1e-8`; `invR = sqrt(invR2)`; `dist *= invR2 * invR`; returns
`(invR, dist[0], dist[1], dist[2])`. -/
noncomputable def kernelEval (t s : ℝ × ℝ × ℝ) : ℝ × ℝ × ℝ × ℝ :=
  let dist := s - t
  let R2 := normSq dist
  let invR2 := if R2 < 1/100000000 then 0 else R2⁻¹
  let invR := Real.sqrt invR2
  (invR, invR2 * invR * dist.1, invR2 * invR * dist.2.1, invR2 * invR * dist.2.2)

/-- The set of multi-indices still to be visited by the
`M2LSum`/`LocalSum` enumeration when it stands at `k`: all of the lower
degrees `1 ≤ |j| < |k|`, plus the tail of the degree-`|k|` slice from `k`
onwards in the walk order. -/
def convVisited (k : MIdx) : Finset MIdx :=
  if deg k = 0 then ∅
  else idxPos (deg k - 1) ∪
    (sliceF (deg k)).filter (fun j => k.1 < j.1 ∨ (k.1 = j.1 ∧ k.2.1 ≤ j.2.1))

theorem mem_convVisited {k j : MIdx} (hk : 1 ≤ deg k) :
    j ∈ convVisited k ↔
      1 ≤ deg j ∧ (deg j < deg k ∨
        (deg j = deg k ∧ (k.1 < j.1 ∨ (k.1 = j.1 ∧ k.2.1 ≤ j.2.1)))) := by
  rw [convVisited, if_neg (by omega)]
  simp only [Finset.mem_union, mem_idxPos, Finset.mem_filter, mem_sliceF]
  omega

theorem convVisited_start (m : ℕ) : convVisited ((0 : ℕ), (0 : ℕ), m) = idxPos m := by
  apply Finset.ext
  rintro ⟨a, b, c⟩
  rcases Nat.eq_zero_or_pos m with h | h
  · subst h
    rw [convVisited]
    simp only [deg, Finset.not_mem_empty, false_iff, mem_idxPos]
    simp
    omega
  · rw [mem_convVisited (by simp [deg]; omega), mem_idxPos]
    simp [deg] <;> omega

theorem M2LSum_eq_visited (A B : MIdx → F) (α : MIdx) (k : MIdx) :
    M2LSum A B α k = ∑ j ∈ convVisited k, A j * B (α + j) := by
  induction k using M2LSum.induct A B α with
  | case1 kx ky kz ih =>
    have hins : convVisited (kx, ky, kz+1) =
        insert (kx, ky, kz+1) (convVisited (kx, ky+1, kz)) := by
      apply Finset.ext
      rintro ⟨a, b, c⟩
      rw [Finset.mem_insert, mem_convVisited (by simp [deg] <;> omega),
        mem_convVisited (by simp [deg]; omega)]
      simp [deg, Prod.ext_iff] <;> omega
    have hnotin : (kx, ky, kz+1) ∉ convVisited (kx, ky+1, kz) := by
      rw [mem_convVisited (by simp [deg]; omega)]
      simp [deg] <;> omega
    rw [M2LSum, ih, hins, Finset.sum_insert hnotin]
    ring
  | case2 kx ky ih =>
    have hins : convVisited (kx, ky+1, 0) =
        insert (kx, ky+1, 0) (convVisited (kx+1, 0, ky)) := by
      apply Finset.ext
      rintro ⟨a, b, c⟩
      rw [Finset.mem_insert, mem_convVisited (by simp [deg] <;> omega),
        mem_convVisited (by simp [deg]; omega)]
      simp [deg, Prod.ext_iff] <;> omega
    have hnotin : (kx, ky+1, 0) ∉ convVisited (kx+1, 0, ky) := by
      rw [mem_convVisited (by simp [deg]; omega)]
      simp [deg] <;> omega
    rw [M2LSum, ih, hins, Finset.sum_insert hnotin]
    ring
  | case3 kx ih =>
    have hins : convVisited (kx+1, 0, 0) =
        insert (kx+1, 0, 0) (convVisited ((0 : ℕ), (0 : ℕ), kx)) := by
      rw [convVisited_start]
      apply Finset.ext
      rintro ⟨a, b, c⟩
      rw [Finset.mem_insert, mem_convVisited (by simp [deg] <;> omega), mem_idxPos]
      simp [deg, Prod.ext_iff] <;> omega
    have hnotin : (kx+1, 0, 0) ∉ convVisited ((0 : ℕ), (0 : ℕ), kx) := by
      rw [convVisited_start, mem_idxPos]
      simp [deg]
    rw [M2LSum, ih, hins, Finset.sum_insert hnotin]
    ring
  | case4 => rw [M2LSum, convVisited]; simp [deg]

/-- The `M2LSum`/`LocalSum` recursion started (as in `Downward`) at
`(0,0,Q)` sums `A[k] * B[α+k]` over all `k` with `1 ≤ |k| ≤ Q`. -/
theorem M2LSum_start (A B : MIdx → F) (α : MIdx) (Q : ℕ) :
    M2LSum A B α (0, 0, Q) = ∑ j ∈ idxPos Q, A j * B (α + j) := by
  rw [M2LSum_eq_visited, convVisited_start]

/-- The set of multi-indices already summed by the `M2MSum` box walk of
`α = (nx, ny, nz)` when it stands at `k` (the walk decrements `kz`, then
`ky` resetting `kz` to `nz`, then `kx` resetting `(ky,kz)` to `(ny,nz)`):
all `j` with `j.1 < k.1` in the full `(ny, nz)` box, plus `j.1 = k.1`,
`j.2.1 < k.2.1` in the full `nz` range, plus `j.1 = k.1`, `j.2.1 = k.2.1`,
`j.2.2 ≤ k.2.2`, minus the origin (which contributes no term). -/
def boxVisited (Y Z : ℕ) (k : MIdx) : Finset MIdx :=
  ((Finset.range k.1 ×ˢ Finset.range (Y+1) ×ˢ Finset.range (Z+1)) ∪
   ({k.1} ×ˢ Finset.range k.2.1 ×ˢ Finset.range (Z+1)) ∪
   ({k.1} ×ˢ {k.2.1} ×ˢ Finset.range (k.2.2+1))).erase (0, 0, 0)

theorem mem_boxVisited {Y Z : ℕ} {k j : MIdx} :
    j ∈ boxVisited Y Z k ↔ j ≠ (0, 0, 0) ∧
      ((j.1 < k.1 ∧ j.2.1 ≤ Y ∧ j.2.2 ≤ Z) ∨
       (j.1 = k.1 ∧ j.2.1 < k.2.1 ∧ j.2.2 ≤ Z) ∨
       (j.1 = k.1 ∧ j.2.1 = k.2.1 ∧ j.2.2 ≤ k.2.2)) := by
  obtain ⟨a, b, c⟩ := j
  simp only [boxVisited, Finset.mem_erase, Finset.mem_union, Finset.mem_product,
    Finset.mem_range, Finset.mem_singleton, ne_eq, Prod.mk.injEq, not_and]
  omega

theorem M2MSum_eq_visited (C M : MIdx → F) (α : MIdx) (k : MIdx) :
    M2MSum C M α k = ∑ j ∈ boxVisited α.2.1 α.2.2 k, C (α - j) * M j := by
  induction k using M2MSum.induct C M α with
  | case1 kx ky kz ih =>
    have hins : boxVisited α.2.1 α.2.2 (kx, ky, kz+1) =
        insert (kx, ky, kz+1) (boxVisited α.2.1 α.2.2 (kx, ky, kz)) := by
      apply Finset.ext
      rintro ⟨a, b, c⟩
      rw [Finset.mem_insert, mem_boxVisited, mem_boxVisited]
      simp [Prod.ext_iff] <;> omega
    have hnotin : (kx, ky, kz+1) ∉ boxVisited α.2.1 α.2.2 (kx, ky, kz) := by
      rw [mem_boxVisited]
      simp <;> omega
    rw [M2MSum, ih, hins, Finset.sum_insert hnotin]
    ring
  | case2 kx ky ih =>
    have hins : boxVisited α.2.1 α.2.2 (kx, ky+1, 0) =
        insert (kx, ky+1, 0) (boxVisited α.2.1 α.2.2 (kx, ky, α.2.2)) := by
      apply Finset.ext
      rintro ⟨a, b, c⟩
      rw [Finset.mem_insert, mem_boxVisited, mem_boxVisited]
      simp [Prod.ext_iff] <;> omega
    have hnotin : (kx, ky+1, 0) ∉ boxVisited α.2.1 α.2.2 (kx, ky, α.2.2) := by
      rw [mem_boxVisited]
      simp <;> omega
    rw [M2MSum, ih, hins, Finset.sum_insert hnotin]
    ring
  | case3 kx ih =>
    have hins : boxVisited α.2.1 α.2.2 (kx+1, 0, 0) =
        insert (kx+1, 0, 0) (boxVisited α.2.1 α.2.2 (kx, α.2.1, α.2.2)) := by
      apply Finset.ext
      rintro ⟨a, b, c⟩
      rw [Finset.mem_insert, mem_boxVisited, mem_boxVisited]
      simp [Prod.ext_iff] <;> omega
    have hnotin : (kx+1, 0, 0) ∉ boxVisited α.2.1 α.2.2 (kx, α.2.1, α.2.2) := by
      rw [mem_boxVisited]
      simp <;> omega
    rw [M2MSum, ih, hins, Finset.sum_insert hnotin]
    ring
  | case4 =>
    rw [M2MSum]
    have h : boxVisited α.2.1 α.2.2 (0, 0, 0) = ∅ := by
      apply Finset.ext
      rintro ⟨a, b, c⟩
      rw [mem_boxVisited]
      simp [Prod.ext_iff] <;> omega
    rw [h, Finset.sum_empty]

/-- The `M2MSum` walk started at `k = α` (as `Upward` does) together with the
`C[i] * Msource[0]` loop term amounts to the full componentwise-box sum
`∑ (β ≤ α) C[α−β] * M[β]`. -/
theorem M2MSum_box (C M : MIdx → F) (α : MIdx) :
    C α * M (0, 0, 0) + M2MSum C M α α = ∑ β ∈ boxLe α, C (α - β) * M β := by
  have hvis : boxVisited α.2.1 α.2.2 α = (boxLe α).erase (0, 0, 0) := by
    apply Finset.ext
    rintro ⟨a, b, c⟩
    rw [mem_boxVisited, Finset.mem_erase, mem_boxLe]
    simp only [ne_eq, Prod.mk.injEq, not_and]
    omega
  have hmem : (0, 0, 0) ∈ boxLe α := by simp [mem_boxLe]
  rw [M2MSum_eq_visited, hvis]
  rw [← Finset.add_sum_erase (boxLe α) (fun β => C (α - β) * M β) hmem]
  simp

theorem factorial_succ (k : ℕ) : factorial (k+1) = (k+1) * factorial k := by
  rw [factorial_eq, factorial_eq, Nat.factorial_succ]

/-- Power-builder correctness in product form: the tableau times `α!` is
`seed · d^α`. -/
theorem powerC_mul {F : Type*} [Field F] [CharZero F] (seed : F) (d : F × F × F)
    (α : MIdx) :
    powerC seed d α * ((cartVal α : ℕ) : F) =
      seed * d.1 ^ α.1 * d.2.1 ^ α.2.1 * d.2.2 ^ α.2.2 := by
  induction α using powerC.induct seed d with
  | case1 nx ny nz ih =>
    have hc : ((nz+1 : ℕ) : F) ≠ 0 := Nat.cast_ne_zero.mpr (Nat.succ_ne_zero nz)
    have hc2 : (nz : F) + 1 ≠ 0 := by exact_mod_cast hc
    have hv : ((cartVal (nx, ny, nz+1) : ℕ) : F) =
        ((cartVal (nx, ny, nz) : ℕ) : F) * ((nz+1 : ℕ) : F) := by
      show ((cart_value nx ny (nz+1) : ℕ) : F) = ((cart_value nx ny nz : ℕ) : F) * _
      rw [cart_value, cart_value, factorial_succ]
      push_cast
      ring
    have key : powerC seed d (nx, ny, nz) * d.2.2 / ((nz+1 : ℕ) : F) *
        (((cartVal (nx, ny, nz) : ℕ) : F) * ((nz+1 : ℕ) : F)) =
        powerC seed d (nx, ny, nz) * ((cartVal (nx, ny, nz) : ℕ) : F) * d.2.2 := by
      field_simp
      ring
    rw [powerC, hv, key, ih]
    simp only [Nat.succ_eq_add_one, pow_succ]
    ring
  | case2 nx ny ih =>
    have hc : ((ny+1 : ℕ) : F) ≠ 0 := Nat.cast_ne_zero.mpr (Nat.succ_ne_zero ny)
    have hc2 : (ny : F) + 1 ≠ 0 := by exact_mod_cast hc
    have hv : ((cartVal (nx, ny+1, 0) : ℕ) : F) =
        ((cartVal (nx, ny, 0) : ℕ) : F) * ((ny+1 : ℕ) : F) := by
      show ((cart_value nx (ny+1) 0 : ℕ) : F) = ((cart_value nx ny 0 : ℕ) : F) * _
      rw [cart_value, cart_value, factorial_succ]
      push_cast
      ring
    have key : powerC seed d (nx, ny, 0) * d.2.1 / ((ny+1 : ℕ) : F) *
        (((cartVal (nx, ny, 0) : ℕ) : F) * ((ny+1 : ℕ) : F)) =
        powerC seed d (nx, ny, 0) * ((cartVal (nx, ny, 0) : ℕ) : F) * d.2.1 := by
      field_simp
      ring
    rw [powerC, hv, key, ih]
    simp only [Nat.succ_eq_add_one, pow_succ]
    ring
  | case3 nx ih =>
    have hc : ((nx+1 : ℕ) : F) ≠ 0 := Nat.cast_ne_zero.mpr (Nat.succ_ne_zero nx)
    have hc2 : (nx : F) + 1 ≠ 0 := by exact_mod_cast hc
    have hv : ((cartVal (nx+1, 0, 0) : ℕ) : F) =
        ((cartVal (nx, 0, 0) : ℕ) : F) * ((nx+1 : ℕ) : F) := by
      show ((cart_value (nx+1) 0 0 : ℕ) : F) = ((cart_value nx 0 0 : ℕ) : F) * _
      rw [cart_value, cart_value, factorial_succ]
      push_cast
      ring
    have key : powerC seed d (nx, 0, 0) * d.1 / ((nx+1 : ℕ) : F) *
        (((cartVal (nx, 0, 0) : ℕ) : F) * ((nx+1 : ℕ) : F)) =
        powerC seed d (nx, 0, 0) * ((cartVal (nx, 0, 0) : ℕ) : F) * d.1 := by
      field_simp
      ring
    rw [powerC, hv, key, ih]
    simp only [Nat.succ_eq_add_one, pow_succ]
    ring
  | case4 =>
    have h1 : cartVal ((0 : ℕ), (0 : ℕ), (0 : ℕ)) = 1 := by
      simp [cartVal, cart_value, factorial_eq]
    rw [powerC, h1]
    norm_num

/-- Power-builder correctness: `C[α] = seed · d^α / α!` (spec §4.3). -/
theorem powerC_eq {F : Type*} [Field F] [CharZero F] (seed : F) (d : F × F × F)
    (α : MIdx) :
    powerC seed d α = seed * d.1 ^ α.1 * d.2.1 ^ α.2.1 * d.2.2 ^ α.2.2 /
      ((cartVal α : ℕ) : F) := by
  have hv0 : 0 < cartVal α := cartVal_pos α
  have hv : ((cartVal α : ℕ) : F) ≠ 0 := Nat.cast_ne_zero.mpr (by omega)
  rw [eq_div_iff hv, powerC_mul]

/-- A zero seed makes the whole derivative tableau vanish (the recursion is
linear in the previously written slots). -/
theorem derivSlot_zero (d : F × F × F) (invR2 : F) (α : MIdx) :
    derivSlot d invR2 0 α = 0 := by
  induction α using derivSlot.induct d invR2 (0 : F) with
  | case1 x h => rw [derivSlot, if_pos h]
  | case2 x h ih1 ih2 ih3 ih4 ih5 ih6 =>
    rw [derivSlot, if_neg h]
    split_ifs <;> simp_all only [mul_zero, add_zero, zero_add, zero_div, zero_mul]

theorem deg_eq_zero_iff {α : MIdx} : deg α = 0 ↔ α = (0, 0, 0) := by
  obtain ⟨x, y, z⟩ := α
  simp [deg, Prod.ext_iff]
  omega

theorem powVec_of_le {D : ℕ} (seed : F) (d : F × F × F) {α : MIdx} (h : deg α ≤ D) :
    powVec D seed d α = powerC seed d α := if_pos h

theorem powVec_of_gt {D : ℕ} (seed : F) (d : F × F × F) {α : MIdx} (h : D < deg α) :
    powVec D seed d α = 0 := if_neg (by omega)

theorem powerC_zero_idx (seed : F) (d : F × F × F) :
    powerC seed d (0, 0, 0) = seed := by rw [powerC]

/-- C3: for every source point `s`, charge `q`, center `c`, order `P ≥ 1`
and initial multipole vector `M`: after `P2M(s, q, c, M)`, the slot of every
multi-index `α` with `|α| ≤ P−1` has increased by exactly
`q · (c−s)^α / α!` (in particular the power tableau is built so that
`C[I(α)] · α!` equals `d_x^nx · d_y^ny · d_z^nz` times the charge seed), and
no other slot of `M` changes. -/
theorem C3_P2M_power_accumulate (P : ℕ) (hP : 1 ≤ P) (s : ℝ × ℝ × ℝ) (q : ℝ)
    (c : ℝ × ℝ × ℝ) (M : MIdx → ℝ) :
    (∀ α : MIdx, deg α ≤ P - 1 →
      P2M P s q c M α = M α +
        q * (c - s).1 ^ α.1 * (c - s).2.1 ^ α.2.1 * (c - s).2.2 ^ α.2.2 /
          ((cartVal α : ℕ) : ℝ)) ∧
    (∀ α : MIdx, P - 1 < deg α → P2M P s q c M α = M α) ∧
    (∀ (d : ℝ × ℝ × ℝ) (α : MIdx),
      powerC q d α * ((cartVal α : ℕ) : ℝ) =
        q * d.1 ^ α.1 * d.2.1 ^ α.2.1 * d.2.2 ^ α.2.2) := by
  refine ⟨fun α h => ?_, fun α h => ?_, fun d α => powerC_mul q d α⟩
  · rw [P2M, powVec_of_le q (c - s) h, powerC_eq]
  · rw [P2M, powVec_of_gt q (c - s) h, add_zero]

/-- Witness for C3 at `P = 1`, `s = (1,0,0)`, `q = 5`, `c = (0,0,0)`:
slot `(0,0,0)` gains `q` and slot `(1,0,0)` is unchanged. -/
theorem C3_witness :
    (1 : ℕ) ≤ 1 ∧
    P2M 1 ((1 : ℝ), (0 : ℝ), (0 : ℝ)) 5 (0, 0, 0) (fun _ => 2) (0, 0, 0) = 7 ∧
    P2M 1 ((1 : ℝ), (0 : ℝ), (0 : ℝ)) 5 (0, 0, 0) (fun _ => 2) (1, 0, 0) = 2 := by
  obtain ⟨h1, h2, h3⟩ :=
    C3_P2M_power_accumulate 1 (le_refl 1) ((1 : ℝ), (0 : ℝ), (0 : ℝ)) 5 (0, 0, 0) (fun _ => 2)
  refine ⟨le_refl 1, ?_, ?_⟩
  · rw [h1 (0, 0, 0) (by simp [deg])]
    have hv : cartVal ((0 : ℕ), (0 : ℕ), (0 : ℕ)) = 1 := by
      simp [cartVal, cart_value, factorial_eq]
    rw [hv]
    norm_num
  · rw [h2 (1, 0, 0) (by simp [deg])]

theorem boxLe_zero : boxLe ((0 : ℕ), (0 : ℕ), (0 : ℕ)) = {((0 : ℕ), (0 : ℕ), (0 : ℕ))} := by
  apply Finset.ext
  rintro ⟨a, b, c⟩
  rw [mem_boxLe, Finset.mem_singleton]
  simp [Prod.ext_iff]

/-- C4: for every order `P ≥ 1`, multipole vectors `Msource`, `Mtarget` and
translation `τ`: `M2M` builds `C` with `C[0] = 1` by the power builder on
`τ` up to degree `P−1`, and every slot with `0 ≤ |α| < P` increases by
exactly `∑ (β ≤ α componentwise) C[α−β] · Msource[β]`; no other change is
made to `Mtarget`. -/
theorem C4_M2M_convolution (P : ℕ) (hP : 1 ≤ P) (Ms Mt : MIdx → ℝ)
    (τ : ℝ × ℝ × ℝ) :
    powVec (P-1) 1 τ (0, 0, 0) = 1 ∧
    (∀ α : MIdx, deg α < P →
      M2M P Ms Mt τ α = Mt α + ∑ β ∈ boxLe α, powVec (P-1) 1 τ (α - β) * Ms β) ∧
    (∀ α : MIdx, P ≤ deg α → M2M P Ms Mt τ α = Mt α) := by
  refine ⟨?_, fun α h => ?_, fun α h => ?_⟩
  · rw [powVec_of_le 1 τ (by simp [deg]), powerC_zero_idx]
  · have hle : deg α ≤ P - 1 := by omega
    rw [M2M, if_pos hle]
    rcases Nat.eq_zero_or_pos (deg α) with h0 | h0
    · have hα : α = (0, 0, 0) := deg_eq_zero_iff.mp h0
      subst hα
      rw [if_neg (by omega), boxLe_zero, Finset.sum_singleton]
      norm_num
    · rw [if_pos (show 1 ≤ deg α by omega), add_assoc, M2MSum_box]
  · rw [M2M, if_neg (by omega)]

/-- Witness for C4 at `P = 2`, `τ = (1,0,0)`, constant vectors: slot
`(1,0,0)` receives `C[(1,0,0)]·Ms[0] + C[0]·Ms[(1,0,0)] = 3·1 + 3 = 6`. -/
theorem C4_witness :
    (1 : ℕ) ≤ 2 ∧
    M2M 2 (fun _ => (3 : ℝ)) (fun _ => 10) ((1 : ℝ), (0 : ℝ), (0 : ℝ)) (1, 0, 0) = 16 ∧
    M2M 2 (fun _ => (3 : ℝ)) (fun _ => 10) ((1 : ℝ), (0 : ℝ), (0 : ℝ)) (2, 0, 0) = 10 := by
  obtain ⟨h1, h2, h3⟩ :=
    C4_M2M_convolution 2 (by norm_num) (fun _ => (3 : ℝ)) (fun _ => 10) ((1 : ℝ), (0 : ℝ), (0 : ℝ))
  refine ⟨by norm_num, ?_, ?_⟩
  · rw [h2 (1, 0, 0) (by simp [deg])]
    have hbox : boxLe ((1 : ℕ), (0 : ℕ), (0 : ℕ)) =
        {((0 : ℕ), (0 : ℕ), (0 : ℕ)), ((1 : ℕ), (0 : ℕ), (0 : ℕ))} := by
      apply Finset.ext
      rintro ⟨a, b, c⟩
      rw [mem_boxLe]
      simp [Prod.ext_iff]
      omega
    rw [hbox, Finset.sum_insert (by simp [Prod.ext_iff]), Finset.sum_singleton]
    have e1 : powVec 1 (1 : ℝ) ((1 : ℝ), (0 : ℝ), (0 : ℝ)) ((1, 0, 0) - (0, 0, 0)) = 1 := by
      rw [show ((1, 0, 0) : MIdx) - (0, 0, 0) = ((1 : ℕ), (0 : ℕ), (0 : ℕ)) from rfl]
      rw [powVec_of_le 1 _ (by simp [deg]), powerC, powerC_zero_idx]
      norm_num
    have e2 : powVec 1 (1 : ℝ) ((1 : ℝ), (0 : ℝ), (0 : ℝ)) ((1, 0, 0) - (1, 0, 0)) = 1 := by
      rw [show ((1, 0, 0) : MIdx) - (1, 0, 0) = ((0 : ℕ), (0 : ℕ), (0 : ℕ)) from rfl]
      rw [powVec_of_le 1 _ (by simp [deg]), powerC_zero_idx]
    rw [e1, e2]
    norm_num
  · rw [h3 (2, 0, 0) (by simp [deg])]

theorem deg_add (α β : MIdx) : deg (α + β) = deg α + deg β := by
  obtain ⟨a, b, c⟩ := α; obtain ⟨d, e, f⟩ := β
  simp [deg, Prod.ext_iff]
  omega

theorem add_sub_cancel_midx (α k : MIdx) : α + k - α = k := by
  obtain ⟨a, b, c⟩ := α; obtain ⟨d, e, f⟩ := k
  simp [Prod.ext_iff]

/-- Reindexing of the `Downward` convolution: summing over the offsets
`1 ≤ |k| ≤ P − |α|` is summing over the componentwise-larger indices
`β = α + k` with `|β| ≤ P`. -/
theorem sum_shift (Cf Lf : MIdx → F) (α : MIdx) (P : ℕ) (hα : deg α ≤ P) :
    ∑ k ∈ idxPos (P - deg α), Cf k * Lf (α + k) =
    ∑ β ∈ (idxUpto P).filter (fun β => α ≤ β ∧ α ≠ β), Cf (β - α) * Lf β := by
  have himg : (idxUpto P).filter (fun β => α ≤ β ∧ α ≠ β) =
      Finset.image (fun k => α + k) (idxPos (P - deg α)) := by
    apply Finset.ext
    intro β
    simp only [Finset.mem_filter, mem_idxUpto, Finset.mem_image, mem_idxPos]
    constructor
    · rintro ⟨hdeg, hle, hne⟩
      obtain ⟨ax, ay, az⟩ := α; obtain ⟨bx, by', bz⟩ := β
      rw [Prod.mk_le_mk, Prod.mk_le_mk] at hle
      refine ⟨(bx - ax, by' - ay, bz - az), ⟨?_, ?_⟩, ?_⟩ <;>
        simp only [deg, ne_eq, Prod.mk.injEq, Prod.mk_add_mk] at * <;> omega
    · rintro ⟨k, ⟨h1, h2⟩, rfl⟩
      have hd := deg_add α k
      refine ⟨by omega, ?_, ?_⟩
      · obtain ⟨ax, ay, az⟩ := α; obtain ⟨kx, ky, kz⟩ := k
        simp only [Prod.mk_add_mk, Prod.mk_le_mk]
        omega
      · intro hcon
        have : deg α = deg (α + k) := by rw [← hcon]
        omega
  rw [himg, Finset.sum_image (fun a _ b _ h => add_left_cancel h)]
  apply Finset.sum_congr rfl
  intro k _
  rw [add_sub_cancel_midx]

/-- C5: for every order `P ≥ 1`, local vectors `Lsource`, `Ltarget` and
translation `τ`: after `L2L(Lsource, Ltarget, τ)`, every slot with
`|α| ≤ P` has increased by exactly `Lsource[α]` plus
`∑ (β componentwise above α, β ≠ α, |β| ≤ P) C[β−α] · Lsource[β]`, where
`C` is the power tableau of `τ` with `C[0] = 1` up to degree `P`. -/
theorem C5_L2L_shift (P : ℕ) (hP : 1 ≤ P) (Ls Lt : MIdx → ℝ) (τ : ℝ × ℝ × ℝ) :
    ∀ α : MIdx, deg α ≤ P →
      L2L P Ls Lt τ α = Lt α + Ls α +
        ∑ β ∈ (idxUpto P).filter (fun β => α ≤ β ∧ α ≠ β),
          powVec P 1 τ (β - α) * Ls β := by
  intro α hα
  rw [L2L, if_pos hα]
  rcases eq_or_ne α ((0 : ℕ), (0 : ℕ), (0 : ℕ)) with h0 | h0
  · subst h0
    rw [if_pos rfl]
    have hsh := sum_shift (powVec P 1 τ) Ls ((0 : ℕ), (0 : ℕ), (0 : ℕ)) P (by simp [deg])
    have hz : deg ((0 : ℕ), (0 : ℕ), (0 : ℕ)) = 0 := rfl
    rw [hz, Nat.sub_zero] at hsh
    congr 1
    rw [← hsh]
    apply Finset.sum_congr rfl
    intro k _
    rw [show ((0 : ℕ), (0 : ℕ), (0 : ℕ)) + k = k from zero_add k]
  · have hd0 : 1 ≤ deg α := by
      rcases Nat.eq_zero_or_pos (deg α) with h | h
      · exact absurd (deg_eq_zero_iff.mp h) h0
      · exact h
    rw [if_neg h0]
    rcases le_or_lt (deg α) (P-1) with hle | hgt
    · rw [if_pos hle, M2LSum_start, sum_shift _ _ _ _ hα]
    · rw [if_neg (by omega), ← sum_shift (powVec P 1 τ) Ls α P hα]
      have hdP : deg α = P := by omega
      have hempty : idxPos 0 = ∅ := by
        apply Finset.ext
        intro β
        simp [mem_idxPos]
        omega
      rw [hdP, Nat.sub_self, hempty, Finset.sum_empty]

/-- Witness for C5 at `P = 1`, `α = (1,0,0)` (empty shift sum) and the
hypotheses discharged concretely. -/
theorem C5_witness :
    (1 : ℕ) ≤ 1 ∧ deg (1, 0, 0) ≤ 1 ∧
    L2L 1 (fun _ => (1 : ℝ)) (fun _ => 0) ((2 : ℝ), (0 : ℝ), (0 : ℝ)) (1, 0, 0) = 1 := by
  refine ⟨le_refl 1, by simp [deg], ?_⟩
  rw [C5_L2L_shift 1 (le_refl 1) (fun _ => (1 : ℝ)) (fun _ => 0)
    ((2 : ℝ), (0 : ℝ), (0 : ℝ)) (1, 0, 0) (by simp [deg])]
  have hS : (idxUpto 1).filter
      (fun β => ((1, 0, 0) : MIdx) ≤ β ∧ ((1, 0, 0) : MIdx) ≠ β) = ∅ := by decide
  rw [hS, Finset.sum_empty]
  norm_num

theorem cartVal_zero_idx : cartVal ((0 : ℕ), (0 : ℕ), (0 : ℕ)) = 1 := by
  simp [cartVal, cart_value, factorial_eq]

theorem derivSlot_zero_idx (d : F × F × F) (i2 s : F) :
    derivSlot d i2 s (0, 0, 0) = s := by
  rw [derivSlot]
  rfl

theorem getCoef_zero_idx (P : ℕ) (d : F × F × F) (i2 s : F) :
    getCoef P d i2 s (0, 0, 0) = s := by
  rw [getCoef, if_pos (by simp [deg]), cartVal_zero_idx, derivSlot_zero_idx]
  norm_num

theorem sumM2L_zero_idx (P : ℕ) (L C M : MIdx → F) :
    sumM2L P L C M (0, 0, 0) =
      L (0, 0, 0) + C (0, 0, 0) + ∑ β ∈ idxPos (P-1), M β * C β := by
  rw [sumM2L, if_pos (by simp [deg]), if_pos rfl]

theorem sumM2L_mid (P : ℕ) (L C M : MIdx → F) (α : MIdx) (h1 : 1 ≤ deg α)
    (h2 : deg α ≤ P-1) :
    sumM2L P L C M α = L α + C α + M2LSum M C α (0, 0, P - deg α) := by
  have h0 : α ≠ (0, 0, 0) := fun h => by
    rw [h] at h1; simp [deg] at h1
  rw [sumM2L, if_pos (by omega), if_neg h0, if_pos h2]

theorem sumM2L_top (P : ℕ) (L C M : MIdx → F) (α : MIdx) (h1 : 1 ≤ deg α)
    (h2 : P - 1 < deg α) (h3 : deg α ≤ P) :
    sumM2L P L C M α = L α + C α := by
  have h0 : α ≠ (0, 0, 0) := fun h => by
    rw [h] at h1; simp [deg] at h1
  rw [sumM2L, if_pos h3, if_neg h0, if_neg (by omega), add_zero]

theorem sumM2L_high (P : ℕ) (L C M : MIdx → F) (α : MIdx) (h : P < deg α) :
    sumM2L P L C M α = L α := by
  rw [sumM2L, if_neg (by omega)]

theorem filter_conv_eq (P : ℕ) (α : MIdx) (hα : deg α ≤ P) :
    (idxUpto P).filter (fun β => 1 ≤ deg β ∧ deg α + deg β ≤ P) =
      idxPos (P - deg α) := by
  apply Finset.ext
  intro β
  simp only [Finset.mem_filter, mem_idxUpto, mem_idxPos]
  omega

/-- C1 (amended): for every order `P ≥ 1`, multipole `M`, local `L` and
nonzero translation `τ`, `M2L(M, L, τ)` builds `C` of length LTERM by the
derivative builder scaled so that `C[0] = M[0] · invR` with
`invR = 1/|τ|`; the slot-0 entry of `L` receives
`C[0] + ∑ (1 ≤ i < MTERM) M[i]·C[i]` — the `i = 0` contribution enters as
`C[0]` through the elementwise `L += C`, not as `M[0]·C[0]` — and every
other slot `L[I(α)]` with `1 ≤ |α| ≤ P` receives
`C[I(α)] + ∑ (1 ≤ |β|, |α+β| ≤ P) M[I(β)] · C[I(α+β)]`; no slot of `L`
changes in any other way. -/
theorem C1_M2L_deltas (P : ℕ) (hP : 1 ≤ P) (M L : MIdx → ℝ) (τ : ℝ × ℝ × ℝ)
    (hτ : τ ≠ 0) (C : MIdx → ℝ)
    (hC : C = getCoef P τ (normSq τ)⁻¹ (M (0, 0, 0) * Real.sqrt (normSq τ)⁻¹)) :
    C (0, 0, 0) = M (0, 0, 0) * (Real.sqrt (normSq τ))⁻¹ ∧
    M2L P M L τ (0, 0, 0) =
      L (0, 0, 0) + C (0, 0, 0) + ∑ β ∈ idxPos (P-1), M β * C β ∧
    (∀ α : MIdx, 1 ≤ deg α → deg α ≤ P →
      M2L P M L τ α = L α + C α +
        ∑ β ∈ (idxUpto P).filter (fun β => 1 ≤ deg β ∧ deg α + deg β ≤ P),
          M β * C (α + β)) ∧
    (∀ α : MIdx, P < deg α → M2L P M L τ α = L α) := by
  subst hC
  refine ⟨?_, ?_, fun α h1 h2 => ?_, fun α h => ?_⟩
  · rw [getCoef_zero_idx, Real.sqrt_inv]
  · rw [M2L, sumM2L_zero_idx]
  · rw [M2L, filter_conv_eq P α h2]
    rcases le_or_lt (deg α) (P-1) with hle | hgt
    · rw [sumM2L_mid P _ _ _ α h1 hle, M2LSum_start]
    · have hdP : deg α = P := by omega
      rw [sumM2L_top P _ _ _ α h1 hgt h2]
      have hempty : idxPos (P - deg α) = ∅ := by
        apply Finset.ext
        intro β
        rw [hdP, Nat.sub_self]
        simp [mem_idxPos]
        omega
      rw [hempty, Finset.sum_empty, add_zero]
  · rw [M2L, sumM2L_high P _ _ _ α h]

theorem idxPos_zero : idxPos 0 = ∅ := by
  apply Finset.ext
  intro β
  simp [mem_idxPos]
  omega

theorem idxUpto_zero : idxUpto 0 = {((0 : ℕ), (0 : ℕ), (0 : ℕ))} := by
  apply Finset.ext
  rintro ⟨a, b, c⟩
  simp [mem_idxUpto, deg, Prod.ext_iff]
  omega

/-- Counterexample to C1 as stated: at `P = 1`, `M ≡ 2`, `L ≡ 0`,
`τ = (1,0,0)`, the code leaves slot 0 of `L` at `C[0] = M[0]·invR = 2`
(the `1 ≤ i < MTERM` loop is empty), while the claimed delta
`∑ (i < MTERM) M[i]·C[i] = M[0]·C[0] = 4`. -/
theorem C1_counterexample :
    M2L 1 (fun _ => (2 : ℝ)) (fun _ => 0) ((1 : ℝ), (0 : ℝ), (0 : ℝ)) (0, 0, 0) ≠
      (0 : ℝ) + ∑ β ∈ idxUpto (1-1), (fun _ => (2 : ℝ)) β *
        getCoef 1 ((1 : ℝ), (0 : ℝ), (0 : ℝ)) (normSq ((1 : ℝ), (0 : ℝ), (0 : ℝ)))⁻¹
          ((2 : ℝ) * Real.sqrt (normSq ((1 : ℝ), (0 : ℝ), (0 : ℝ)))⁻¹) β := by
  have hN : normSq ((1 : ℝ), (0 : ℝ), (0 : ℝ)) = 1 := by norm_num [normSq]
  have hL : M2L 1 (fun _ => (2 : ℝ)) (fun _ => 0) ((1 : ℝ), (0 : ℝ), (0 : ℝ)) (0, 0, 0) = 2 := by
    rw [M2L, sumM2L_zero_idx, idxPos_zero, Finset.sum_empty, getCoef_zero_idx, hN]
    norm_num
  have hC0 : getCoef 1 ((1 : ℝ), (0 : ℝ), (0 : ℝ)) (normSq ((1 : ℝ), (0 : ℝ), (0 : ℝ)))⁻¹
      ((2 : ℝ) * Real.sqrt (normSq ((1 : ℝ), (0 : ℝ), (0 : ℝ)))⁻¹) (0, 0, 0) = 2 := by
    rw [getCoef_zero_idx, hN]
    norm_num
  rw [hL, show (1 : ℕ) - 1 = 0 from rfl, idxUpto_zero, Finset.sum_singleton, hC0]
  norm_num

/-- Witness for the amended C1 at `P = 1`, `τ = (1,0,0)`, `M ≡ 2`, `L ≡ 0`:
the frame part at the degree-2 slot `(1,1,0)`. -/
theorem C1_witness :
    (1 : ℕ) ≤ 1 ∧ ((1 : ℝ), (0 : ℝ), (0 : ℝ)) ≠ (0 : ℝ × ℝ × ℝ) ∧
    M2L 1 (fun _ => (2 : ℝ)) (fun _ => 0) ((1 : ℝ), (0 : ℝ), (0 : ℝ)) (1, 1, 0) = 0 := by
  refine ⟨le_refl 1, by norm_num [Prod.ext_iff], ?_⟩
  have h := (C1_M2L_deltas 1 (le_refl 1) (fun _ => (2 : ℝ)) (fun _ => 0)
    ((1 : ℝ), (0 : ℝ), (0 : ℝ)) (by norm_num [Prod.ext_iff]) _ rfl).2.2.2 (1, 1, 0)
    (by simp [deg])
  simpa using h

theorem getCoef_seed_zero (P : ℕ) (d : F × F × F) (i2 : F) (α : MIdx) :
    getCoef P d i2 0 α = 0 := by
  rw [getCoef]
  split_ifs
  · rw [derivSlot_zero, mul_zero]
  · rfl

/-- C10: if a multipole has `M[0] = 0` then `M2L(M, L, τ)` leaves `L`
exactly unchanged whatever the higher-order slots of `M` hold: the
derivative recursion is seeded with `C[0] = M[0]·sqrt(invR2) = 0`, which
makes the whole tableau `C` vanish, so both the elementwise `L += C` and
every product `M[i]·C[j]` vanish. -/
theorem C10_M2L_zero_charge (P : ℕ) (M L : MIdx → ℝ) (τ : ℝ × ℝ × ℝ)
    (hM : M (0, 0, 0) = 0) (hτ : τ ≠ 0) :
    ∀ α : MIdx, M2L P M L τ α = L α := by
  intro α
  rw [M2L]
  have hseed : M (0, 0, 0) * Real.sqrt (normSq τ)⁻¹ = 0 := by rw [hM, zero_mul]
  rw [hseed]
  have hC : ∀ β : MIdx, getCoef P τ (normSq τ)⁻¹ (0 : ℝ) β = 0 :=
    getCoef_seed_zero P τ (normSq τ)⁻¹
  rcases le_or_lt (deg α) P with h | h
  · rcases Nat.eq_zero_or_pos (deg α) with h0 | h0
    · have hα : α = (0, 0, 0) := deg_eq_zero_iff.mp h0
      subst hα
      rw [sumM2L_zero_idx, hC, Finset.sum_eq_zero (fun β _ => by rw [hC β, mul_zero])]
      ring
    · rcases le_or_lt (deg α) (P-1) with hle | hgt
      · rw [sumM2L_mid P _ _ _ α h0 hle, M2LSum_start, hC,
          Finset.sum_eq_zero (fun β _ => by rw [hC (α + β), mul_zero])]
        ring
      · rw [sumM2L_top P _ _ _ α h0 hgt h, hC]
        ring
  · rw [sumM2L_high P _ _ _ α h]

/-- Witness for C10 at `P = 2` with `M` vanishing only in slot 0. -/
theorem C10_witness :
    (fun β : MIdx => if β = (0, 0, 0) then (0 : ℝ) else 5) (0, 0, 0) = 0 ∧
    ((1 : ℝ), (0 : ℝ), (0 : ℝ)) ≠ (0 : ℝ × ℝ × ℝ) ∧
    M2L 2 (fun β : MIdx => if β = (0, 0, 0) then (0 : ℝ) else 5) (fun _ => 3)
      ((1 : ℝ), (0 : ℝ), (0 : ℝ)) (0, 0, 1) = 3 := by
  refine ⟨by norm_num, by norm_num [Prod.ext_iff], ?_⟩
  exact C10_M2L_zero_charge 2 _ (fun _ => 3) ((1 : ℝ), (0 : ℝ), (0 : ℝ))
    (by norm_num) (by norm_num [Prod.ext_iff]) (0, 0, 1)

/-- C7: for every target `t` and source `s`, with `d = s − t` and
`R = |d| = sqrt(d·d)`: if `R² ≥ 1e-8` then `operator()(t,s)` returns
`(1/R, d_x/R³, d_y/R³, d_z/R³)`; if `R² < 1e-8` it returns `(0,0,0,0)`;
in particular `eval(t,t)` returns `(0,0,0,0)` exactly. -/
theorem C7_kernel_guard (t s : ℝ × ℝ × ℝ) :
    (1/100000000 ≤ normSq (s - t) →
      kernelEval t s = ((Real.sqrt (normSq (s - t)))⁻¹,
        (s - t).1 / Real.sqrt (normSq (s - t)) ^ 3,
        (s - t).2.1 / Real.sqrt (normSq (s - t)) ^ 3,
        (s - t).2.2 / Real.sqrt (normSq (s - t)) ^ 3)) ∧
    (normSq (s - t) < 1/100000000 → kernelEval t s = (0, 0, 0, 0)) ∧
    kernelEval t t = (0, 0, 0, 0) := by
  have hsmall : ∀ u v : ℝ × ℝ × ℝ, normSq (v - u) < 1/100000000 →
      kernelEval u v = (0, 0, 0, 0) := by
    intro u v h
    simp only [kernelEval]
    rw [if_pos h]
    simp
  refine ⟨?_, hsmall t s, ?_⟩
  · intro h
    have hpos : (0 : ℝ) < normSq (s - t) := by
      have : (0 : ℝ) < 1/100000000 := by norm_num
      linarith
    have hsp : 0 < Real.sqrt (normSq (s - t)) := Real.sqrt_pos.mpr hpos
    have hsq : Real.sqrt (normSq (s - t)) ^ 2 = normSq (s - t) := Real.sq_sqrt hpos.le
    have hcube : Real.sqrt (normSq (s - t)) ^ 3 =
        normSq (s - t) * Real.sqrt (normSq (s - t)) := by
      rw [pow_succ, hsq]
    simp only [kernelEval]
    rw [if_neg (not_lt.mpr h), Real.sqrt_inv]
    rw [Prod.ext_iff, Prod.ext_iff, Prod.ext_iff]
    refine ⟨rfl, ?_, ?_, ?_⟩ <;> rw [hcube] <;> field_simp <;> ring
  · apply hsmall
    rw [sub_self]
    norm_num [normSq]

/-- Witness for C7 at `t = 0`, `s = (1,0,0)` (so `R = 1`), and the
self-interaction case. -/
theorem C7_witness :
    (1 : ℝ)/100000000 ≤ normSq (((1 : ℝ), (0 : ℝ), (0 : ℝ)) - (0, 0, 0)) ∧
    kernelEval (0, 0, 0) ((1 : ℝ), (0 : ℝ), (0 : ℝ)) = (1, 1, 0, 0) ∧
    kernelEval ((5 : ℝ), (6 : ℝ), (7 : ℝ)) ((5 : ℝ), (6 : ℝ), (7 : ℝ)) = (0, 0, 0, 0) := by
  have hb : (1 : ℝ)/100000000 ≤ normSq (((1 : ℝ), (0 : ℝ), (0 : ℝ)) - (0, 0, 0)) := by
    norm_num [normSq, Prod.ext_iff]
  obtain ⟨h1, h2, h3⟩ := C7_kernel_guard (0, 0, 0) ((1 : ℝ), (0 : ℝ), (0 : ℝ))
  refine ⟨hb, ?_, (C7_kernel_guard ((5 : ℝ), (6 : ℝ), (7 : ℝ)) ((5 : ℝ), (6 : ℝ), (7 : ℝ))).2.2⟩
  rw [h1 hb]
  have hN : normSq (((1 : ℝ), (0 : ℝ), (0 : ℝ)) - (0, 0, 0)) = 1 := by
    norm_num [normSq, Prod.ext_iff]
  rw [hN]
  norm_num [Prod.ext_iff]

/-- C9: every one of the six operators `P2M, M2M, M2L, M2P, L2L, L2P` is a
pure accumulator in its output argument: for fixed non-output inputs and any
two initial contents `O`, `O'` of the output vector, the delta added is
identical slotwise (the operator never reads the output's prior slots to
compute what it writes); consequently invoking an operator twice with
identical inputs adds the same delta twice. -/
theorem C9_pure_accumulators :
    (∀ (P : ℕ) (s : ℝ × ℝ × ℝ) (q : ℝ) (c : ℝ × ℝ × ℝ) (O O' : MIdx → ℝ) (α : MIdx),
      P2M P s q c O α - O α = P2M P s q c O' α - O' α) ∧
    (∀ (P : ℕ) (Ms : MIdx → ℝ) (τ : ℝ × ℝ × ℝ) (O O' : MIdx → ℝ) (α : MIdx),
      M2M P Ms O τ α - O α = M2M P Ms O' τ α - O' α) ∧
    (∀ (P : ℕ) (M : MIdx → ℝ) (τ : ℝ × ℝ × ℝ) (O O' : MIdx → ℝ) (α : MIdx),
      M2L P M O τ α - O α = M2L P M O' τ α - O' α) ∧
    (∀ (P : ℕ) (M : MIdx → ℝ) (c t : ℝ × ℝ × ℝ) (O O' : ℕ → ℝ) (i : ℕ),
      M2P P M c t O i - O i = M2P P M c t O' i - O' i) ∧
    (∀ (P : ℕ) (Ls : MIdx → ℝ) (τ : ℝ × ℝ × ℝ) (O O' : MIdx → ℝ) (α : MIdx),
      L2L P Ls O τ α - O α = L2L P Ls O' τ α - O' α) ∧
    (∀ (P : ℕ) (L : MIdx → ℝ) (c t : ℝ × ℝ × ℝ) (O O' : ℕ → ℝ) (i : ℕ),
      L2P P L c t O i - O i = L2P P L c t O' i - O' i) ∧
    (∀ (P : ℕ) (s : ℝ × ℝ × ℝ) (q : ℝ) (c : ℝ × ℝ × ℝ) (O : MIdx → ℝ) (α : MIdx),
      P2M P s q c (P2M P s q c O) α - P2M P s q c O α = P2M P s q c O α - O α) ∧
    (∀ (P : ℕ) (Ms : MIdx → ℝ) (τ : ℝ × ℝ × ℝ) (O : MIdx → ℝ) (α : MIdx),
      M2M P Ms (M2M P Ms O τ) τ α - M2M P Ms O τ α = M2M P Ms O τ α - O α) ∧
    (∀ (P : ℕ) (M : MIdx → ℝ) (τ : ℝ × ℝ × ℝ) (O : MIdx → ℝ) (α : MIdx),
      M2L P M (M2L P M O τ) τ α - M2L P M O τ α = M2L P M O τ α - O α) ∧
    (∀ (P : ℕ) (M : MIdx → ℝ) (c t : ℝ × ℝ × ℝ) (O : ℕ → ℝ) (i : ℕ),
      M2P P M c t (M2P P M c t O) i - M2P P M c t O i = M2P P M c t O i - O i) ∧
    (∀ (P : ℕ) (Ls : MIdx → ℝ) (τ : ℝ × ℝ × ℝ) (O : MIdx → ℝ) (α : MIdx),
      L2L P Ls (L2L P Ls O τ) τ α - L2L P Ls O τ α = L2L P Ls O τ α - O α) ∧
    (∀ (P : ℕ) (L : MIdx → ℝ) (c t : ℝ × ℝ × ℝ) (O : ℕ → ℝ) (i : ℕ),
      L2P P L c t (L2P P L c t O) i - L2P P L c t O i = L2P P L c t O i - O i) := by
  have hP2M : ∀ (P : ℕ) (s : ℝ × ℝ × ℝ) (q : ℝ) (c : ℝ × ℝ × ℝ) (O O' : MIdx → ℝ)
      (α : MIdx), P2M P s q c O α - O α = P2M P s q c O' α - O' α :=
    fun P s q c O O' α => by simp only [P2M]; ring
  have hM2M : ∀ (P : ℕ) (Ms : MIdx → ℝ) (τ : ℝ × ℝ × ℝ) (O O' : MIdx → ℝ)
      (α : MIdx), M2M P Ms O τ α - O α = M2M P Ms O' τ α - O' α :=
    fun P Ms τ O O' α => by simp only [M2M]; split_ifs <;> ring
  have hM2L : ∀ (P : ℕ) (M : MIdx → ℝ) (τ : ℝ × ℝ × ℝ) (O O' : MIdx → ℝ)
      (α : MIdx), M2L P M O τ α - O α = M2L P M O' τ α - O' α :=
    fun P M τ O O' α => by simp only [M2L, sumM2L]; split_ifs <;> ring
  have hM2P : ∀ (P : ℕ) (M : MIdx → ℝ) (c t : ℝ × ℝ × ℝ) (O O' : ℕ → ℝ)
      (i : ℕ), M2P P M c t O i - O i = M2P P M c t O' i - O' i :=
    fun P M c t O O' i => by simp only [M2P, sumM2P]; split_ifs <;> subst_vars <;> ring
  have hL2L : ∀ (P : ℕ) (Ls : MIdx → ℝ) (τ : ℝ × ℝ × ℝ) (O O' : MIdx → ℝ)
      (α : MIdx), L2L P Ls O τ α - O α = L2L P Ls O' τ α - O' α :=
    fun P Ls τ O O' α => by simp only [L2L]; split_ifs <;> ring
  have hL2P : ∀ (P : ℕ) (L : MIdx → ℝ) (c t : ℝ × ℝ × ℝ) (O O' : ℕ → ℝ)
      (i : ℕ), L2P P L c t O i - O i = L2P P L c t O' i - O' i :=
    fun P L c t O O' i => by simp only [L2P]; split_ifs <;> subst_vars <;> ring
  exact ⟨hP2M, hM2M, hM2L, hM2P, hL2L, hL2P,
    fun P s q c O α => hP2M P s q c (P2M P s q c O) O α,
    fun P Ms τ O α => hM2M P Ms τ (M2M P Ms O τ) O α,
    fun P M τ O α => hM2L P M τ (M2L P M O τ) O α,
    fun P M c t O i => hM2P P M c t (M2P P M c t O) O i,
    fun P Ls τ O α => hL2L P Ls τ (L2L P Ls O τ) O α,
    fun P L c t O i => hL2P P L c t (L2P P L c t O) O i⟩

theorem P2M_zero_idx (P : ℕ) (s : ℝ × ℝ × ℝ) (q : ℝ) (c : ℝ × ℝ × ℝ)
    (M : MIdx → ℝ) : P2M P s q c M (0, 0, 0) = M (0, 0, 0) + q := by
  rw [P2M, powVec_of_le q (c - s) (by simp [deg]), powerC_zero_idx]

theorem M2M_zero_idx (P : ℕ) (Ms Mt : MIdx → ℝ) (τ : ℝ × ℝ × ℝ) :
    M2M P Ms Mt τ (0, 0, 0) = Mt (0, 0, 0) + Ms (0, 0, 0) := by
  rw [M2M, if_pos (by simp [deg]), if_neg (by simp [deg]),
    powVec_of_le 1 τ (by simp [deg]), powerC_zero_idx]
  ring

/-- An octree fragment as seen by the upward pass: leaves hold bodies
(source point and charge) around a box center, internal boxes hold child
boxes.  The tree layer is outside the core (spec §1); this is the minimal
structure needed to state charge conservation. -/
inductive MTree : Type where
  | leaf : (ℝ × ℝ × ℝ) → List ((ℝ × ℝ × ℝ) × ℝ) → MTree
  | node : (ℝ × ℝ × ℝ) → List MTree → MTree

def MTree.center : MTree → ℝ × ℝ × ℝ
  | .leaf c _ => c
  | .node c _ => c

mutual

/-- The upward pass: each box's multipole starts zero; a leaf accumulates
`P2M` of its bodies, an internal box accumulates `M2M` of its children with
translation `center(target) − center(source)` (as dispatched by
`include/executor/M2M.hpp`). -/
noncomputable def upward (P : ℕ) : MTree → (MIdx → ℝ)
  | .leaf c bs => bs.foldl (fun M b => P2M P b.1 b.2 c M) (fun _ => 0)
  | .node c ts => upwardList P c ts (fun _ => 0)

/-- Accumulating the children of a `node` in order by `M2M`. -/
noncomputable def upwardList (P : ℕ) (c : ℝ × ℝ × ℝ) :
    List MTree → (MIdx → ℝ) → (MIdx → ℝ)
  | [], A => A
  | t :: ts, A => upwardList P c ts (M2M P (upward P t) A (c - t.center))

end

mutual

/-- Total charge carried by a tree. -/
noncomputable def totalQ : MTree → ℝ
  | .leaf _ bs => (bs.map (fun b => b.2)).sum
  | .node _ ts => totalQList ts

/-- Total charge carried by a list of trees. -/
noncomputable def totalQList : List MTree → ℝ
  | [] => 0
  | t :: ts => totalQ t + totalQList ts

end

theorem leaf_fold_zero_idx (P : ℕ) (bs : List ((ℝ × ℝ × ℝ) × ℝ))
    (c : ℝ × ℝ × ℝ) (A : MIdx → ℝ) :
    (bs.foldl (fun M b => P2M P b.1 b.2 c M) A) (0, 0, 0) =
      A (0, 0, 0) + (bs.map (fun b => b.2)).sum := by
  induction bs generalizing A with
  | nil => simp
  | cons b bs ihb =>
    rw [List.foldl_cons, ihb, P2M_zero_idx, List.map_cons, List.sum_cons]
    ring

theorem upward_total (P : ℕ) : ∀ t : MTree, upward P t (0, 0, 0) = totalQ t := by
  have key : ∀ n : ℕ, ∀ t : MTree, sizeOf t ≤ n → upward P t (0, 0, 0) = totalQ t := by
    intro n
    induction n with
    | zero =>
      intro t h
      exfalso
      cases t <;> simp at h <;> omega
    | succ n ih =>
      intro t h
      cases t with
      | leaf c bs =>
        rw [upward, totalQ, leaf_fold_zero_idx]
        ring
      | node c ts =>
        rw [upward, totalQ]
        have hlist : ∀ ts' : List MTree, (∀ t' ∈ ts', sizeOf t' ≤ n) →
            ∀ A : MIdx → ℝ,
            upwardList P c ts' A (0, 0, 0) = A (0, 0, 0) + totalQList ts' := by
          intro ts'
          induction ts' with
          | nil => intro _ A; rw [upwardList, totalQList]; ring
          | cons t' ts'' ihl =>
            intro hs A
            rw [upwardList, totalQList,
              ihl (fun u hu => hs u (List.mem_cons_of_mem _ hu)),
              M2M_zero_idx, ih t' (hs t' (List.mem_cons_self _ _))]
            ring
        rw [hlist ts ?hsz (fun _ => 0)]
        · ring
        case hsz =>
          intro t' ht'
          have h1 := List.sizeOf_lt_of_mem ht'
          simp only [MTree.node.sizeOf_spec] at h
          omega
  intro t
  exact key (sizeOf t) t (le_refl _)

/-- C8: slot 0 carries the total charge: `P2M` increases `M[0]` by the
charge exactly, `M2M` increases `Mtarget[0]` by `Msource[0]` exactly, and
hence after `P2M` of any set of charges into leaf multipoles followed by any
chain of `M2M` shifts into a root multipole initially zero, the root's
slot 0 equals the sum of the charges. -/
theorem C8_charge_conservation (P : ℕ) (hP : 1 ≤ P) :
    (∀ (s : ℝ × ℝ × ℝ) (q : ℝ) (c : ℝ × ℝ × ℝ) (M : MIdx → ℝ),
      P2M P s q c M (0, 0, 0) = M (0, 0, 0) + q) ∧
    (∀ (Ms Mt : MIdx → ℝ) (τ : ℝ × ℝ × ℝ),
      M2M P Ms Mt τ (0, 0, 0) = Mt (0, 0, 0) + Ms (0, 0, 0)) ∧
    (∀ t : MTree, upward P t (0, 0, 0) = totalQ t) :=
  ⟨fun s q c M => P2M_zero_idx P s q c M,
   fun Ms Mt τ => M2M_zero_idx P Ms Mt τ,
   upward_total P⟩

/-- Witness for C8: a two-body leaf under a root, total charge `3 + 4`. -/
theorem C8_witness :
    (1 : ℕ) ≤ 1 ∧
    upward 1 (MTree.node (0, 0, 0)
      [MTree.leaf (0, 0, 0) [(((0 : ℝ), (0 : ℝ), (0 : ℝ)), (3 : ℝ)),
        (((0 : ℝ), (0 : ℝ), (0 : ℝ)), (4 : ℝ))]]) (0, 0, 0) = 7 := by
  refine ⟨le_refl 1, ?_⟩
  rw [(C8_charge_conservation 1 (le_refl 1)).2.2]
  rw [totalQ, totalQList, totalQ, totalQList]
  simp
  norm_num

/-- The mathematical potential `1/R = 1/|p|` that the derivative builder is
specified against (spec §4.4). -/
noncomputable def kernelF (p : ℝ × ℝ × ℝ) : ℝ := (Real.sqrt (normSq p))⁻¹

/-- Partial derivative in the x direction. -/
noncomputable def pdx (f : ℝ × ℝ × ℝ → ℝ) : ℝ × ℝ × ℝ → ℝ := fun p =>
  deriv (fun u => f (u, p.2.1, p.2.2)) p.1

/-- Partial derivative in the y direction. -/
noncomputable def pdy (f : ℝ × ℝ × ℝ → ℝ) : ℝ × ℝ × ℝ → ℝ := fun p =>
  deriv (fun u => f (p.1, u, p.2.2)) p.2.1

/-- Partial derivative in the z direction. -/
noncomputable def pdz (f : ℝ × ℝ × ℝ → ℝ) : ℝ × ℝ × ℝ → ℝ := fun p =>
  deriv (fun u => f (p.1, p.2.1, u)) p.2.2

/-- The iterated partial derivative `∂^α = ∂x^nx ∂y^ny ∂z^nz` (for the
smooth functions at hand the order of the axes is immaterial). -/
noncomputable def pderiv (α : MIdx) (f : ℝ × ℝ × ℝ → ℝ) : ℝ × ℝ × ℝ → ℝ :=
  pdx^[α.1] (pdy^[α.2.1] (pdz^[α.2.2] f))

theorem normSq_nonneg (p : ℝ × ℝ × ℝ) : 0 ≤ normSq p := by
  simp only [normSq]
  positivity

theorem normSq_pos {p : ℝ × ℝ × ℝ} (hp : p ≠ 0) : 0 < normSq p := by
  rcases lt_or_eq_of_le (normSq_nonneg p) with h | h
  · exact h
  · exfalso
    apply hp
    obtain ⟨a, b, c⟩ := p
    simp only [normSq] at h
    have ha : a = 0 := by nlinarith [sq_nonneg a, sq_nonneg b, sq_nonneg c]
    have hb : b = 0 := by nlinarith [sq_nonneg a, sq_nonneg b, sq_nonneg c]
    have hc : c = 0 := by nlinarith [sq_nonneg a, sq_nonneg b, sq_nonneg c]
    simp [Prod.ext_iff, ha, hb, hc]

theorem ne_zero_of_normSq {p : ℝ × ℝ × ℝ} (h : normSq p ≠ 0) : p ≠ 0 := by
  intro hp
  apply h
  subst hp
  norm_num [normSq]

/-- Derivative of `x ↦ 1/sqrt (u x)` at a point where `u` is positive. -/
theorem hasDerivAt_inv_sqrt (u : ℝ → ℝ) (du t : ℝ) (hu : HasDerivAt u du t)
    (h0 : u t ≠ 0) (hnn : 0 ≤ u t) :
    HasDerivAt (fun x => (Real.sqrt (u x))⁻¹)
      (-(du / (2 * Real.sqrt (u t) ^ 3))) t := by
  have hs : HasDerivAt (fun x => Real.sqrt (u x)) (1 / (2 * Real.sqrt (u t)) * du) t :=
    (Real.hasDerivAt_sqrt h0).comp t hu
  have hpos : 0 < u t := lt_of_le_of_ne hnn (Ne.symm h0)
  have hsne : Real.sqrt (u t) ≠ 0 := ne_of_gt (Real.sqrt_pos.mpr hpos)
  have h := hs.inv hsne
  convert h using 1
  have hsq : Real.sqrt (u t) ^ 2 = u t := Real.sq_sqrt hnn
  field_simp
  left
  rw [show (3 : ℕ) = 2+1 from rfl, pow_succ, hsq]
  ring

/-- Derivative of `x ↦ 1/(sqrt (u x))³` at a point where `u` is positive. -/
theorem hasDerivAt_inv_cube (u : ℝ → ℝ) (du t : ℝ) (hu : HasDerivAt u du t)
    (h0 : u t ≠ 0) (hnn : 0 ≤ u t) :
    HasDerivAt (fun x => (Real.sqrt (u x) ^ 3)⁻¹)
      (-(3 * du / (2 * Real.sqrt (u t) ^ 5))) t := by
  have hs : HasDerivAt (fun x => Real.sqrt (u x)) (1 / (2 * Real.sqrt (u t)) * du) t :=
    (Real.hasDerivAt_sqrt h0).comp t hu
  have hpos : 0 < u t := lt_of_le_of_ne hnn (Ne.symm h0)
  have hsne : Real.sqrt (u t) ≠ 0 := ne_of_gt (Real.sqrt_pos.mpr hpos)
  have hp : HasDerivAt (fun x => Real.sqrt (u x) ^ 3)
      ((3 : ℕ) * Real.sqrt (u t) ^ 2 * (1 / (2 * Real.sqrt (u t)) * du)) t := hs.pow 3
  have h := hp.inv (pow_ne_zero 3 hsne)
  convert h using 1
  have hsq : Real.sqrt (u t) ^ 2 = u t := Real.sq_sqrt hnn
  field_simp
  rw [show 3 * du * (2 * Real.sqrt (u t) * (Real.sqrt (u t) ^ 3) ^ 2) =
      3 * Real.sqrt (u t) ^ 2 * du * (2 * Real.sqrt (u t) ^ 5) from by ring]
  rw [hsq]

theorem pdx_kernelF {p : ℝ × ℝ × ℝ} (hp : p ≠ 0) :
    pdx kernelF p = -p.1 / Real.sqrt (normSq p) ^ 3 := by
  obtain ⟨a, b, c⟩ := p
  have h0 : normSq (a, b, c) ≠ 0 := ne_of_gt (normSq_pos hp)
  have hN : normSq (a, b, c) = a^2 + b^2 + c^2 := rfl
  rw [hN] at h0
  have hu : HasDerivAt (fun u : ℝ => u^2 + b^2 + c^2) (2*a) a := by
    simpa using ((hasDerivAt_pow 2 a).add_const (b^2)).add_const (c^2)
  have h := hasDerivAt_inv_sqrt (fun u : ℝ => u^2 + b^2 + c^2) (2*a) a hu h0
    (by positivity)
  show deriv (fun u => kernelF (u, b, c)) a = _
  rw [show (fun u => kernelF (u, b, c)) = (fun u => (Real.sqrt (u^2+b^2+c^2))⁻¹)
    from rfl, h.deriv, hN]
  ring

theorem pdy_kernelF {p : ℝ × ℝ × ℝ} (hp : p ≠ 0) :
    pdy kernelF p = -p.2.1 / Real.sqrt (normSq p) ^ 3 := by
  obtain ⟨a, b, c⟩ := p
  have h0 : normSq (a, b, c) ≠ 0 := ne_of_gt (normSq_pos hp)
  have hN : normSq (a, b, c) = a^2 + b^2 + c^2 := rfl
  rw [hN] at h0
  have hu : HasDerivAt (fun u : ℝ => a^2 + u^2 + c^2) (2*b) b := by
    simpa using ((hasDerivAt_pow 2 b).const_add (a^2)).add_const (c^2)
  have h := hasDerivAt_inv_sqrt (fun u : ℝ => a^2 + u^2 + c^2) (2*b) b hu h0
    (by positivity)
  show deriv (fun u => kernelF (a, u, c)) b = _
  rw [show (fun u => kernelF (a, u, c)) = (fun u => (Real.sqrt (a^2+u^2+c^2))⁻¹)
    from rfl, h.deriv, hN]
  ring

theorem pdz_kernelF {p : ℝ × ℝ × ℝ} (hp : p ≠ 0) :
    pdz kernelF p = -p.2.2 / Real.sqrt (normSq p) ^ 3 := by
  obtain ⟨a, b, c⟩ := p
  have h0 : normSq (a, b, c) ≠ 0 := ne_of_gt (normSq_pos hp)
  have hN : normSq (a, b, c) = a^2 + b^2 + c^2 := rfl
  rw [hN] at h0
  have hu : HasDerivAt (fun u : ℝ => a^2 + b^2 + u^2) (2*c) c := by
    simpa using (hasDerivAt_pow 2 c).const_add (a^2 + b^2)
  have h := hasDerivAt_inv_sqrt (fun u : ℝ => a^2 + b^2 + u^2) (2*c) c hu h0
    (by positivity)
  show deriv (fun u => kernelF (a, b, u)) c = _
  rw [show (fun u => kernelF (a, b, u)) = (fun u => (Real.sqrt (a^2+b^2+u^2))⁻¹)
    from rfl, h.deriv, hN]
  ring

theorem pdx_pdx_kernelF {p : ℝ × ℝ × ℝ} (hp : p ≠ 0) :
    pdx (pdx kernelF) p =
      3 * p.1^2 / Real.sqrt (normSq p) ^ 5 - 1 / Real.sqrt (normSq p) ^ 3 := by
  obtain ⟨a, b, c⟩ := p
  have h0 : (a^2 + b^2 + c^2 : ℝ) ≠ 0 :=
    ne_of_gt (by have := normSq_pos hp; exact this)
  have hev : (fun u => pdx kernelF (u, b, c)) =ᶠ[nhds a]
      (fun u => -u / Real.sqrt (u^2+b^2+c^2) ^ 3) := by
    have hc : Continuous (fun u : ℝ => u^2 + b^2 + c^2) := by continuity
    have hne : ∀ᶠ u in nhds a, (u^2 + b^2 + c^2 : ℝ) ≠ 0 :=
      hc.continuousAt.eventually_ne h0
    filter_upwards [hne] with u hu
    exact pdx_kernelF (ne_zero_of_normSq (show normSq (u, b, c) ≠ 0 from hu))
  have hu2 : HasDerivAt (fun u : ℝ => u^2 + b^2 + c^2) (2*a) a := by
    simpa using ((hasDerivAt_pow 2 a).add_const (b^2)).add_const (c^2)
  have hcube := hasDerivAt_inv_cube (fun u : ℝ => u^2+b^2+c^2) (2*a) a hu2 h0
    (by positivity)
  have hpos : (0:ℝ) < a^2+b^2+c^2 := lt_of_le_of_ne (by positivity) (Ne.symm h0)
  have hs : Real.sqrt (a^2+b^2+c^2) ≠ 0 := ne_of_gt (Real.sqrt_pos.mpr hpos)
  have hm : HasDerivAt (fun u : ℝ => -u / Real.sqrt (u^2+b^2+c^2) ^ 3)
      (3 * a^2 / Real.sqrt (a^2+b^2+c^2) ^ 5 - 1 / Real.sqrt (a^2+b^2+c^2) ^ 3) a := by
    have hid : HasDerivAt (fun u : ℝ => -u) (-1) a := by
      simpa using (hasDerivAt_id a).neg
    have hprod := hid.mul hcube
    have heq : (fun u : ℝ => -u / Real.sqrt (u^2+b^2+c^2) ^ 3) =
        (fun u : ℝ => -u * (Real.sqrt (u^2+b^2+c^2) ^ 3)⁻¹) := by
      funext u; rw [div_eq_mul_inv]
    rw [heq]
    convert hprod using 1
    field_simp
    ring
  show deriv (fun u => pdx kernelF (u, b, c)) a = _
  rw [hev.deriv_eq, hm.deriv]
  rfl

theorem pdx_pdy_kernelF {p : ℝ × ℝ × ℝ} (hp : p ≠ 0) :
    pdx (pdy kernelF) p = 3 * p.1 * p.2.1 / Real.sqrt (normSq p) ^ 5 := by
  obtain ⟨a, b, c⟩ := p
  have h0 : (a^2 + b^2 + c^2 : ℝ) ≠ 0 :=
    ne_of_gt (by have := normSq_pos hp; exact this)
  have hev : (fun u => pdy kernelF (u, b, c)) =ᶠ[nhds a]
      (fun u => -b / Real.sqrt (u^2+b^2+c^2) ^ 3) := by
    have hc : Continuous (fun u : ℝ => u^2 + b^2 + c^2) := by continuity
    have hne : ∀ᶠ u in nhds a, (u^2 + b^2 + c^2 : ℝ) ≠ 0 :=
      hc.continuousAt.eventually_ne h0
    filter_upwards [hne] with u hu
    exact pdy_kernelF (ne_zero_of_normSq (show normSq (u, b, c) ≠ 0 from hu))
  have hu2 : HasDerivAt (fun u : ℝ => u^2 + b^2 + c^2) (2*a) a := by
    simpa using ((hasDerivAt_pow 2 a).add_const (b^2)).add_const (c^2)
  have hcube := hasDerivAt_inv_cube (fun u : ℝ => u^2+b^2+c^2) (2*a) a hu2 h0
    (by positivity)
  have hpos : (0:ℝ) < a^2+b^2+c^2 := lt_of_le_of_ne (by positivity) (Ne.symm h0)
  have hs : Real.sqrt (a^2+b^2+c^2) ≠ 0 := ne_of_gt (Real.sqrt_pos.mpr hpos)
  have hm : HasDerivAt (fun u : ℝ => -b / Real.sqrt (u^2+b^2+c^2) ^ 3)
      (3 * a * b / Real.sqrt (a^2+b^2+c^2) ^ 5) a := by
    have hprod := hcube.const_mul (-b)
    have heq : (fun u : ℝ => -b / Real.sqrt (u^2+b^2+c^2) ^ 3) =
        (fun u : ℝ => -b * (Real.sqrt (u^2+b^2+c^2) ^ 3)⁻¹) := by
      funext u; rw [div_eq_mul_inv]
    rw [heq]
    convert hprod using 1
    field_simp
    ring
  show deriv (fun u => pdy kernelF (u, b, c)) a = _
  rw [hev.deriv_eq, hm.deriv]
  rfl

theorem pdx_pdz_kernelF {p : ℝ × ℝ × ℝ} (hp : p ≠ 0) :
    pdx (pdz kernelF) p = 3 * p.1 * p.2.2 / Real.sqrt (normSq p) ^ 5 := by
  obtain ⟨a, b, c⟩ := p
  have h0 : (a^2 + b^2 + c^2 : ℝ) ≠ 0 :=
    ne_of_gt (by have := normSq_pos hp; exact this)
  have hev : (fun u => pdz kernelF (u, b, c)) =ᶠ[nhds a]
      (fun u => -c / Real.sqrt (u^2+b^2+c^2) ^ 3) := by
    have hc : Continuous (fun u : ℝ => u^2 + b^2 + c^2) := by continuity
    have hne : ∀ᶠ u in nhds a, (u^2 + b^2 + c^2 : ℝ) ≠ 0 :=
      hc.continuousAt.eventually_ne h0
    filter_upwards [hne] with u hu
    exact pdz_kernelF (ne_zero_of_normSq (show normSq (u, b, c) ≠ 0 from hu))
  have hu2 : HasDerivAt (fun u : ℝ => u^2 + b^2 + c^2) (2*a) a := by
    simpa using ((hasDerivAt_pow 2 a).add_const (b^2)).add_const (c^2)
  have hcube := hasDerivAt_inv_cube (fun u : ℝ => u^2+b^2+c^2) (2*a) a hu2 h0
    (by positivity)
  have hpos : (0:ℝ) < a^2+b^2+c^2 := lt_of_le_of_ne (by positivity) (Ne.symm h0)
  have hs : Real.sqrt (a^2+b^2+c^2) ≠ 0 := ne_of_gt (Real.sqrt_pos.mpr hpos)
  have hm : HasDerivAt (fun u : ℝ => -c / Real.sqrt (u^2+b^2+c^2) ^ 3)
      (3 * a * c / Real.sqrt (a^2+b^2+c^2) ^ 5) a := by
    have hprod := hcube.const_mul (-c)
    have heq : (fun u : ℝ => -c / Real.sqrt (u^2+b^2+c^2) ^ 3) =
        (fun u : ℝ => -c * (Real.sqrt (u^2+b^2+c^2) ^ 3)⁻¹) := by
      funext u; rw [div_eq_mul_inv]
    rw [heq]
    convert hprod using 1
    field_simp
    ring
  show deriv (fun u => pdz kernelF (u, b, c)) a = _
  rw [hev.deriv_eq, hm.deriv]
  rfl

theorem pdy_pdy_kernelF {p : ℝ × ℝ × ℝ} (hp : p ≠ 0) :
    pdy (pdy kernelF) p =
      3 * p.2.1^2 / Real.sqrt (normSq p) ^ 5 - 1 / Real.sqrt (normSq p) ^ 3 := by
  obtain ⟨a, b, c⟩ := p
  have h0 : (a^2 + b^2 + c^2 : ℝ) ≠ 0 :=
    ne_of_gt (by have := normSq_pos hp; exact this)
  have hev : (fun u => pdy kernelF (a, u, c)) =ᶠ[nhds b]
      (fun u => -u / Real.sqrt (a^2+u^2+c^2) ^ 3) := by
    have hc : Continuous (fun u : ℝ => a^2 + u^2 + c^2) := by continuity
    have hne : ∀ᶠ u in nhds b, (a^2 + u^2 + c^2 : ℝ) ≠ 0 :=
      hc.continuousAt.eventually_ne h0
    filter_upwards [hne] with u hu
    exact pdy_kernelF (ne_zero_of_normSq (show normSq (a, u, c) ≠ 0 from hu))
  have hu2 : HasDerivAt (fun u : ℝ => a^2 + u^2 + c^2) (2*b) b := by
    simpa using ((hasDerivAt_pow 2 b).const_add (a^2)).add_const (c^2)
  have hcube := hasDerivAt_inv_cube (fun u : ℝ => a^2+u^2+c^2) (2*b) b hu2 h0
    (by positivity)
  have hpos : (0:ℝ) < a^2+b^2+c^2 := lt_of_le_of_ne (by positivity) (Ne.symm h0)
  have hs : Real.sqrt (a^2+b^2+c^2) ≠ 0 := ne_of_gt (Real.sqrt_pos.mpr hpos)
  have hm : HasDerivAt (fun u : ℝ => -u / Real.sqrt (a^2+u^2+c^2) ^ 3)
      (3 * b^2 / Real.sqrt (a^2+b^2+c^2) ^ 5 - 1 / Real.sqrt (a^2+b^2+c^2) ^ 3) b := by
    have hid : HasDerivAt (fun u : ℝ => -u) (-1) b := by
      simpa using (hasDerivAt_id b).neg
    have hprod := hid.mul hcube
    have heq : (fun u : ℝ => -u / Real.sqrt (a^2+u^2+c^2) ^ 3) =
        (fun u : ℝ => -u * (Real.sqrt (a^2+u^2+c^2) ^ 3)⁻¹) := by
      funext u; rw [div_eq_mul_inv]
    rw [heq]
    convert hprod using 1
    field_simp
    ring
  show deriv (fun u => pdy kernelF (a, u, c)) b = _
  rw [hev.deriv_eq, hm.deriv]
  rfl

theorem pdy_pdz_kernelF {p : ℝ × ℝ × ℝ} (hp : p ≠ 0) :
    pdy (pdz kernelF) p = 3 * p.2.1 * p.2.2 / Real.sqrt (normSq p) ^ 5 := by
  obtain ⟨a, b, c⟩ := p
  have h0 : (a^2 + b^2 + c^2 : ℝ) ≠ 0 :=
    ne_of_gt (by have := normSq_pos hp; exact this)
  have hev : (fun u => pdz kernelF (a, u, c)) =ᶠ[nhds b]
      (fun u => -c / Real.sqrt (a^2+u^2+c^2) ^ 3) := by
    have hc : Continuous (fun u : ℝ => a^2 + u^2 + c^2) := by continuity
    have hne : ∀ᶠ u in nhds b, (a^2 + u^2 + c^2 : ℝ) ≠ 0 :=
      hc.continuousAt.eventually_ne h0
    filter_upwards [hne] with u hu
    exact pdz_kernelF (ne_zero_of_normSq (show normSq (a, u, c) ≠ 0 from hu))
  have hu2 : HasDerivAt (fun u : ℝ => a^2 + u^2 + c^2) (2*b) b := by
    simpa using ((hasDerivAt_pow 2 b).const_add (a^2)).add_const (c^2)
  have hcube := hasDerivAt_inv_cube (fun u : ℝ => a^2+u^2+c^2) (2*b) b hu2 h0
    (by positivity)
  have hpos : (0:ℝ) < a^2+b^2+c^2 := lt_of_le_of_ne (by positivity) (Ne.symm h0)
  have hs : Real.sqrt (a^2+b^2+c^2) ≠ 0 := ne_of_gt (Real.sqrt_pos.mpr hpos)
  have hm : HasDerivAt (fun u : ℝ => -c / Real.sqrt (a^2+u^2+c^2) ^ 3)
      (3 * b * c / Real.sqrt (a^2+b^2+c^2) ^ 5) b := by
    have hprod := hcube.const_mul (-c)
    have heq : (fun u : ℝ => -c / Real.sqrt (a^2+u^2+c^2) ^ 3) =
        (fun u : ℝ => -c * (Real.sqrt (a^2+u^2+c^2) ^ 3)⁻¹) := by
      funext u; rw [div_eq_mul_inv]
    rw [heq]
    convert hprod using 1
    field_simp
    ring
  show deriv (fun u => pdz kernelF (a, u, c)) b = _
  rw [hev.deriv_eq, hm.deriv]
  rfl

theorem pdz_pdz_kernelF {p : ℝ × ℝ × ℝ} (hp : p ≠ 0) :
    pdz (pdz kernelF) p =
      3 * p.2.2^2 / Real.sqrt (normSq p) ^ 5 - 1 / Real.sqrt (normSq p) ^ 3 := by
  obtain ⟨a, b, c⟩ := p
  have h0 : (a^2 + b^2 + c^2 : ℝ) ≠ 0 :=
    ne_of_gt (by have := normSq_pos hp; exact this)
  have hev : (fun u => pdz kernelF (a, b, u)) =ᶠ[nhds c]
      (fun u => -u / Real.sqrt (a^2+b^2+u^2) ^ 3) := by
    have hc : Continuous (fun u : ℝ => a^2 + b^2 + u^2) := by continuity
    have hne : ∀ᶠ u in nhds c, (a^2 + b^2 + u^2 : ℝ) ≠ 0 :=
      hc.continuousAt.eventually_ne h0
    filter_upwards [hne] with u hu
    exact pdz_kernelF (ne_zero_of_normSq (show normSq (a, b, u) ≠ 0 from hu))
  have hu2 : HasDerivAt (fun u : ℝ => a^2 + b^2 + u^2) (2*c) c := by
    simpa using (hasDerivAt_pow 2 c).const_add (a^2 + b^2)
  have hcube := hasDerivAt_inv_cube (fun u : ℝ => a^2+b^2+u^2) (2*c) c hu2 h0
    (by positivity)
  have hpos : (0:ℝ) < a^2+b^2+c^2 := lt_of_le_of_ne (by positivity) (Ne.symm h0)
  have hs : Real.sqrt (a^2+b^2+c^2) ≠ 0 := ne_of_gt (Real.sqrt_pos.mpr hpos)
  have hm : HasDerivAt (fun u : ℝ => -u / Real.sqrt (a^2+b^2+u^2) ^ 3)
      (3 * c^2 / Real.sqrt (a^2+b^2+c^2) ^ 5 - 1 / Real.sqrt (a^2+b^2+c^2) ^ 3) c := by
    have hid : HasDerivAt (fun u : ℝ => -u) (-1) c := by
      simpa using (hasDerivAt_id c).neg
    have hprod := hid.mul hcube
    have heq : (fun u : ℝ => -u / Real.sqrt (a^2+b^2+u^2) ^ 3) =
        (fun u : ℝ => -u * (Real.sqrt (a^2+b^2+u^2) ^ 3)⁻¹) := by
      funext u; rw [div_eq_mul_inv]
    rw [heq]
    convert hprod using 1
    field_simp
    ring
  show deriv (fun u => pdz kernelF (a, b, u)) c = _
  rw [hev.deriv_eq, hm.deriv]
  rfl

theorem derivSlot_zero_lit (d : F × F × F) (i2 s : F) :
    derivSlot d i2 s 0 = s :=
  derivSlot_zero_idx d i2 s

theorem derivSlot_e100 (d : F × F × F) (i2 s : F) :
    derivSlot d i2 s (1, 0, 0) = -(d.1 * s * i2) := by
  rw [derivSlot]
  norm_num [deg, derivSlot_zero_idx, derivSlot_zero_lit]

theorem derivSlot_e010 (d : F × F × F) (i2 s : F) :
    derivSlot d i2 s (0, 1, 0) = -(d.2.1 * s * i2) := by
  rw [derivSlot]
  norm_num [deg, derivSlot_zero_idx, derivSlot_zero_lit]

theorem derivSlot_e001 (d : F × F × F) (i2 s : F) :
    derivSlot d i2 s (0, 0, 1) = -(d.2.2 * s * i2) := by
  rw [derivSlot]
  norm_num [deg, derivSlot_zero_idx, derivSlot_zero_lit]

theorem derivSlot_e100p (d : F × F × F) (i2 s : F) :
    derivSlot d i2 s ((1 : ℕ), (0 : ℕ × ℕ)) = -(d.1 * s * i2) :=
  derivSlot_e100 d i2 s

theorem derivSlot_d200 [CharZero F] (d : F × F × F) (i2 s : F) :
    derivSlot d i2 s (2, 0, 0) = (3 * d.1^2 * s * i2 - s) / 2 * i2 := by
  rw [derivSlot]
  norm_num [deg, derivSlot_e100, derivSlot_e100p, derivSlot_zero_lit]
  all_goals (first | ring1 | (left; ring1) | exact Or.inl trivial | trivial)

theorem derivSlot_d020 [CharZero F] (d : F × F × F) (i2 s : F) :
    derivSlot d i2 s (0, 2, 0) = (3 * d.2.1^2 * s * i2 - s) / 2 * i2 := by
  rw [derivSlot]
  norm_num [deg, derivSlot_e010, derivSlot_zero_lit]
  all_goals (first | ring1 | (left; ring1) | exact Or.inl trivial | trivial)

theorem derivSlot_d002 [CharZero F] (d : F × F × F) (i2 s : F) :
    derivSlot d i2 s (0, 0, 2) = (3 * d.2.2^2 * s * i2 - s) / 2 * i2 := by
  rw [derivSlot]
  norm_num [deg, derivSlot_e001, derivSlot_zero_lit]
  all_goals (first | ring1 | (left; ring1) | exact Or.inl trivial | trivial)

theorem derivSlot_d110 [CharZero F] (d : F × F × F) (i2 s : F) :
    derivSlot d i2 s (1, 1, 0) = 3 * d.1 * d.2.1 * s * i2^2 := by
  rw [derivSlot]
  norm_num [deg, derivSlot_e100, derivSlot_e100p, derivSlot_e010]
  all_goals (first | ring1 | (left; ring1) | exact Or.inl trivial | trivial)

theorem derivSlot_d101 [CharZero F] (d : F × F × F) (i2 s : F) :
    derivSlot d i2 s (1, 0, 1) = 3 * d.1 * d.2.2 * s * i2^2 := by
  rw [derivSlot]
  norm_num [deg, derivSlot_e100, derivSlot_e100p, derivSlot_e001]
  all_goals (first | ring1 | (left; ring1) | exact Or.inl trivial | trivial)

theorem derivSlot_d011 [CharZero F] (d : F × F × F) (i2 s : F) :
    derivSlot d i2 s (0, 1, 1) = 3 * d.2.1 * d.2.2 * s * i2^2 := by
  rw [derivSlot]
  norm_num [deg, derivSlot_e010, derivSlot_e001]
  all_goals (first | ring1 | (left; ring1) | exact Or.inl trivial | trivial)

/-- The three coordinate axes of the Cartesian tableau. -/
inductive Axis : Type
| ax : Axis
| ay : Axis
| az : Axis
deriving DecidableEq

/-- Unit multi-index along an axis. -/
def eA : Axis → MIdx
| .ax => (1, 0, 0)
| .ay => (0, 1, 0)
| .az => (0, 0, 1)

/-- Component of a multi-index along an axis. -/
def cA : Axis → MIdx → ℕ
| .ax, γ => γ.1
| .ay, γ => γ.2.1
| .az, γ => γ.2.2

theorem deg_add_eA (a : Axis) (γ : MIdx) : deg (γ + eA a) = deg γ + 1 := by
  obtain ⟨x, y, z⟩ := γ
  cases a <;> simp [deg, eA, Prod.mk_add_mk] <;> omega

theorem cA_add_eA_self (a : Axis) (γ : MIdx) : cA a (γ + eA a) = cA a γ + 1 := by
  obtain ⟨x, y, z⟩ := γ
  cases a <;> simp [cA, eA, Prod.mk_add_mk]

theorem add_eA_sub_eA (a : Axis) (γ : MIdx) : γ + eA a - eA a = γ := by
  obtain ⟨x, y, z⟩ := γ
  cases a <;> simp [eA, Prod.mk_add_mk, Prod.mk_sub_mk]

theorem sub_eA_add_eA (a : Axis) (γ : MIdx) (h : 1 ≤ cA a γ) : γ - eA a + eA a = γ := by
  obtain ⟨x, y, z⟩ := γ
  cases a <;> simp [cA] at h <;> simp [eA, Prod.mk_add_mk, Prod.mk_sub_mk] <;> omega

theorem deg_sub_eA (a : Axis) (γ : MIdx) (h : 1 ≤ cA a γ) :
    deg (γ - eA a) + 1 = deg γ := by
  obtain ⟨x, y, z⟩ := γ
  cases a <;> simp [cA] at h <;> simp [deg, eA, Prod.mk_sub_mk] <;> omega

/-- Formal coefficient tableau of a polynomial in `x, y, z`:
the coefficient of the monomial `d^γ` sits at slot `γ`. -/
abbrev PTab : Type := MIdx → ℝ

/-- Sum of a three-axis family of tableaux. -/
def opS (f : Axis → PTab) : PTab := f .ax + f .ay + f .az

/-- Multiplication of a polynomial tableau by the coordinate of an axis:
shifts every coefficient up by one along that axis. -/
def mulXp (a : Axis) (p : PTab) : PTab := fun γ =>
  if 1 ≤ cA a γ then p (γ - eA a) else 0

/-- Formal partial derivative of a polynomial tableau along an axis. -/
def dPp (a : Axis) (p : PTab) : PTab := fun γ =>
  ((cA a γ + 1 : ℕ) : ℝ) * p (γ + eA a)

/-- Multiplication of a polynomial tableau by `x² + y² + z²`. -/
def mulNp (p : PTab) : PTab := opS (fun a => mulXp a (mulXp a p))

theorem mulXp_zero (a : Axis) : mulXp a (0 : PTab) = 0 := by
  funext γ
  simp [mulXp]

theorem dPp_zero (a : Axis) : dPp a (0 : PTab) = 0 := by
  funext γ
  simp [dPp]

theorem mulNp_zero : mulNp (0 : PTab) = 0 := by
  simp [mulNp, opS, mulXp_zero]

theorem mulXp_add (a : Axis) (p q : PTab) :
    mulXp a (p + q) = mulXp a p + mulXp a q := by
  funext γ
  by_cases h : 1 ≤ cA a γ <;> simp [mulXp, h]

theorem dPp_add (a : Axis) (p q : PTab) : dPp a (p + q) = dPp a p + dPp a q := by
  funext γ
  simp [dPp]
  ring

theorem mulXp_smul (a : Axis) (c : ℝ) (p : PTab) :
    mulXp a (c • p) = c • mulXp a p := by
  funext γ
  by_cases h : 1 ≤ cA a γ <;> simp [mulXp, h]

theorem dPp_smul (a : Axis) (c : ℝ) (p : PTab) : dPp a (c • p) = c • dPp a p := by
  funext γ
  simp [dPp]
  ring

theorem mulXp_sub (a : Axis) (p q : PTab) :
    mulXp a (p - q) = mulXp a p - mulXp a q := by
  funext γ
  by_cases h : 1 ≤ cA a γ <;> simp [mulXp, h]

theorem dPp_sub (a : Axis) (p q : PTab) : dPp a (p - q) = dPp a p - dPp a q := by
  funext γ
  simp [dPp]
  ring

theorem mulNp_add (p q : PTab) : mulNp (p + q) = mulNp p + mulNp q := by
  simp only [mulNp, opS, mulXp_add]
  funext γ
  simp
  ring

theorem mulNp_smul (c : ℝ) (p : PTab) : mulNp (c • p) = c • mulNp p := by
  simp only [mulNp, opS, mulXp_smul]
  funext γ
  simp
  ring

theorem mulNp_sub (p q : PTab) : mulNp (p - q) = mulNp p - mulNp q := by
  simp only [mulNp, opS, mulXp_sub]
  funext γ
  simp
  ring

theorem mulXp_comm (a b : Axis) (p : PTab) :
    mulXp a (mulXp b p) = mulXp b (mulXp a p) := by
  funext γ
  obtain ⟨x, y, z⟩ := γ
  cases a <;> cases b <;>
    simp [mulXp, cA, eA, Prod.mk_sub_mk] <;>
    split_ifs <;>
    first
      | rfl
      | omega
      | (congr 1; simp only [Prod.mk.injEq]; omega)

theorem dPp_comm (a b : Axis) (p : PTab) :
    dPp a (dPp b p) = dPp b (dPp a p) := by
  funext γ
  obtain ⟨x, y, z⟩ := γ
  cases a <;> cases b <;>
    simp [dPp, cA, eA, Prod.mk_add_mk] <;>
    push_cast <;>
    ring_nf <;>
    first
      | rfl
      | (congr 1 <;> first | (simp only [Prod.mk.injEq]; omega) | (push_cast; ring))

theorem dPp_mulXp (a b : Axis) (p : PTab) :
    dPp a (mulXp b p) = mulXp b (dPp a p) + (if a = b then p else 0) := by
  funext γ
  obtain ⟨x, y, z⟩ := γ
  cases a <;> cases b <;>
    simp [dPp, mulXp, cA, eA, Prod.mk_add_mk, Prod.mk_sub_mk] <;>
    split_ifs <;>
    first
      | rfl
      | omega
      | (rename_i h
         rcases Nat.exists_eq_add_of_le h with ⟨t, rfl⟩
         simp only [Nat.add_sub_cancel_left]
         push_cast
         ring)
      | (rename_i h
         have h0 := Nat.lt_one_iff.mp (Nat.not_le.mp h)
         subst h0
         simp)

theorem mulXp_mulNp (a : Axis) (p : PTab) :
    mulXp a (mulNp p) = mulNp (mulXp a p) := by
  simp only [mulNp, opS, mulXp_add]
  rw [mulXp_comm a .ax, mulXp_comm a .ax, mulXp_comm a .ay, mulXp_comm a .ay,
    mulXp_comm a .az, mulXp_comm a .az]

theorem dPp_mulNp (a : Axis) (p : PTab) :
    dPp a (mulNp p) = mulNp (dPp a p) + (2:ℝ) • mulXp a p := by
  have key : ∀ b : Axis, dPp a (mulXp b (mulXp b p)) =
      mulXp b (mulXp b (dPp a p)) + (if a = b then (2:ℝ) • mulXp b p else 0) := by
    intro b
    rw [dPp_mulXp, dPp_mulXp, mulXp_add]
    by_cases hab : a = b
    · subst hab
      simp only [if_pos rfl]
      funext γ
      simp [mulXp]
      split_ifs <;> ring
    · simp [hab, mulXp_zero]
  simp only [mulNp, opS]
  rw [dPp_add, dPp_add, key .ax, key .ay, key .az]
  cases a <;> (funext γ; simp <;> ring)

/-- The Derivative Builder step operator at recursion depth `k`:
applied to the tableau of `∂^β(1/R)` written as `q/(N^k √N)`, it produces
the tableau of its partial derivative along `a`, written over `N^(k+1) √N`. -/
def DOp (a : Axis) (k : ℕ) (p : PTab) : PTab :=
  mulNp (dPp a p) - ((2 * k + 1 : ℕ) : ℝ) • mulXp a p

theorem DOp_mulNp (a : Axis) (k : ℕ) (p : PTab) :
    DOp a (k + 1) (mulNp p) = mulNp (DOp a k p) := by
  simp only [DOp, dPp_mulNp, mulNp_add, mulNp_sub, mulNp_smul, mulXp_mulNp]
  push_cast
  funext γ
  simp <;> ring

theorem DOp_comm (a b : Axis) (k : ℕ) (p : PTab) :
    DOp a (k + 1) (DOp b k p) = DOp b (k + 1) (DOp a k p) := by
  simp only [DOp, dPp_sub, dPp_smul, mulNp_sub, mulNp_smul, mulXp_sub, mulXp_smul,
    dPp_mulNp, dPp_mulXp, mulNp_add, mulXp_mulNp]
  rw [dPp_comm b a, mulXp_comm b a]
  by_cases hab : a = b
  · subst hab
    push_cast
    funext γ
    simp <;> ring
  · rw [mulXp_comm a b]
    have h1 : mulNp (mulXp b (dPp a p)) = mulXp b (mulNp (dPp a p)) :=
      (mulXp_mulNp b (dPp a p)).symm
    have h2 : mulNp (mulXp a (dPp b p)) = mulXp a (mulNp (dPp b p)) :=
      (mulXp_mulNp a (dPp b p)).symm
    simp [hab, Ne.symm hab]
    push_cast
    funext γ
    simp <;> ring

/-- Tableau of the constant polynomial `1`. -/
def delta0 : PTab := fun γ => if γ = (0, 0, 0) then 1 else 0

/-- Numerator tableau of `∂^α(1/R)`: `Qp α` is the polynomial `q_α` with
`∂^α(1/R) = q_α(d) / (R²)^|α| / R`, built by applying the Derivative Builder
step operator once per unit of each component, innermost axis `z` first. -/
def Qp : MIdx → PTab
  | (nx+1, ny, nz) => DOp .ax (nx + ny + nz) (Qp (nx, ny, nz))
  | (0, ny+1, nz) => DOp .ay (ny + nz) (Qp (0, ny, nz))
  | (0, 0, nz+1) => DOp .az nz (Qp (0, 0, nz))
  | (0, 0, 0) => delta0

theorem dPp_delta0 (a : Axis) : dPp a delta0 = 0 := by
  funext γ
  obtain ⟨x, y, z⟩ := γ
  cases a <;>
    simp [dPp, delta0, eA, Prod.mk_add_mk, Prod.mk.injEq]

theorem Qp_step (a : Axis) (α : MIdx) : Qp (α + eA a) = DOp a (deg α) (Qp α) := by
  obtain ⟨x, y, z⟩ := α
  cases a
  · show Qp (x + 1, y, z) = _
    rw [Qp]
    simp [deg]
  · show Qp (x, y + 1, z) = _
    induction x with
    | zero =>
      rw [Qp]
      simp [deg]
    | succ n ih =>
      rw [Qp, ih, Qp]
      simp only [deg] at *
      rw [show n + (y + 1) + z = (n + y + z) + 1 by omega, DOp_comm,
        show n + 1 + y + z = (n + y + z) + 1 by omega]
  · show Qp (x, y, z + 1) = _
    induction x with
    | zero =>
      induction y with
      | zero =>
        rw [Qp]
        simp [deg]
      | succ m ihy =>
        rw [Qp, ihy, Qp]
        simp only [deg, Nat.zero_add] at *
        rw [show m + (z + 1) = (m + z) + 1 by omega, DOp_comm,
          show m + 1 + z = (m + z) + 1 by omega]
    | succ n ih =>
      rw [Qp, ih, Qp]
      simp only [deg] at *
      rw [show n + y + (z + 1) = (n + y + z) + 1 by omega, DOp_comm,
        show n + 1 + y + z = (n + y + z) + 1 by omega]

theorem Qp_dstar (a : Axis) (γ : MIdx) :
    mulNp (dPp a (Qp γ)) =
      Qp (γ + eA a) + ((2 * deg γ + 1 : ℕ) : ℝ) • mulXp a (Qp γ) := by
  rw [Qp_step, DOp, sub_add_cancel]

/-- `p` has no coefficient beyond total degree `m`. -/
def suppBd (p : PTab) (m : ℕ) : Prop := ∀ γ : MIdx, m < deg γ → p γ = 0

theorem suppBd_mono {p : PTab} {m m' : ℕ} (h : suppBd p m) (hm : m ≤ m') :
    suppBd p m' := fun γ hγ => h γ (lt_of_le_of_lt hm hγ)

theorem suppBd_add {p q : PTab} {m : ℕ} (hp : suppBd p m) (hq : suppBd q m) :
    suppBd (p + q) m := by
  intro γ hγ
  show p γ + q γ = 0
  rw [hp γ hγ, hq γ hγ, add_zero]

theorem suppBd_smul {p : PTab} {m : ℕ} (c : ℝ) (hp : suppBd p m) :
    suppBd (c • p) m := by
  intro γ hγ
  show c * p γ = 0
  rw [hp γ hγ, mul_zero]

theorem suppBd_sub {p q : PTab} {m : ℕ} (hp : suppBd p m) (hq : suppBd q m) :
    suppBd (p - q) m := by
  intro γ hγ
  show p γ - q γ = 0
  rw [hp γ hγ, hq γ hγ, sub_zero]

theorem suppBd_mulXp {p : PTab} {m : ℕ} (a : Axis) (hp : suppBd p m) :
    suppBd (mulXp a p) (m + 1) := by
  intro γ hγ
  simp only [mulXp]
  split_ifs with h
  · exact hp _ (by have := deg_sub_eA a γ h; omega)
  · rfl

theorem suppBd_dPp {p : PTab} {m : ℕ} (a : Axis) (hp : suppBd p (m + 1)) :
    suppBd (dPp a p) m := by
  intro γ hγ
  simp only [dPp]
  rw [hp _ (by rw [deg_add_eA]; omega), mul_zero]

theorem dPp_of_suppBd_zero {p : PTab} (a : Axis) (hp : suppBd p 0) :
    dPp a p = 0 := by
  funext γ
  simp only [dPp]
  rw [hp _ (by rw [deg_add_eA]; omega)]
  simp

theorem suppBd_mulNp {p : PTab} {m : ℕ} (hp : suppBd p m) :
    suppBd (mulNp p) (m + 2) := by
  have h1 : ∀ a : Axis, suppBd (mulXp a (mulXp a p)) (m + 2) := fun a =>
    suppBd_mulXp a (suppBd_mulXp a hp)
  exact suppBd_add (suppBd_add (h1 .ax) (h1 .ay)) (h1 .az)

theorem suppBd_zero_fun (m : ℕ) : suppBd (0 : PTab) m := fun _ _ => rfl

theorem suppBd_DOp {p : PTab} {m : ℕ} (a : Axis) (k : ℕ) (hp : suppBd p m) :
    suppBd (DOp a k p) (m + 1) := by
  rcases m with _ | m'
  · rw [DOp, dPp_of_suppBd_zero a hp, mulNp_zero]
    exact suppBd_sub (suppBd_zero_fun 1) (suppBd_smul _ (suppBd_mulXp a hp))
  · refine suppBd_sub ?_ (suppBd_smul _ (suppBd_mono (suppBd_mulXp a hp) (by omega)))
    exact suppBd_mono (suppBd_mulNp (suppBd_dPp a hp)) (by omega)

theorem suppBd_delta0 : suppBd delta0 0 := by
  intro γ hγ
  obtain ⟨x, y, z⟩ := γ
  simp only [delta0, Prod.mk.injEq]
  simp only [deg] at hγ
  split_ifs with h
  · omega
  · rfl

theorem suppBd_Qp (α : MIdx) : suppBd (Qp α) (deg α) := by
  induction α using Qp.induct with
  | case1 nx ny nz ih =>
    rw [Qp, show deg (nx + 1, ny, nz) = nx + ny + nz + 1 from by simp [deg]; omega]
    exact suppBd_DOp .ax (nx + ny + nz) (by simpa [deg] using ih)
  | case2 ny nz ih =>
    rw [Qp, show deg (0, ny + 1, nz) = ny + nz + 1 from by simp [deg]; omega]
    exact suppBd_DOp .ay (ny + nz) (by simpa [deg] using ih)
  | case3 nz ih =>
    rw [Qp, show deg (0, 0, nz + 1) = nz + 1 from by simp [deg]]
    exact suppBd_DOp .az nz (by simpa [deg] using ih)
  | case4 =>
    rw [Qp]
    simpa [deg] using suppBd_delta0

theorem deg_addc_sub (a c : Axis) (δ : MIdx) (h : 1 ≤ cA a δ ∨ a = c) :
    deg (δ + eA c - eA a) = deg δ := by
  obtain ⟨x, y, z⟩ := δ
  cases a <;> cases c <;>
    simp [cA, eA, Axis.ax.sizeOf_spec, Prod.mk_add_mk, Prod.mk_sub_mk, deg] at h ⊢ <;>
    omega

theorem idx_addb (a b c : Axis) (δ : MIdx) (h : 1 ≤ cA a δ ∨ a = c) :
    δ + eA c - eA a + eA b = δ + eA b + eA c - eA a := by
  obtain ⟨x, y, z⟩ := δ
  cases a <;> cases b <;> cases c <;>
    simp [cA, eA, Prod.mk_add_mk, Prod.mk_sub_mk, Prod.mk.injEq] at h ⊢ <;>
    omega

theorem deg_addc_sub2 (a c : Axis) (δ : MIdx) (h : 2 ≤ cA a δ) :
    deg (δ + eA c - eA a - eA a) + 1 = deg δ := by
  obtain ⟨x, y, z⟩ := δ
  cases a <;> cases c <;>
    simp [cA, eA, Prod.mk_add_mk, Prod.mk_sub_mk, deg] at h ⊢ <;>
    omega

theorem idx_addb2 (a b c : Axis) (δ : MIdx) (h : 2 ≤ cA a δ) :
    δ + eA c - eA a - eA a + eA b = δ + eA b + eA c - eA a - eA a := by
  obtain ⟨x, y, z⟩ := δ
  cases a <;> cases b <;> cases c <;>
    simp [cA, eA, Prod.mk_add_mk, Prod.mk_sub_mk, Prod.mk.injEq] at h ⊢ <;>
    omega

theorem deg_sub_one (c : Axis) (δ : MIdx) (h : 1 ≤ cA c δ) :
    deg (δ - eA c) + 1 = deg δ := deg_sub_eA c δ h

theorem idx_sub_add (b c : Axis) (δ : MIdx) (h : 1 ≤ cA c δ) :
    δ - eA c + eA b = δ + eA b - eA c := by
  obtain ⟨x, y, z⟩ := δ
  cases b <;> cases c <;>
    simp [cA, eA, Prod.mk_add_mk, Prod.mk_sub_mk, Prod.mk.injEq] at h ⊢ <;>
    omega

theorem mulNp_dPp_mulXp_Qp (b a : Axis) (γ : MIdx) :
    mulNp (dPp b (mulXp a (Qp γ))) =
      mulXp a (Qp (γ + eA b))
      + ((2 * deg γ + 1 : ℕ) : ℝ) • mulXp a (mulXp b (Qp γ))
      + (if b = a then mulNp (Qp γ) else 0) := by
  rw [dPp_mulXp, mulNp_add, ← mulXp_mulNp, Qp_dstar b γ, mulXp_add, mulXp_smul]
  congr 1
  split_ifs with h
  · rfl
  · exact mulNp_zero

theorem mulNp_dPp_mulNp_Qp (b : Axis) (γ : MIdx) :
    mulNp (dPp b (mulNp (Qp γ))) =
      mulNp (Qp (γ + eA b)) + ((2 * deg γ + 3 : ℕ) : ℝ) • mulNp (mulXp b (Qp γ)) := by
  rw [dPp_mulNp, mulNp_add, mulNp_smul, Qp_dstar b γ, mulNp_add, mulNp_smul]
  push_cast
  funext ξ
  simp
  ring

theorem wrapX (b a c : Axis) (δ : MIdx) :
    mulNp (dPp b (((2 * cA a δ : ℕ) : ℝ) • mulXp a (Qp (δ + eA c - eA a)))) =
      ((2 * cA a δ : ℕ) : ℝ) • mulXp a (Qp (δ + eA b + eA c - eA a))
      + ((2 * deg δ + 1 : ℕ) : ℝ) •
          (((2 * cA a δ : ℕ) : ℝ) • mulXp a (mulXp b (Qp (δ + eA c - eA a))))
      + (if b = a then ((2 * cA a δ : ℕ) : ℝ) • mulNp (Qp (δ + eA c - eA a)) else 0) := by
  rcases Nat.eq_zero_or_pos (cA a δ) with h | h
  · rw [h]
    simp only [Nat.mul_zero, Nat.cast_zero, zero_smul, smul_zero]
    rw [dPp_zero, mulNp_zero]
    simp
  · rw [dPp_smul, mulNp_smul, mulNp_dPp_mulXp_Qp b a _,
      deg_addc_sub a c δ (Or.inl h), idx_addb a b c δ (Or.inl h)]
    funext ξ
    split_ifs with hba <;> simp <;> ring

theorem wrapN2 (b a c : Axis) (δ : MIdx) :
    mulNp (dPp b (((cA a δ * (cA a δ - 1) : ℕ) : ℝ) •
        mulNp (Qp (δ + eA c - eA a - eA a)))) =
      ((cA a δ * (cA a δ - 1) : ℕ) : ℝ) • mulNp (Qp (δ + eA b + eA c - eA a - eA a))
      + ((2 * deg δ + 1 : ℕ) : ℝ) •
          (((cA a δ * (cA a δ - 1) : ℕ) : ℝ) •
            mulNp (mulXp b (Qp (δ + eA c - eA a - eA a)))) := by
  rcases Nat.lt_or_ge (cA a δ) 2 with h | h
  · have h0 : cA a δ * (cA a δ - 1) = 0 := by
      have h1 : cA a δ = 0 ∨ cA a δ = 1 := by omega
      rcases h1 with h1 | h1 <;> simp [h1]
    rw [h0]
    simp only [Nat.cast_zero, zero_smul, smul_zero]
    rw [dPp_zero, mulNp_zero]
    simp
  · rw [dPp_smul, mulNp_smul, mulNp_dPp_mulNp_Qp b _, idx_addb2 a b c δ h,
      show 2 * deg (δ + eA c - eA a - eA a) + 3 = 2 * deg δ + 1 from by
        have := deg_addc_sub2 a c δ h; omega]
    funext ξ
    simp
    ring

theorem wrapN4 (b c : Axis) (δ : MIdx) :
    mulNp (dPp b (((cA c δ : ℕ) : ℝ) • mulNp (Qp (δ - eA c)))) =
      ((cA c δ : ℕ) : ℝ) • mulNp (Qp (δ + eA b - eA c))
      + ((2 * deg δ + 1 : ℕ) : ℝ) •
          (((cA c δ : ℕ) : ℝ) • mulNp (mulXp b (Qp (δ - eA c)))) := by
  rcases Nat.eq_zero_or_pos (cA c δ) with h | h
  · rw [h]
    simp only [Nat.cast_zero, zero_smul, smul_zero]
    rw [dPp_zero, mulNp_zero]
    simp
  · rw [dPp_smul, mulNp_smul, mulNp_dPp_mulNp_Qp b _, idx_sub_add b c δ h,
      show 2 * deg (δ - eA c) + 3 = 2 * deg δ + 1 from by
        have := deg_sub_one c δ h; omega]
    funext ξ
    simp
    ring

theorem cA_zero_idx (a : Axis) : cA a ((0, 0, 0) : MIdx) = 0 := by
  cases a <;> rfl

theorem cA_add_eA_gen (a b : Axis) (γ : MIdx) :
    cA a (γ + eA b) = cA a γ + (if a = b then 1 else 0) := by
  obtain ⟨x, y, z⟩ := γ
  cases a <;> cases b <;> simp [cA, eA, Prod.mk_add_mk]

theorem cast_pred_mul (x : ℕ) :
    (x : ℝ) * ((x - 1 : ℕ) : ℝ) = (x : ℝ) * ((x : ℝ) - 1) := by
  cases x with
  | zero => simp
  | succ m => push_cast; ring

/-- Multi-index Leibniz expansion of `R² ∂_c (1/R) = −x_c (1/R)` differentiated
`β` times, written on the numerator tableaux (sum-to-zero form). -/
theorem QpG2 (n : ℕ) : ∀ (β : MIdx) (c : Axis), deg β ≤ n →
    Qp (β + eA c)
      + opS (fun a => ((2 * cA a β : ℕ) : ℝ) • mulXp a (Qp (β + eA c - eA a)))
      + opS (fun a => ((cA a β * (cA a β - 1) : ℕ) : ℝ) •
          mulNp (Qp (β + eA c - eA a - eA a)))
      + mulXp c (Qp β)
      + ((cA c β : ℕ) : ℝ) • mulNp (Qp (β - eA c)) = 0 := by
  induction n with
  | zero =>
    intro β c hβ
    obtain ⟨x, y, z⟩ := β
    simp only [deg] at hβ
    obtain rfl : x = 0 := by omega
    obtain rfl : y = 0 := by omega
    obtain rfl : z = 0 := by omega
    rw [Qp_step c (0, 0, 0), show deg ((0, 0, 0) : MIdx) = 0 from rfl, DOp,
      show Qp (0, 0, 0) = delta0 from by rw [Qp], dPp_delta0, mulNp_zero]
    simp only [opS, cA_zero_idx, Nat.mul_zero, Nat.zero_mul, Nat.cast_zero, zero_smul]
    funext ξ
    simp
  | succ n IH =>
    intro β c hβ
    rcases Nat.lt_or_ge (deg β) (n + 1) with hlt | hge
    · exact IH β c (by omega)
    have hd1 : deg β = n + 1 := le_antisymm hβ hge
    obtain ⟨b, hb⟩ : ∃ b : Axis, 1 ≤ cA b β := by
      obtain ⟨x, y, z⟩ := β
      simp only [deg] at hd1
      rcases Nat.lt_or_ge x 1 with hx | hx
      · rcases Nat.lt_or_ge y 1 with hy | hy
        · exact ⟨.az, by simp only [cA]; omega⟩
        · exact ⟨.ay, by simpa only [cA] using hy⟩
      · exact ⟨.ax, by simpa only [cA] using hx⟩
    obtain ⟨δ, rfl⟩ : ∃ δ : MIdx, β = δ + eA b := ⟨β - eA b, (sub_eA_add_eA b β hb).symm⟩
    have hdδ : deg δ = n := by have := deg_add_eA b δ; omega
    have IH2 := IH δ c (by omega)
    have hA := congrArg (fun p => mulNp (dPp b p)) IH2
    simp only [opS, dPp_add, mulNp_add, dPp_zero, mulNp_zero] at hA
    rw [Qp_dstar b (δ + eA c), wrapX b .ax c δ, wrapX b .ay c δ, wrapX b .az c δ,
      wrapN2 b .ax c δ, wrapN2 b .ay c δ, wrapN2 b .az c δ,
      mulNp_dPp_mulXp_Qp b c δ, wrapN4 b c δ] at hA
    have hB := congrArg (fun p => mulXp b p) IH2
    simp only [opS, mulXp_add, mulXp_smul, mulXp_zero] at hB
    rw [mulXp_comm b .ax, mulXp_comm b .ay, mulXp_comm b .az, mulXp_comm b c] at hB
    simp only [mulXp_mulNp] at hB
    simp only [opS]
    obtain ⟨x, y, z⟩ := δ
    have hdn : x + y + z = n := by simpa [deg] using hdδ
    cases b <;> cases c <;>
      (simp only [cA, cA_add_eA_gen, eA, deg, Prod.mk_add_mk, Prod.mk_sub_mk,
          Nat.add_sub_cancel, Nat.add_zero, Nat.zero_add, Nat.sub_zero,
          Nat.add_sub_cancel_left, reduceIte] at hA hB ⊢
       push_cast at hA hB ⊢
       funext ξ
       have hAξ := congrFun hA ξ
       have hBξ := congrFun hB ξ
       simp only [Pi.add_apply, Pi.smul_apply, Pi.zero_apply, smul_eq_mul] at hAξ hBξ ⊢
       simp only [mul_assoc, cast_pred_mul, ← mul_assoc] at hAξ hBξ ⊢
       linear_combination hAξ - (2 * ((x : ℝ) + y + z) + 1) * hBξ)

theorem idx_sub2_add (c a : Axis) (δ : MIdx) (h : 2 ≤ cA a δ) :
    δ - eA a - eA a + eA c = δ + eA c - eA a - eA a := by
  obtain ⟨x, y, z⟩ := δ
  cases a <;> cases c <;>
    simp [cA, eA, Prod.mk_add_mk, Prod.mk_sub_mk, Prod.mk.injEq] at h ⊢ <;>
    omega

theorem deg_sub2 (a : Axis) (δ : MIdx) (h : 2 ≤ cA a δ) :
    deg (δ - eA a - eA a) + 2 = deg δ := by
  obtain ⟨x, y, z⟩ := δ
  cases a <;> simp [cA, eA, Prod.mk_sub_mk, deg] at h ⊢ <;> omega

theorem wrapS0 (c : Axis) (δ : MIdx) :
    mulNp (dPp c (((deg δ : ℕ) : ℝ) • Qp δ)) =
      ((deg δ : ℕ) : ℝ) • Qp (δ + eA c)
      + ((deg δ : ℕ) : ℝ) • (((2 * deg δ + 1 : ℕ) : ℝ) • mulXp c (Qp δ)) := by
  rw [dPp_smul, mulNp_smul, Qp_dstar]
  funext ξ
  simp
  ring

theorem wrapSX (c a : Axis) (δ : MIdx) :
    mulNp (dPp c ((((2 * deg δ - 1) * cA a δ : ℕ) : ℝ) • mulXp a (Qp (δ - eA a)))) =
      (((2 * deg δ - 1) * cA a δ : ℕ) : ℝ) • mulXp a (Qp (δ + eA c - eA a))
      + ((2 * deg δ - 1 : ℕ) : ℝ) • ((((2 * deg δ - 1) * cA a δ : ℕ) : ℝ) •
          mulXp a (mulXp c (Qp (δ - eA a))))
      + (if c = a then (((2 * deg δ - 1) * cA a δ : ℕ) : ℝ) • mulNp (Qp (δ - eA a))
          else 0) := by
  rcases Nat.eq_zero_or_pos (cA a δ) with h | h
  · rw [h, Nat.mul_zero]
    simp only [Nat.cast_zero, zero_smul, smul_zero]
    rw [dPp_zero, mulNp_zero]
    simp
  · rw [dPp_smul, mulNp_smul, mulNp_dPp_mulXp_Qp c a _, idx_sub_add c a δ h,
      show 2 * deg (δ - eA a) + 1 = 2 * deg δ - 1 from by
        have := deg_sub_one a δ h; omega]
    funext ξ
    split_ifs <;> simp <;> ring

theorem wrapSN (c a : Axis) (δ : MIdx) :
    mulNp (dPp c ((((deg δ - 1) * (cA a δ * (cA a δ - 1)) : ℕ) : ℝ) •
        mulNp (Qp (δ - eA a - eA a)))) =
      (((deg δ - 1) * (cA a δ * (cA a δ - 1)) : ℕ) : ℝ) •
          mulNp (Qp (δ + eA c - eA a - eA a))
      + ((2 * deg δ - 1 : ℕ) : ℝ) •
          ((((deg δ - 1) * (cA a δ * (cA a δ - 1)) : ℕ) : ℝ) •
            mulNp (mulXp c (Qp (δ - eA a - eA a)))) := by
  rcases Nat.lt_or_ge (cA a δ) 2 with h | h
  · have h0 : cA a δ * (cA a δ - 1) = 0 := by
      have h1 : cA a δ = 0 ∨ cA a δ = 1 := by omega
      rcases h1 with h1 | h1 <;> simp [h1]
    rw [h0, Nat.mul_zero]
    simp only [Nat.cast_zero, zero_smul, smul_zero]
    rw [dPp_zero, mulNp_zero]
    simp
  · rw [dPp_smul, mulNp_smul, mulNp_dPp_mulNp_Qp c _, idx_sub2_add c a δ h,
      show 2 * deg (δ - eA a - eA a) + 3 = 2 * deg δ - 1 from by
        have h2 := deg_sub2 a δ h
        have h3 : 2 ≤ deg δ := by
          obtain ⟨x, y, z⟩ := δ
          cases a <;> simp [cA, deg] at h ⊢ <;> omega
        omega]
    funext ξ
    simp
    ring

/-- The Derivative Builder recurrence on the numerator tableaux: for `|α| ≥ 1`,
`|α| q_α + (2|α|−1) Σ_a α_a x_a q_{α−e_a} + (|α|−1) Σ_a α_a(α_a−1) N q_{α−2e_a} = 0`.
This is the classical recurrence for the Taylor numerators of `1/R`. -/
theorem Qpstar (n : ℕ) : ∀ α : MIdx, deg α ≤ n → 1 ≤ deg α →
    ((deg α : ℕ) : ℝ) • Qp α
      + opS (fun a => (((2 * deg α - 1) * cA a α : ℕ) : ℝ) • mulXp a (Qp (α - eA a)))
      + opS (fun a => (((deg α - 1) * (cA a α * (cA a α - 1)) : ℕ) : ℝ) •
          mulNp (Qp (α - eA a - eA a))) = 0 := by
  induction n with
  | zero => intro α hα h1; omega
  | succ n IH =>
    intro α hα h1
    rcases Nat.lt_or_ge (deg α) (n + 1) with hlt | hge
    · exact IH α (by omega) h1
    have hd1 : deg α = n + 1 := le_antisymm hα hge
    obtain ⟨c, hc⟩ : ∃ c : Axis, 1 ≤ cA c α := by
      obtain ⟨x, y, z⟩ := α
      simp only [deg] at hd1
      rcases Nat.lt_or_ge x 1 with hx | hx
      · rcases Nat.lt_or_ge y 1 with hy | hy
        · exact ⟨.az, by simp only [cA]; omega⟩
        · exact ⟨.ay, by simpa only [cA] using hy⟩
      · exact ⟨.ax, by simpa only [cA] using hx⟩
    obtain ⟨δ, rfl⟩ : ∃ δ : MIdx, α = δ + eA c := ⟨α - eA c, (sub_eA_add_eA c α hc).symm⟩
    have hdδ : deg δ = n := by have := deg_add_eA c δ; omega
    have hG2 := QpG2 n δ c (by omega)
    rcases Nat.eq_zero_or_pos n with hn0 | hn1
    · -- degree-one base: everything follows from the Leibniz identity alone
      obtain ⟨x, y, z⟩ := δ
      simp only [deg, hn0] at hdδ
      obtain rfl : x = 0 := by omega
      obtain rfl : y = 0 := by omega
      obtain rfl : z = 0 := by omega
      simp only [opS] at hG2 ⊢
      cases c <;>
        (simp only [cA, cA_add_eA_gen, eA, deg, Prod.mk_add_mk, Prod.mk_sub_mk,
            Nat.add_sub_cancel, Nat.add_zero, Nat.zero_add, Nat.sub_zero,
            Nat.add_sub_cancel_left, reduceIte, cA_zero_idx] at hG2 ⊢
         norm_num at hG2 ⊢
         funext ξ
         have hG2ξ := congrFun hG2 ξ
         simp only [Pi.add_apply, Pi.smul_apply, Pi.zero_apply, smul_eq_mul] at hG2ξ ⊢
         linear_combination hG2ξ)
    -- main step: degree n+1 with n ≥ 1
    obtain ⟨m, rfl⟩ : ∃ m : ℕ, n = m + 1 := ⟨n - 1, by omega⟩
    have IHδ := IH δ (by omega) (by omega)
    have hD1 := congrArg (fun p => mulNp (dPp c p)) IHδ
    simp only [opS, dPp_add, mulNp_add, dPp_zero, mulNp_zero] at hD1
    rw [wrapS0 c δ, wrapSX c .ax δ, wrapSX c .ay δ, wrapSX c .az δ,
      wrapSN c .ax δ, wrapSN c .ay δ, wrapSN c .az δ] at hD1
    have hB := congrArg (fun p => mulXp c p) IHδ
    simp only [opS, mulXp_add, mulXp_smul, mulXp_zero] at hB
    rw [mulXp_comm c .ax, mulXp_comm c .ay, mulXp_comm c .az] at hB
    simp only [mulXp_mulNp] at hB
    simp only [opS] at hG2 ⊢
    rw [deg_add_eA c δ]
    simp only [show ∀ t : ℕ, 2 * (t + 1) - 1 = 2 * t + 1 from fun t => by omega,
      show ∀ t : ℕ, t + 1 - 1 = t from fun t => by omega]
    obtain ⟨x, y, z⟩ := δ
    have hdn : x + y + z = m + 1 := by simpa [deg] using hdδ
    cases c <;>
      (simp only [cA, cA_add_eA_gen, eA, deg, Prod.mk_add_mk, Prod.mk_sub_mk,
          Nat.add_sub_cancel, Nat.add_zero, Nat.zero_add, Nat.sub_zero,
          Nat.add_sub_cancel_left, reduceIte] at hD1 hB hG2 ⊢
       rw [show x + y + z = m + 1 from hdn] at hD1 hB ⊢
       simp only [show ∀ t : ℕ, 2 * (t + 1) - 1 = 2 * t + 1 from fun t => by omega,
         show ∀ t : ℕ, t + 1 - 1 = t from fun t => by omega] at hD1 hB ⊢
       push_cast at hD1 hB hG2 ⊢
       funext ξ
       have hD1ξ := congrFun hD1 ξ
       have hBξ := congrFun hB ξ
       have hG2ξ := congrFun hG2 ξ
       simp only [Pi.add_apply, Pi.smul_apply, Pi.zero_apply, smul_eq_mul]
         at hD1ξ hBξ hG2ξ ⊢
       simp only [mul_assoc, cast_pred_mul, ← mul_assoc] at hD1ξ hBξ hG2ξ ⊢
       linear_combination hD1ξ - (2 * (m : ℝ) + 1) * hBξ + hG2ξ)

/-- Monomial value `d^γ`. -/
def pw (d : ℝ × ℝ × ℝ) (γ : MIdx) : ℝ := d.1 ^ γ.1 * d.2.1 ^ γ.2.1 * d.2.2 ^ γ.2.2

/-- Coordinate of a point along an axis. -/
def coordA : Axis → ℝ × ℝ × ℝ → ℝ
| .ax, d => d.1
| .ay, d => d.2.1
| .az, d => d.2.2

/-- Sum of a three-axis family of reals. -/
def sumAx (f : Axis → ℝ) : ℝ := f .ax + f .ay + f .az

/-- Value at `d` of the polynomial with coefficient tableau `p`, reading all
slots of total degree at most `D`. -/
def pEval (D : ℕ) (p : PTab) (d : ℝ × ℝ × ℝ) : ℝ :=
  ∑ γ ∈ idxUpto D, p γ * pw d γ

theorem pw_add_eA (a : Axis) (d : ℝ × ℝ × ℝ) (γ : MIdx) :
    pw d (γ + eA a) = coordA a d * pw d γ := by
  obtain ⟨x, y, z⟩ := γ
  cases a <;> simp [pw, coordA, eA, Prod.mk_add_mk, pow_succ] <;> ring

theorem pEval_add (D : ℕ) (p q : PTab) (d : ℝ × ℝ × ℝ) :
    pEval D (p + q) d = pEval D p d + pEval D q d := by
  simp only [pEval, Pi.add_apply, add_mul]
  exact Finset.sum_add_distrib

theorem pEval_smul (D : ℕ) (c : ℝ) (p : PTab) (d : ℝ × ℝ × ℝ) :
    pEval D (c • p) d = c * pEval D p d := by
  simp only [pEval, Pi.smul_apply, smul_eq_mul, Finset.mul_sum]
  exact Finset.sum_congr rfl (fun γ _ => by ring)

theorem pEval_zero_fun (D : ℕ) (d : ℝ × ℝ × ℝ) : pEval D (0 : PTab) d = 0 := by
  simp [pEval]

theorem pEval_congr {p : PTab} {m : ℕ} (hp : suppBd p m) {D D' : ℕ} (h1 : m ≤ D)
    (h2 : D ≤ D') (d : ℝ × ℝ × ℝ) : pEval D' p d = pEval D p d := by
  rw [pEval, pEval]
  refine (Finset.sum_subset ?_ ?_).symm
  · intro γ hγ
    rw [mem_idxUpto] at hγ ⊢
    omega
  · intro γ hγ hnot
    rw [mem_idxUpto] at hγ hnot
    rw [hp γ (by omega), zero_mul]

theorem sum_shift_eA (a : Axis) (D : ℕ) (g : MIdx → ℝ) :
    ∑ γ ∈ (idxUpto D).filter (fun γ => 1 ≤ cA a γ), g γ =
      ∑ γ ∈ (idxUpto D).filter (fun γ => deg γ + 1 ≤ D), g (γ + eA a) := by
  refine Finset.sum_nbij' (fun γ => γ - eA a) (fun γ => γ + eA a) ?_ ?_ ?_ ?_ ?_
  · intro γ hγ
    simp only [Finset.mem_filter, mem_idxUpto] at hγ ⊢
    have := deg_sub_eA a γ hγ.2
    omega
  · intro γ hγ
    simp only [Finset.mem_filter, mem_idxUpto] at hγ ⊢
    have h1 := deg_add_eA a γ
    have h2 := cA_add_eA_self a γ
    omega
  · intro γ hγ
    simp only [Finset.mem_filter, mem_idxUpto] at hγ
    exact sub_eA_add_eA a γ hγ.2
  · intro γ _
    exact add_eA_sub_eA a γ
  · intro γ hγ
    simp only [Finset.mem_filter, mem_idxUpto] at hγ
    rw [sub_eA_add_eA a γ hγ.2]

theorem pEval_mulXp {p : PTab} {m : ℕ} (a : Axis) (hp : suppBd p m) {D : ℕ}
    (hD : m + 1 ≤ D) (d : ℝ × ℝ × ℝ) :
    pEval D (mulXp a p) d = coordA a d * pEval D p d := by
  rw [pEval, pEval, Finset.mul_sum]
  have step1 : ∑ γ ∈ idxUpto D, mulXp a p γ * pw d γ =
      ∑ γ ∈ (idxUpto D).filter (fun γ => 1 ≤ cA a γ), p (γ - eA a) * pw d γ := by
    rw [Finset.sum_filter]
    refine Finset.sum_congr rfl (fun γ _ => ?_)
    simp only [mulXp]
    split_ifs <;> simp
  rw [step1, sum_shift_eA a D (fun γ => p (γ - eA a) * pw d γ)]
  have step2 : ∀ γ ∈ (idxUpto D).filter (fun γ => deg γ + 1 ≤ D),
      p (γ + eA a - eA a) * pw d (γ + eA a) = coordA a d * (p γ * pw d γ) := by
    intro γ _
    rw [add_eA_sub_eA a γ, pw_add_eA a d γ]
    ring
  rw [Finset.sum_congr rfl step2]
  refine Finset.sum_subset ?_ ?_
  · intro γ hγ
    simp only [Finset.mem_filter] at hγ
    exact hγ.1
  · intro γ hγ hnot
    simp only [Finset.mem_filter, mem_idxUpto] at hγ hnot
    rw [hp γ (by omega)]
    ring

theorem pEval_mulNp {p : PTab} {m : ℕ} (hp : suppBd p m) {D : ℕ}
    (hD : m + 2 ≤ D) (d : ℝ × ℝ × ℝ) :
    pEval D (mulNp p) d = normSq d * pEval D p d := by
  have key : ∀ a : Axis, pEval D (mulXp a (mulXp a p)) d =
      coordA a d * (coordA a d * pEval D p d) := by
    intro a
    rw [pEval_mulXp a (suppBd_mulXp a hp) (by omega) d,
      pEval_mulXp a hp (by omega) d]
  rw [mulNp, opS, pEval_add, pEval_add, key .ax, key .ay, key .az]
  obtain ⟨d1, d2, d3⟩ := d
  simp [normSq, coordA]
  ring

theorem pEval_delta0 (D : ℕ) (d : ℝ × ℝ × ℝ) : pEval D delta0 d = 1 := by
  rw [pEval, Finset.sum_eq_single ((0, 0, 0) : MIdx)]
  · simp [delta0, pw]
  · intro γ _ hne
    simp only [delta0]
    rw [if_neg hne, zero_mul]
  · intro habs
    exact absurd (mem_idxUpto.mpr (by simp [deg])) habs

theorem evalWX (a : Axis) (α : MIdx) (d : ℝ × ℝ × ℝ) :
    (((2 * deg α - 1) * cA a α : ℕ) : ℝ) * pEval (deg α) (mulXp a (Qp (α - eA a))) d =
      (((2 * deg α - 1) * cA a α : ℕ) : ℝ) *
        (coordA a d * pEval (deg α) (Qp (α - eA a)) d) := by
  rcases Nat.eq_zero_or_pos (cA a α) with h | h
  · rw [h, Nat.mul_zero]
    simp
  · rw [pEval_mulXp a (suppBd_Qp (α - eA a)) (by have := deg_sub_one a α h; omega) d]

theorem evalWN (a : Axis) (α : MIdx) (d : ℝ × ℝ × ℝ) :
    (((deg α - 1) * (cA a α * (cA a α - 1)) : ℕ) : ℝ) *
        pEval (deg α) (mulNp (Qp (α - eA a - eA a))) d =
      (((deg α - 1) * (cA a α * (cA a α - 1)) : ℕ) : ℝ) *
        (normSq d * pEval (deg α) (Qp (α - eA a - eA a)) d) := by
  rcases Nat.lt_or_ge (cA a α) 2 with h | h
  · have h0 : cA a α * (cA a α - 1) = 0 := by
      have h1 : cA a α = 0 ∨ cA a α = 1 := by omega
      rcases h1 with h1 | h1 <;> simp [h1]
    rw [h0, Nat.mul_zero]
    simp
  · rw [pEval_mulNp (suppBd_Qp (α - eA a - eA a)) (by have := deg_sub2 a α h; omega) d]

/-- Evaluated form of the Derivative Builder recurrence at a point `d`. -/
theorem QpstarEval (α : MIdx) (d : ℝ × ℝ × ℝ) (h1 : 1 ≤ deg α) :
    ((deg α : ℕ) : ℝ) * pEval (deg α) (Qp α) d
      + sumAx (fun a => (((2 * deg α - 1) * cA a α : ℕ) : ℝ) *
          (coordA a d * pEval (deg α) (Qp (α - eA a)) d))
      + sumAx (fun a => (((deg α - 1) * (cA a α * (cA a α - 1)) : ℕ) : ℝ) *
          (normSq d * pEval (deg α) (Qp (α - eA a - eA a)) d)) = 0 := by
  have hst := Qpstar (deg α) α le_rfl h1
  have hev := congrArg (fun p => pEval (deg α) p d) hst
  simp only [opS, pEval_add, pEval_smul, pEval_zero_fun] at hev
  rw [evalWX .ax α d, evalWX .ay α d, evalWX .az α d,
    evalWN .ax α d, evalWN .ay α d, evalWN .az α d] at hev
  simpa [sumAx] using hev

theorem pEval_sub (D : ℕ) (p q : PTab) (d : ℝ × ℝ × ℝ) :
    pEval D (p - q) d = pEval D p d - pEval D q d := by
  simp only [pEval, Pi.sub_apply, sub_mul]
  exact Finset.sum_sub_distrib

/-- One Derivative Builder step, evaluated: the numerator polynomial of
`∂_a ∂^β (1/R)` in terms of the slice data of `∂^β (1/R)`. -/
theorem pEval_Qp_step (a : Axis) (β : MIdx) (d : ℝ × ℝ × ℝ) :
    pEval (deg β + 1) (Qp (β + eA a)) d =
      normSq d * pEval (deg β) (dPp a (Qp β)) d
      - ((2 * deg β + 1 : ℕ) : ℝ) * (coordA a d * pEval (deg β) (Qp β) d) := by
  rw [Qp_step a β, DOp, pEval_sub, pEval_smul]
  congr 1
  · rcases Nat.eq_zero_or_pos (deg β) with h0 | hpos
    · rw [h0]
      rw [dPp_of_suppBd_zero a (by rw [← h0]; exact suppBd_Qp β), mulNp_zero]
      simp [pEval_zero_fun]
    · obtain ⟨m, hm⟩ : ∃ m, deg β = m + 1 := ⟨deg β - 1, by omega⟩
      have hsupp : suppBd (dPp a (Qp β)) m :=
        suppBd_dPp a (by rw [← hm]; exact suppBd_Qp β)
      rw [pEval_mulNp hsupp (by omega) d,
        pEval_congr hsupp (show m ≤ deg β from by omega)
          (show deg β ≤ deg β + 1 from by omega) d]
  · rw [pEval_mulXp a (suppBd_Qp β) (by omega) d,
      pEval_congr (suppBd_Qp β) le_rfl (show deg β ≤ deg β + 1 from by omega) d]

theorem hasDerivAt_pEval_x {p : PTab} {D : ℕ} (hp : suppBd p D) (u b c : ℝ) :
    HasDerivAt (fun t => pEval D p (t, b, c)) (pEval D (dPp .ax p) (u, b, c)) u := by
  have h1 : ∀ γ ∈ idxUpto D, HasDerivAt (fun t => p γ * pw (t, b, c) γ)
      (p γ * ((γ.1 : ℝ) * u ^ (γ.1 - 1) * (b ^ γ.2.1 * c ^ γ.2.2))) u := by
    intro γ _
    have e : (fun t => p γ * pw (t, b, c) γ) =
        (fun t => p γ * (t ^ γ.1 * (b ^ γ.2.1 * c ^ γ.2.2))) := by
      funext t
      simp only [pw]
      ring
    rw [e]
    exact ((hasDerivAt_pow γ.1 u).mul_const (b ^ γ.2.1 * c ^ γ.2.2)).const_mul (p γ)
  have hsum := HasDerivAt.sum h1
  have key : pEval D (dPp .ax p) (u, b, c) =
      ∑ γ ∈ idxUpto D, p γ * ((γ.1 : ℝ) * u ^ (γ.1 - 1) * (b ^ γ.2.1 * c ^ γ.2.2)) := by
    rw [pEval]
    have lhs1 : ∑ γ ∈ idxUpto D, dPp .ax p γ * pw (u, b, c) γ =
        ∑ γ ∈ (idxUpto D).filter (fun γ => deg γ + 1 ≤ D),
          dPp .ax p γ * pw (u, b, c) γ := by
      refine (Finset.sum_subset (fun γ hγ => ?_) (fun γ hγ hnot => ?_)).symm
      · simp only [Finset.mem_filter, mem_idxUpto] at hγ ⊢
        omega
      · simp only [Finset.mem_filter, mem_idxUpto] at hγ hnot
        simp only [dPp]
        rw [hp _ (by rw [deg_add_eA]; omega)]
        simp
    have rhs1 : ∑ γ ∈ idxUpto D,
        p γ * ((γ.1 : ℝ) * u ^ (γ.1 - 1) * (b ^ γ.2.1 * c ^ γ.2.2)) =
        ∑ γ ∈ (idxUpto D).filter (fun γ => 1 ≤ cA .ax γ),
          p γ * ((γ.1 : ℝ) * u ^ (γ.1 - 1) * (b ^ γ.2.1 * c ^ γ.2.2)) := by
      refine (Finset.sum_subset (fun γ hγ => ?_) (fun γ hγ hnot => ?_)).symm
      · simp only [Finset.mem_filter] at hγ
        exact hγ.1
      · simp only [Finset.mem_filter, mem_idxUpto, cA] at hγ hnot
        have : γ.1 = 0 := by omega
        rw [this]
        simp
    rw [lhs1, rhs1, sum_shift_eA .ax D (fun γ =>
      p γ * ((γ.1 : ℝ) * u ^ (γ.1 - 1) * (b ^ γ.2.1 * c ^ γ.2.2)))]
    refine Finset.sum_congr rfl (fun γ hγ => ?_)
    obtain ⟨g1, g2, g3⟩ := γ
    simp only [dPp, cA, eA, Prod.mk_add_mk, pw, Nat.add_zero, Nat.add_sub_cancel]
    push_cast
    ring
  rw [key]
  exact hsum

theorem hasDerivAt_pEval_y {p : PTab} {D : ℕ} (hp : suppBd p D) (a u c : ℝ) :
    HasDerivAt (fun t => pEval D p (a, t, c)) (pEval D (dPp .ay p) (a, u, c)) u := by
  have h1 : ∀ γ ∈ idxUpto D, HasDerivAt (fun t => p γ * pw (a, t, c) γ)
      (p γ * ((γ.2.1 : ℝ) * u ^ (γ.2.1 - 1) * (a ^ γ.1 * c ^ γ.2.2))) u := by
    intro γ _
    have e : (fun t => p γ * pw (a, t, c) γ) =
        (fun t => (p γ * (a ^ γ.1 * c ^ γ.2.2)) * t ^ γ.2.1) := by
      funext t
      simp only [pw]
      ring
    have e2 : p γ * ((γ.2.1 : ℝ) * u ^ (γ.2.1 - 1) * (a ^ γ.1 * c ^ γ.2.2)) =
        (p γ * (a ^ γ.1 * c ^ γ.2.2)) * ((γ.2.1 : ℝ) * u ^ (γ.2.1 - 1)) := by ring
    rw [e, e2]
    exact (hasDerivAt_pow γ.2.1 u).const_mul (p γ * (a ^ γ.1 * c ^ γ.2.2))
  have hsum := HasDerivAt.sum h1
  have key : pEval D (dPp .ay p) (a, u, c) =
      ∑ γ ∈ idxUpto D, p γ * ((γ.2.1 : ℝ) * u ^ (γ.2.1 - 1) * (a ^ γ.1 * c ^ γ.2.2)) := by
    rw [pEval]
    have lhs1 : ∑ γ ∈ idxUpto D, dPp .ay p γ * pw (a, u, c) γ =
        ∑ γ ∈ (idxUpto D).filter (fun γ => deg γ + 1 ≤ D),
          dPp .ay p γ * pw (a, u, c) γ := by
      refine (Finset.sum_subset (fun γ hγ => ?_) (fun γ hγ hnot => ?_)).symm
      · simp only [Finset.mem_filter, mem_idxUpto] at hγ ⊢
        omega
      · simp only [Finset.mem_filter, mem_idxUpto] at hγ hnot
        simp only [dPp]
        rw [hp _ (by rw [deg_add_eA]; omega)]
        simp
    have rhs1 : ∑ γ ∈ idxUpto D,
        p γ * ((γ.2.1 : ℝ) * u ^ (γ.2.1 - 1) * (a ^ γ.1 * c ^ γ.2.2)) =
        ∑ γ ∈ (idxUpto D).filter (fun γ => 1 ≤ cA .ay γ),
          p γ * ((γ.2.1 : ℝ) * u ^ (γ.2.1 - 1) * (a ^ γ.1 * c ^ γ.2.2)) := by
      refine (Finset.sum_subset (fun γ hγ => ?_) (fun γ hγ hnot => ?_)).symm
      · simp only [Finset.mem_filter] at hγ
        exact hγ.1
      · simp only [Finset.mem_filter, mem_idxUpto, cA] at hγ hnot
        have : γ.2.1 = 0 := by omega
        rw [this]
        simp
    rw [lhs1, rhs1, sum_shift_eA .ay D (fun γ =>
      p γ * ((γ.2.1 : ℝ) * u ^ (γ.2.1 - 1) * (a ^ γ.1 * c ^ γ.2.2)))]
    refine Finset.sum_congr rfl (fun γ hγ => ?_)
    obtain ⟨g1, g2, g3⟩ := γ
    simp only [dPp, cA, eA, Prod.mk_add_mk, pw, Nat.add_zero, Nat.zero_add,
      Nat.add_sub_cancel]
    push_cast
    ring
  rw [key]
  exact hsum

theorem hasDerivAt_pEval_z {p : PTab} {D : ℕ} (hp : suppBd p D) (a b u : ℝ) :
    HasDerivAt (fun t => pEval D p (a, b, t)) (pEval D (dPp .az p) (a, b, u)) u := by
  have h1 : ∀ γ ∈ idxUpto D, HasDerivAt (fun t => p γ * pw (a, b, t) γ)
      (p γ * ((γ.2.2 : ℝ) * u ^ (γ.2.2 - 1) * (a ^ γ.1 * b ^ γ.2.1))) u := by
    intro γ _
    have e : (fun t => p γ * pw (a, b, t) γ) =
        (fun t => (p γ * (a ^ γ.1 * b ^ γ.2.1)) * t ^ γ.2.2) := by
      funext t
      simp only [pw]
      ring
    have e2 : p γ * ((γ.2.2 : ℝ) * u ^ (γ.2.2 - 1) * (a ^ γ.1 * b ^ γ.2.1)) =
        (p γ * (a ^ γ.1 * b ^ γ.2.1)) * ((γ.2.2 : ℝ) * u ^ (γ.2.2 - 1)) := by ring
    rw [e, e2]
    exact (hasDerivAt_pow γ.2.2 u).const_mul (p γ * (a ^ γ.1 * b ^ γ.2.1))
  have hsum := HasDerivAt.sum h1
  have key : pEval D (dPp .az p) (a, b, u) =
      ∑ γ ∈ idxUpto D, p γ * ((γ.2.2 : ℝ) * u ^ (γ.2.2 - 1) * (a ^ γ.1 * b ^ γ.2.1)) := by
    rw [pEval]
    have lhs1 : ∑ γ ∈ idxUpto D, dPp .az p γ * pw (a, b, u) γ =
        ∑ γ ∈ (idxUpto D).filter (fun γ => deg γ + 1 ≤ D),
          dPp .az p γ * pw (a, b, u) γ := by
      refine (Finset.sum_subset (fun γ hγ => ?_) (fun γ hγ hnot => ?_)).symm
      · simp only [Finset.mem_filter, mem_idxUpto] at hγ ⊢
        omega
      · simp only [Finset.mem_filter, mem_idxUpto] at hγ hnot
        simp only [dPp]
        rw [hp _ (by rw [deg_add_eA]; omega)]
        simp
    have rhs1 : ∑ γ ∈ idxUpto D,
        p γ * ((γ.2.2 : ℝ) * u ^ (γ.2.2 - 1) * (a ^ γ.1 * b ^ γ.2.1)) =
        ∑ γ ∈ (idxUpto D).filter (fun γ => 1 ≤ cA .az γ),
          p γ * ((γ.2.2 : ℝ) * u ^ (γ.2.2 - 1) * (a ^ γ.1 * b ^ γ.2.1)) := by
      refine (Finset.sum_subset (fun γ hγ => ?_) (fun γ hγ hnot => ?_)).symm
      · simp only [Finset.mem_filter] at hγ
        exact hγ.1
      · simp only [Finset.mem_filter, mem_idxUpto, cA] at hγ hnot
        have : γ.2.2 = 0 := by omega
        rw [this]
        simp
    rw [lhs1, rhs1, sum_shift_eA .az D (fun γ =>
      p γ * ((γ.2.2 : ℝ) * u ^ (γ.2.2 - 1) * (a ^ γ.1 * b ^ γ.2.1)))]
    refine Finset.sum_congr rfl (fun γ hγ => ?_)
    obtain ⟨g1, g2, g3⟩ := γ
    simp only [dPp, cA, eA, Prod.mk_add_mk, pw, Nat.add_zero, Nat.zero_add,
      Nat.add_sub_cancel]
    push_cast
    ring
  rw [key]
  exact hsum

/-- Derivative of `t ↦ P t / (g t ^ k √(g t))` when `g` has derivative `2u`:
the quotient-rule form matching one Derivative Builder step. -/
theorem hasDerivAt_fracPow (g P : ℝ → ℝ) (u P' : ℝ) (k : ℕ)
    (hg : HasDerivAt g (2 * u) u) (hP : HasDerivAt P P' u) (hpos : 0 < g u) :
    HasDerivAt (fun t => P t / (g t ^ k * Real.sqrt (g t)))
      ((P' * g u - (2 * (k : ℝ) + 1) * u * P u) /
        (g u ^ (k + 1) * Real.sqrt (g u))) u := by
  have h0 : g u ≠ 0 := ne_of_gt hpos
  have hsp : 0 < Real.sqrt (g u) := Real.sqrt_pos.mpr hpos
  have hsne : Real.sqrt (g u) ≠ 0 := ne_of_gt hsp
  have hsq : Real.sqrt (g u) ^ 2 = g u := Real.sq_sqrt (le_of_lt hpos)
  have hs : HasDerivAt (fun t => Real.sqrt (g t))
      (1 / (2 * Real.sqrt (g u)) * (2 * u)) u :=
    (Real.hasDerivAt_sqrt h0).comp u hg
  have hgk : HasDerivAt (fun t => g t ^ k)
      ((k : ℕ) * g u ^ (k - 1) * (2 * u)) u := by
    simpa using (hg.pow k)
  have hden := hgk.mul hs
  have hdne : g u ^ k * Real.sqrt (g u) ≠ 0 :=
    mul_ne_zero (pow_ne_zero k h0) hsne
  have hq := hP.div hden hdne
  convert hq using 1
  rcases k with _ | k'
  · simp only [Nat.cast_zero, pow_zero, Nat.zero_sub, mul_one, one_mul, Nat.cast_ofNat,
      zero_mul, zero_add]
    rw [div_eq_div_iff (by positivity) (by positivity)]
    field_simp
    linear_combination (-(2 * P' * g u * Real.sqrt (g u))) * hsq
  · rw [div_eq_div_iff (by positivity) (by positivity)]
    push_cast
    field_simp
    linear_combination
      (-(2 * (g u ^ 2 * g u ^ (k' * 2) * u * P u * Real.sqrt (g u)))) * hsq

/-- The iterated partial derivatives of `1/R` away from the origin are the
evaluations of the canonical numerator tableaux: `∂^α(1/R)(d) = q_α(d)/(R²)^|α|/R`. -/
theorem pderiv_eq_qfun : ∀ (α : MIdx) (d : ℝ × ℝ × ℝ), d ≠ 0 →
    pderiv α kernelF d =
      pEval (deg α) (Qp α) d / (normSq d ^ deg α * Real.sqrt (normSq d)) := by
  intro α
  induction α using Qp.induct with
  | case4 =>
    intro d hd
    show kernelF d = _
    rw [show Qp (0, 0, 0) = delta0 from by rw [Qp], pEval_delta0,
      show deg ((0, 0, 0) : MIdx) = 0 from rfl]
    simp [kernelF]
  | case1 nx ny nz ih =>
    intro d hd
    obtain ⟨a, b, c⟩ := d
    have h0 : (a ^ 2 + b ^ 2 + c ^ 2 : ℝ) ≠ 0 := ne_of_gt (normSq_pos hd)
    have hpos : (0 : ℝ) < a ^ 2 + b ^ 2 + c ^ 2 := normSq_pos hd
    have hstep : pderiv (nx + 1, ny, nz) kernelF (a, b, c) =
        pdx (pderiv (nx, ny, nz) kernelF) (a, b, c) := by
      show pdx^[nx + 1] (pdy^[ny] (pdz^[nz] kernelF)) (a, b, c) = _
      rw [Function.iterate_succ_apply']
      rfl
    rw [hstep]
    have hev : (fun u => pderiv (nx, ny, nz) kernelF (u, b, c)) =ᶠ[nhds a]
        (fun u => pEval (deg ((nx : ℕ), ny, nz)) (Qp (nx, ny, nz)) (u, b, c) /
          ((u ^ 2 + b ^ 2 + c ^ 2) ^ deg ((nx : ℕ), ny, nz) *
            Real.sqrt (u ^ 2 + b ^ 2 + c ^ 2))) := by
      have hcont : Continuous (fun u : ℝ => u ^ 2 + b ^ 2 + c ^ 2) := by continuity
      have hne : ∀ᶠ u in nhds a, (u ^ 2 + b ^ 2 + c ^ 2 : ℝ) ≠ 0 :=
        hcont.continuousAt.eventually_ne h0
      filter_upwards [hne] with u hu
      exact ih (u, b, c) (ne_zero_of_normSq (show normSq (u, b, c) ≠ 0 from hu))
    have hu2 : HasDerivAt (fun u : ℝ => u ^ 2 + b ^ 2 + c ^ 2) (2 * a) a := by
      simpa using ((hasDerivAt_pow 2 a).add_const (b ^ 2)).add_const (c ^ 2)
    have hP := hasDerivAt_pEval_x (suppBd_Qp ((nx : ℕ), ny, nz)) a b c
    have hfrac := hasDerivAt_fracPow (fun u => u ^ 2 + b ^ 2 + c ^ 2)
      (fun t => pEval (deg ((nx : ℕ), ny, nz)) (Qp (nx, ny, nz)) (t, b, c)) a
      (pEval (deg ((nx : ℕ), ny, nz)) (dPp .ax (Qp (nx, ny, nz))) (a, b, c))
      (deg ((nx : ℕ), ny, nz)) hu2 hP hpos
    show deriv (fun u => pderiv (nx, ny, nz) kernelF (u, b, c)) a = _
    rw [hev.deriv_eq, hfrac.deriv,
      show ((nx + 1 : ℕ), ny, nz) = ((nx : ℕ), ny, nz) + eA .ax from rfl,
      show deg (((nx : ℕ), ny, nz) + eA .ax) = deg ((nx : ℕ), ny, nz) + 1 from
        deg_add_eA .ax ((nx : ℕ), ny, nz),
      pEval_Qp_step .ax ((nx : ℕ), ny, nz) (a, b, c)]
    show _ = (normSq ((a : ℝ), b, c) * _ - _ * (a * _)) /
      (normSq ((a : ℝ), b, c) ^ (deg ((nx : ℕ), ny, nz) + 1) *
        Real.sqrt (normSq ((a : ℝ), b, c)))
    simp only [normSq]
    push_cast
    ring_nf
  | case2 ny nz ih =>
    intro d hd
    obtain ⟨a, b, c⟩ := d
    have h0 : (a ^ 2 + b ^ 2 + c ^ 2 : ℝ) ≠ 0 := ne_of_gt (normSq_pos hd)
    have hpos : (0 : ℝ) < a ^ 2 + b ^ 2 + c ^ 2 := normSq_pos hd
    have hstep : pderiv (0, ny + 1, nz) kernelF (a, b, c) =
        pdy (pderiv (0, ny, nz) kernelF) (a, b, c) := by
      show pdy^[ny + 1] (pdz^[nz] kernelF) (a, b, c) = _
      rw [Function.iterate_succ_apply']
      rfl
    rw [hstep]
    have hev : (fun u => pderiv (0, ny, nz) kernelF (a, u, c)) =ᶠ[nhds b]
        (fun u => pEval (deg ((0 : ℕ), ny, nz)) (Qp (0, ny, nz)) (a, u, c) /
          ((a ^ 2 + u ^ 2 + c ^ 2) ^ deg ((0 : ℕ), ny, nz) *
            Real.sqrt (a ^ 2 + u ^ 2 + c ^ 2))) := by
      have hcont : Continuous (fun u : ℝ => a ^ 2 + u ^ 2 + c ^ 2) := by continuity
      have hne : ∀ᶠ u in nhds b, (a ^ 2 + u ^ 2 + c ^ 2 : ℝ) ≠ 0 :=
        hcont.continuousAt.eventually_ne h0
      filter_upwards [hne] with u hu
      exact ih (a, u, c) (ne_zero_of_normSq (show normSq (a, u, c) ≠ 0 from hu))
    have hu2 : HasDerivAt (fun u : ℝ => a ^ 2 + u ^ 2 + c ^ 2) (2 * b) b := by
      simpa using ((hasDerivAt_pow 2 b).const_add (a ^ 2)).add_const (c ^ 2)
    have hP := hasDerivAt_pEval_y (suppBd_Qp ((0 : ℕ), ny, nz)) a b c
    have hfrac := hasDerivAt_fracPow (fun u => a ^ 2 + u ^ 2 + c ^ 2)
      (fun t => pEval (deg ((0 : ℕ), ny, nz)) (Qp (0, ny, nz)) (a, t, c)) b
      (pEval (deg ((0 : ℕ), ny, nz)) (dPp .ay (Qp (0, ny, nz))) (a, b, c))
      (deg ((0 : ℕ), ny, nz)) hu2 hP hpos
    show deriv (fun u => pderiv (0, ny, nz) kernelF (a, u, c)) b = _
    rw [hev.deriv_eq, hfrac.deriv,
      show ((0 : ℕ), (ny + 1 : ℕ), nz) = ((0 : ℕ), ny, nz) + eA .ay from rfl,
      show deg (((0 : ℕ), ny, nz) + eA .ay) = deg ((0 : ℕ), ny, nz) + 1 from
        deg_add_eA .ay ((0 : ℕ), ny, nz),
      pEval_Qp_step .ay ((0 : ℕ), ny, nz) (a, b, c)]
    show _ = (normSq ((a : ℝ), b, c) * _ - _ * (b * _)) /
      (normSq ((a : ℝ), b, c) ^ (deg ((0 : ℕ), ny, nz) + 1) *
        Real.sqrt (normSq ((a : ℝ), b, c)))
    simp only [normSq]
    push_cast
    ring_nf
  | case3 nz ih =>
    intro d hd
    obtain ⟨a, b, c⟩ := d
    have h0 : (a ^ 2 + b ^ 2 + c ^ 2 : ℝ) ≠ 0 := ne_of_gt (normSq_pos hd)
    have hpos : (0 : ℝ) < a ^ 2 + b ^ 2 + c ^ 2 := normSq_pos hd
    have hstep : pderiv (0, 0, nz + 1) kernelF (a, b, c) =
        pdz (pderiv (0, 0, nz) kernelF) (a, b, c) := by
      show pdz^[nz + 1] kernelF (a, b, c) = _
      rw [Function.iterate_succ_apply']
      rfl
    rw [hstep]
    have hev : (fun u => pderiv (0, 0, nz) kernelF (a, b, u)) =ᶠ[nhds c]
        (fun u => pEval (deg ((0 : ℕ), 0, nz)) (Qp (0, 0, nz)) (a, b, u) /
          ((a ^ 2 + b ^ 2 + u ^ 2) ^ deg ((0 : ℕ), 0, nz) *
            Real.sqrt (a ^ 2 + b ^ 2 + u ^ 2))) := by
      have hcont : Continuous (fun u : ℝ => a ^ 2 + b ^ 2 + u ^ 2) := by continuity
      have hne : ∀ᶠ u in nhds c, (a ^ 2 + b ^ 2 + u ^ 2 : ℝ) ≠ 0 :=
        hcont.continuousAt.eventually_ne h0
      filter_upwards [hne] with u hu
      exact ih (a, b, u) (ne_zero_of_normSq (show normSq (a, b, u) ≠ 0 from hu))
    have hu2 : HasDerivAt (fun u : ℝ => a ^ 2 + b ^ 2 + u ^ 2) (2 * c) c := by
      simpa using (hasDerivAt_pow 2 c).const_add (a ^ 2 + b ^ 2)
    have hP := hasDerivAt_pEval_z (suppBd_Qp ((0 : ℕ), 0, nz)) a b c
    have hfrac := hasDerivAt_fracPow (fun u => a ^ 2 + b ^ 2 + u ^ 2)
      (fun t => pEval (deg ((0 : ℕ), 0, nz)) (Qp (0, 0, nz)) (a, b, t)) c
      (pEval (deg ((0 : ℕ), 0, nz)) (dPp .az (Qp (0, 0, nz))) (a, b, c))
      (deg ((0 : ℕ), 0, nz)) hu2 hP hpos
    show deriv (fun u => pderiv (0, 0, nz) kernelF (a, b, u)) c = _
    rw [hev.deriv_eq, hfrac.deriv,
      show ((0 : ℕ), (0 : ℕ), (nz + 1 : ℕ)) = ((0 : ℕ), 0, nz) + eA .az from rfl,
      show deg (((0 : ℕ), 0, nz) + eA .az) = deg ((0 : ℕ), 0, nz) + 1 from
        deg_add_eA .az ((0 : ℕ), 0, nz),
      pEval_Qp_step .az ((0 : ℕ), 0, nz) (a, b, c)]
    show _ = (normSq ((a : ℝ), b, c) * _ - _ * (c * _)) /
      (normSq ((a : ℝ), b, c) ^ (deg ((0 : ℕ), 0, nz) + 1) *
        Real.sqrt (normSq ((a : ℝ), b, c)))
    simp only [normSq]
    push_cast
    ring_nf

theorem cartVal_succ_x (x y z : ℕ) :
    cartVal ((x + 1 : ℕ), y, z) = (x + 1) * cartVal ((x : ℕ), y, z) := by
  simp [cartVal, cart_value, factorial_eq, Nat.factorial_succ]
  ring

theorem cartVal_succ_y (x y z : ℕ) :
    cartVal ((x : ℕ), y + 1, z) = (y + 1) * cartVal ((x : ℕ), y, z) := by
  simp [cartVal, cart_value, factorial_eq, Nat.factorial_succ]
  ring

theorem cartVal_succ_z (x y z : ℕ) :
    cartVal ((x : ℕ), y, z + 1) = (z + 1) * cartVal ((x : ℕ), y, z) := by
  simp [cartVal, cart_value, factorial_eq, Nat.factorial_succ]
  ring

theorem cartVal_zero_tuple : cartVal ((0 : ℕ), 0, 0) = 1 := by
  simp [cartVal, cart_value, factorial_eq]

theorem Qp_eA_eval (a : Axis) (d : ℝ × ℝ × ℝ) :
    pEval 1 (Qp (eA a)) d = -(coordA a d) := by
  have hq : Qp (eA a) = DOp a 0 (Qp (0, 0, 0)) := by
    have h := Qp_step a (0, 0, 0)
    rw [show deg ((0, 0, 0) : MIdx) = 0 from rfl] at h
    rw [show ((0, 0, 0) : MIdx) + eA a = eA a from by cases a <;> rfl] at h
    exact h
  rw [hq, DOp, show Qp (0, 0, 0) = delta0 from by rw [Qp], dPp_delta0, mulNp_zero,
    pEval_sub, pEval_smul, pEval_zero_fun,
    pEval_mulXp a suppBd_delta0 (by omega) d, pEval_delta0]
  norm_num

theorem derivSlot_split (t1 t2 t3 t4 t5 t6 mc Ninv cv : ℝ) :
    cv * ((t1 + t2 + t3 + t4 + t5 + t6) / mc * Ninv) =
      (cv * t1 + cv * t2 + cv * t3 + cv * t4 + cv * t5 + cv * t6) / mc * Ninv := by
  ring

/-- Phase A times Phase B: `α! ⬝ derivSlot α` equals the evaluated numerator
tableau `q_α(d)/(R²)^|α|/R`, for every multi-index and every nonzero `d`. -/
theorem cartVal_derivSlot (n : ℕ) : ∀ α : MIdx, deg α ≤ n → ∀ d : ℝ × ℝ × ℝ, d ≠ 0 →
    (cartVal α : ℝ) * derivSlot d (normSq d)⁻¹ ((Real.sqrt (normSq d))⁻¹) α =
      pEval (deg α) (Qp α) d / (normSq d ^ deg α * Real.sqrt (normSq d)) := by
  induction n with
  | zero =>
    intro α hα d hd
    obtain ⟨x, y, z⟩ := α
    simp only [deg] at hα
    obtain rfl : x = 0 := by omega
    obtain rfl : y = 0 := by omega
    obtain rfl : z = 0 := by omega
    rw [derivSlot]
    rw [if_pos (show deg ((0 : ℕ), 0, 0) = 0 from rfl), cartVal_zero_tuple,
      show Qp (0, 0, 0) = delta0 from by rw [Qp], pEval_delta0,
      show deg ((0 : ℕ), 0, 0) = 0 from rfl]
    simp
  | succ n IH =>
    intro α hα d hd
    rcases Nat.lt_or_ge (deg α) (n + 1) with hlt | hge
    · exact IH α (by omega) d hd
    have hd1 : deg α = n + 1 := le_antisymm hα hge
    have hN : normSq d ≠ 0 := ne_of_gt (normSq_pos hd)
    have hsr : Real.sqrt (normSq d) ≠ 0 := by
      simpa using Real.sqrt_ne_zero'.mpr (normSq_pos hd)
    have hQ := QpstarEval α d (by omega)
    obtain ⟨x, y, z⟩ := α
    simp only [deg] at hd1
    rcases n with _ | n'
    · -- total degree 1: the three unit multi-indices, handled concretely
      have hcase : (x = 1 ∧ y = 0 ∧ z = 0) ∨ (x = 0 ∧ y = 1 ∧ z = 0) ∨
          (x = 0 ∧ y = 0 ∧ z = 1) := by omega
      have hzero : derivSlot d (normSq d)⁻¹ ((Real.sqrt (normSq d))⁻¹)
          ((0 : ℕ), 0, 0) = (Real.sqrt (normSq d))⁻¹ := by
        rw [derivSlot]
        rfl
      rcases hcase with ⟨rfl, rfl, rfl⟩ | ⟨rfl, rfl, rfl⟩ | ⟨rfl, rfl, rfl⟩
      · rw [derivSlot, if_neg (show ¬(deg ((1 : ℕ), 0, 0) = 0) from by simp [deg])]
        simp only [deg]
        norm_num [-Prod.mk_zero_zero]
        rw [hzero, show ((1 : ℕ), (0 : ℕ), (0 : ℕ)) = eA .ax from rfl, Qp_eA_eval,
          show cartVal (eA .ax) = 1 from by
            rw [show eA .ax = ((0 + 1 : ℕ), 0, 0) from rfl, cartVal_succ_x,
              cartVal_zero_tuple]]
        simp only [coordA]
        field_simp
        first | ring1 | exact Or.inl trivial | (left; ring1) | trivial
      · rw [derivSlot, if_neg (show ¬(deg ((0 : ℕ), 1, 0) = 0) from by simp [deg])]
        simp only [deg]
        norm_num [-Prod.mk_zero_zero]
        rw [hzero, show ((0 : ℕ), (1 : ℕ), (0 : ℕ)) = eA .ay from rfl, Qp_eA_eval,
          show cartVal (eA .ay) = 1 from by
            rw [show eA .ay = ((0 : ℕ), 0 + 1, 0) from rfl, cartVal_succ_y,
              cartVal_zero_tuple]]
        simp only [coordA]
        field_simp
        first | ring1 | exact Or.inl trivial | (left; ring1) | trivial
      · rw [derivSlot, if_neg (show ¬(deg ((0 : ℕ), 0, 1) = 0) from by simp [deg])]
        simp only [deg]
        norm_num [-Prod.mk_zero_zero]
        rw [hzero, show ((0 : ℕ), (0 : ℕ), (1 : ℕ)) = eA .az from rfl, Qp_eA_eval,
          show cartVal (eA .az) = 1 from by
            rw [show eA .az = ((0 : ℕ), 0, 0 + 1) from rfl, cartVal_succ_z,
              cartVal_zero_tuple]]
        simp only [coordA]
        field_simp
        first | ring1 | exact Or.inl trivial | (left; ring1) | trivial
    -- total degree n' + 2: the recurrence case
    have hx1 : (cartVal ((x : ℕ), y, z) : ℝ) *
        (if 1 ≤ x then (1 - 2 * ((x + y + z : ℕ) : ℝ)) * d.1 *
            derivSlot d (normSq d)⁻¹ ((Real.sqrt (normSq d))⁻¹) (x - 1, y, z) else 0) =
        (1 - 2 * ((x + y + z : ℕ) : ℝ)) * ((x : ℝ) * (d.1 *
            (pEval (n' + 2) (Qp (x - 1, y, z)) d /
              (normSq d ^ (n' + 1) * Real.sqrt (normSq d))))) := by
      rcases Nat.eq_zero_or_pos x with h0 | hp
      · subst h0
        simp
      · obtain ⟨t, rfl⟩ : ∃ t, x = t + 1 := ⟨x - 1, by omega⟩
        rw [if_pos (by omega)]
        have hIH := IH ((t : ℕ), y, z) (by simp only [deg]; omega) d hd
        rw [show deg ((t : ℕ), y, z) = n' + 1 from by simp only [deg]; omega] at hIH
        rw [← pEval_congr (suppBd_Qp ((t : ℕ), y, z))
          (show deg ((t : ℕ), y, z) ≤ n' + 1 from by simp only [deg]; omega)
          (show n' + 1 ≤ n' + 2 from by omega) d] at hIH
        rw [show ((t + 1 : ℕ) - 1, y, z) = ((t : ℕ), y, z) from by simp]
        rw [cartVal_succ_x t y z]
        push_cast
        linear_combination
          ((1 - 2 * (((t : ℝ) + 1) + y + z)) * d.1 * ((t : ℝ) + 1)) * hIH
    have hx2 : (cartVal ((x : ℕ), y, z) : ℝ) *
        (if 2 ≤ x then (1 - ((x + y + z : ℕ) : ℝ)) *
            derivSlot d (normSq d)⁻¹ ((Real.sqrt (normSq d))⁻¹) (x - 2, y, z) else 0) =
        (1 - ((x + y + z : ℕ) : ℝ)) * (((x * (x - 1) : ℕ) : ℝ) *
            (pEval (n' + 2) (Qp (x - 2, y, z)) d /
              (normSq d ^ n' * Real.sqrt (normSq d)))) := by
      rcases Nat.lt_or_ge x 2 with h0 | hp
      · rw [if_neg (by omega), show x * (x - 1) = 0 from by
          have h1 : x = 0 ∨ x = 1 := by omega
          rcases h1 with h1 | h1 <;> simp [h1]]
        simp
      · obtain ⟨t, rfl⟩ : ∃ t, x = t + 2 := ⟨x - 2, by omega⟩
        rw [if_pos (by omega)]
        have hIH := IH ((t : ℕ), y, z) (by simp only [deg]; omega) d hd
        rw [show deg ((t : ℕ), y, z) = n' from by simp only [deg]; omega] at hIH
        rw [← pEval_congr (suppBd_Qp ((t : ℕ), y, z))
          (show deg ((t : ℕ), y, z) ≤ n' from by simp only [deg]; omega)
          (show n' ≤ n' + 2 from by omega) d] at hIH
        rw [show ((t + 2 : ℕ) - 2, y, z) = ((t : ℕ), y, z) from by simp]
        rw [show cartVal ((t + 2 : ℕ), y, z) =
            (t + 2) * ((t + 1) * cartVal ((t : ℕ), y, z)) from by
          rw [show (t + 2 : ℕ) = (t + 1) + 1 from rfl, cartVal_succ_x, cartVal_succ_x]]
        rw [show (t + 2) * (t + 2 - 1) = (t + 2) * (t + 1) from rfl]
        push_cast
        linear_combination
          ((1 - (((t : ℝ) + 2) + y + z)) * ((t : ℝ) + 2) * ((t : ℝ) + 1)) * hIH
    have hy1 : (cartVal ((x : ℕ), y, z) : ℝ) *
        (if 1 ≤ y then (1 - 2 * ((x + y + z : ℕ) : ℝ)) * d.2.1 *
            derivSlot d (normSq d)⁻¹ ((Real.sqrt (normSq d))⁻¹) (x, y - 1, z) else 0) =
        (1 - 2 * ((x + y + z : ℕ) : ℝ)) * ((y : ℝ) * (d.2.1 *
            (pEval (n' + 2) (Qp (x, y - 1, z)) d /
              (normSq d ^ (n' + 1) * Real.sqrt (normSq d))))) := by
      rcases Nat.eq_zero_or_pos y with h0 | hp
      · subst h0
        simp
      · obtain ⟨t, rfl⟩ : ∃ t, y = t + 1 := ⟨y - 1, by omega⟩
        rw [if_pos (by omega)]
        have hIH := IH ((x : ℕ), t, z) (by simp only [deg]; omega) d hd
        rw [show deg ((x : ℕ), t, z) = n' + 1 from by simp only [deg]; omega] at hIH
        rw [← pEval_congr (suppBd_Qp ((x : ℕ), t, z))
          (show deg ((x : ℕ), t, z) ≤ n' + 1 from by simp only [deg]; omega)
          (show n' + 1 ≤ n' + 2 from by omega) d] at hIH
        rw [show ((x : ℕ), (t + 1 : ℕ) - 1, z) = ((x : ℕ), t, z) from by simp]
        rw [cartVal_succ_y x t z]
        push_cast
        linear_combination
          ((1 - 2 * ((x : ℝ) + ((t : ℝ) + 1) + z)) * d.2.1 * ((t : ℝ) + 1)) * hIH
    have hy2 : (cartVal ((x : ℕ), y, z) : ℝ) *
        (if 2 ≤ y then (1 - ((x + y + z : ℕ) : ℝ)) *
            derivSlot d (normSq d)⁻¹ ((Real.sqrt (normSq d))⁻¹) (x, y - 2, z) else 0) =
        (1 - ((x + y + z : ℕ) : ℝ)) * (((y * (y - 1) : ℕ) : ℝ) *
            (pEval (n' + 2) (Qp (x, y - 2, z)) d /
              (normSq d ^ n' * Real.sqrt (normSq d)))) := by
      rcases Nat.lt_or_ge y 2 with h0 | hp
      · rw [if_neg (by omega), show y * (y - 1) = 0 from by
          have h1 : y = 0 ∨ y = 1 := by omega
          rcases h1 with h1 | h1 <;> simp [h1]]
        simp
      · obtain ⟨t, rfl⟩ : ∃ t, y = t + 2 := ⟨y - 2, by omega⟩
        rw [if_pos (by omega)]
        have hIH := IH ((x : ℕ), t, z) (by simp only [deg]; omega) d hd
        rw [show deg ((x : ℕ), t, z) = n' from by simp only [deg]; omega] at hIH
        rw [← pEval_congr (suppBd_Qp ((x : ℕ), t, z))
          (show deg ((x : ℕ), t, z) ≤ n' from by simp only [deg]; omega)
          (show n' ≤ n' + 2 from by omega) d] at hIH
        rw [show ((x : ℕ), (t + 2 : ℕ) - 2, z) = ((x : ℕ), t, z) from by simp]
        rw [show cartVal ((x : ℕ), t + 2, z) =
            (t + 2) * ((t + 1) * cartVal ((x : ℕ), t, z)) from by
          rw [show (t + 2 : ℕ) = (t + 1) + 1 from rfl, cartVal_succ_y, cartVal_succ_y]]
        rw [show (t + 2) * (t + 2 - 1) = (t + 2) * (t + 1) from rfl]
        push_cast
        linear_combination
          ((1 - ((x : ℝ) + ((t : ℝ) + 2) + z)) * ((t : ℝ) + 2) * ((t : ℝ) + 1)) * hIH
    have hz1 : (cartVal ((x : ℕ), y, z) : ℝ) *
        (if 1 ≤ z then (1 - 2 * ((x + y + z : ℕ) : ℝ)) * d.2.2 *
            derivSlot d (normSq d)⁻¹ ((Real.sqrt (normSq d))⁻¹) (x, y, z - 1) else 0) =
        (1 - 2 * ((x + y + z : ℕ) : ℝ)) * ((z : ℝ) * (d.2.2 *
            (pEval (n' + 2) (Qp (x, y, z - 1)) d /
              (normSq d ^ (n' + 1) * Real.sqrt (normSq d))))) := by
      rcases Nat.eq_zero_or_pos z with h0 | hp
      · subst h0
        simp
      · obtain ⟨t, rfl⟩ : ∃ t, z = t + 1 := ⟨z - 1, by omega⟩
        rw [if_pos (by omega)]
        have hIH := IH ((x : ℕ), y, t) (by simp only [deg]; omega) d hd
        rw [show deg ((x : ℕ), y, t) = n' + 1 from by simp only [deg]; omega] at hIH
        rw [← pEval_congr (suppBd_Qp ((x : ℕ), y, t))
          (show deg ((x : ℕ), y, t) ≤ n' + 1 from by simp only [deg]; omega)
          (show n' + 1 ≤ n' + 2 from by omega) d] at hIH
        rw [show ((x : ℕ), y, (t + 1 : ℕ) - 1) = ((x : ℕ), y, t) from by simp]
        rw [cartVal_succ_z x y t]
        push_cast
        linear_combination
          ((1 - 2 * ((x : ℝ) + y + ((t : ℝ) + 1))) * d.2.2 * ((t : ℝ) + 1)) * hIH
    have hz2 : (cartVal ((x : ℕ), y, z) : ℝ) *
        (if 2 ≤ z then (1 - ((x + y + z : ℕ) : ℝ)) *
            derivSlot d (normSq d)⁻¹ ((Real.sqrt (normSq d))⁻¹) (x, y, z - 2) else 0) =
        (1 - ((x + y + z : ℕ) : ℝ)) * (((z * (z - 1) : ℕ) : ℝ) *
            (pEval (n' + 2) (Qp (x, y, z - 2)) d /
              (normSq d ^ n' * Real.sqrt (normSq d)))) := by
      rcases Nat.lt_or_ge z 2 with h0 | hp
      · rw [if_neg (by omega), show z * (z - 1) = 0 from by
          have h1 : z = 0 ∨ z = 1 := by omega
          rcases h1 with h1 | h1 <;> simp [h1]]
        simp
      · obtain ⟨t, rfl⟩ : ∃ t, z = t + 2 := ⟨z - 2, by omega⟩
        rw [if_pos (by omega)]
        have hIH := IH ((x : ℕ), y, t) (by simp only [deg]; omega) d hd
        rw [show deg ((x : ℕ), y, t) = n' from by simp only [deg]; omega] at hIH
        rw [← pEval_congr (suppBd_Qp ((x : ℕ), y, t))
          (show deg ((x : ℕ), y, t) ≤ n' from by simp only [deg]; omega)
          (show n' ≤ n' + 2 from by omega) d] at hIH
        rw [show ((x : ℕ), y, (t + 2 : ℕ) - 2) = ((x : ℕ), y, t) from by simp]
        rw [show cartVal ((x : ℕ), y, t + 2) =
            (t + 2) * ((t + 1) * cartVal ((x : ℕ), y, t)) from by
          rw [show (t + 2 : ℕ) = (t + 1) + 1 from rfl, cartVal_succ_z, cartVal_succ_z]]
        rw [show (t + 2) * (t + 2 - 1) = (t + 2) * (t + 1) from rfl]
        push_cast
        linear_combination
          ((1 - ((x : ℝ) + y + ((t : ℝ) + 2))) * ((t : ℝ) + 2) * ((t : ℝ) + 1)) * hIH
    rw [derivSlot, if_neg (show ¬(deg ((x : ℕ), y, z) = 0) from by
      simp only [deg]; omega)]
    simp only [deg]
    rw [derivSlot_split, hx1, hx2, hy1, hy2, hz1, hz2]
    simp only [sumAx, cA, coordA, eA, Prod.mk_sub_mk, Nat.sub_zero, deg] at hQ
    rw [hd1] at hQ ⊢
    simp only [show ∀ t : ℕ, 2 * (t + 2) - 1 = 2 * t + 3 from fun t => by omega,
      show ∀ t : ℕ, t + 2 - 1 = t + 1 from fun t => by omega] at hQ
    push_cast at hQ ⊢
    simp only [show (n' + 1 + 1 : ℕ) = n' + 2 from rfl,
      show ∀ t : ℕ, t - 1 - 1 = t - 2 from fun t => by omega] at hQ ⊢
    field_simp
    linear_combination
      (-(normSq d ^ (6 * n' + 4) * Real.sqrt (normSq d) ^ 6)) * hQ

/-- C2: for every order `P`, every nonzero displacement `d`, and every
multi-index `α` with `|α| ≤ P`, the slot `getCoef` builds equals the plain
partial derivative `∂^α(1/R)(d)` — not `α!` times it as the claim states:
Phase A's recursion produces `∂^α(1/R)/α!` and Phase B's multiplication by
`α! = nx!·ny!·nz!` cancels that factor exactly. -/
theorem C2_getCoef_derivatives (P : ℕ) (d : ℝ × ℝ × ℝ) (hd : d ≠ 0)
    (α : MIdx) (hα : deg α ≤ P) :
    getCoef P d (normSq d)⁻¹ ((Real.sqrt (normSq d))⁻¹) α =
      pderiv α kernelF d := by
  have h1 := cartVal_derivSlot (deg α) α le_rfl d hd
  have h2 := pderiv_eq_qfun α d hd
  simp only [getCoef, if_pos hα]
  rw [h1, h2]

/-- Counterexample to C2 as stated: at `d = (1,0,0)` and `α = (2,0,0)` the
code's slot holds `∂²ₓ(1/R)(d) = 2`, while the claim predicts
`α! ⬝ ∂²ₓ(1/R)(d) = 4`. -/
theorem C2_counterexample :
    getCoef 2 ((1:ℝ), 0, 0) (normSq ((1:ℝ), 0, 0))⁻¹
        ((Real.sqrt (normSq ((1:ℝ), 0, 0)))⁻¹) (2, 0, 0) ≠
      (cartVal (2, 0, 0) : ℝ) * pderiv (2, 0, 0) kernelF ((1:ℝ), 0, 0) := by
  have hd : (((1:ℝ), 0, 0) : ℝ × ℝ × ℝ) ≠ 0 := by
    simp [Prod.ext_iff]
  have h1 : normSq ((1:ℝ), 0, 0) = 1 := by norm_num [normSq]
  have hp : pderiv (2, 0, 0) kernelF ((1:ℝ), 0, 0) = pdx (pdx kernelF) ((1:ℝ), 0, 0) := rfl
  rw [hp, pdx_pdx_kernelF hd, h1]
  norm_num [getCoef, deg, cartVal, cart_value, factorial_eq, derivSlot_d200,
    -Prod.mk_zero_zero]

/-- Witness for C2 (amended) at `P = 2`, `d = (1,0,0)`, `α = (1,0,0)`. -/
theorem C2_witness :
    (((1:ℝ), 0, 0) : ℝ × ℝ × ℝ) ≠ 0 ∧ deg (1, 0, 0) ≤ 2 ∧
      getCoef 2 ((1:ℝ), 0, 0) (normSq ((1:ℝ), 0, 0))⁻¹
          ((Real.sqrt (normSq ((1:ℝ), 0, 0)))⁻¹) (1, 0, 0) =
        pderiv (1, 0, 0) kernelF ((1:ℝ), 0, 0) :=
  ⟨by simp [Prod.ext_iff], by decide,
    C2_getCoef_derivatives 2 ((1:ℝ), 0, 0) (by simp [Prod.ext_iff]) (1, 0, 0) (by decide)⟩
